import Mathlib

/-!
Shallow embedding of the ShortestLineAlgs pathfinding core:
the four grid shortest-path algorithms (`dijShortestPath`, `aStarShortestPath`,
`bellmanFordShortestPath`, `floydWarsShortestPath`), the node-graph algorithms
(`bfsNodePath`, `dfsNodePath`, `dijkstraNodePath`), the `NodeModel` id
generator, and the grid playback controller (`startRAF`'s tick loop,
`stepAnim`, `clearAnim`).

Conventions: JS numbers appearing as integer counters, distances and
coordinates are embedded as `Int`/`Nat`; the JS sentinel `1e9` is the exact
integer `1000000000`; JS `Set`s keyed by `"r,c"` strings are embedded as lists
of coordinates (the string key is injective on integer pairs); 2-D JS arrays
indexed in bounds are embedded as total functions with pointwise update; the
unbounded `while` loops of Dijkstra/A* are given an explicit fuel large enough
for the loop's termination measure (each iteration pops one queue entry, and
every push strictly decreases one cell's distance, which lies in
`[0, 1e9]`, so `rows*cols*1e9 + rows*cols + 2` iterations can never be
exhausted); predecessor walks are given fuel `rows*cols + 2`, past any
acyclic chain.
-/

/-- A grid coordinate, the `{r, c}` objects of the source. -/
structure Cell where
  r : Int
  c : Int

deriving DecidableEq, Repr

/-- `GridModel` (src/models/GridModel.js): dimensions, wall set, optional
`start` and `end` markers.  The field `endp` embeds the source's `end`
(a Lean keyword). -/
structure GridModel where
  rows : Nat
  cols : Nat
  walls : List Cell
  start : Option Cell
  endp : Option Cell

deriving DecidableEq, Repr

/-- `GridModel.isWall(r, c)`: membership in the wall set. -/
def GridModel.isWall (m : GridModel) (r c : Int) : Bool :=
  m.walls.contains ⟨r, c⟩

/-- The `1e9` "infinite" sentinel shared by all grid algorithms. -/
def INF : Int := 1000000000

/-- Neighbour offsets `DIRS = [[1,0],[-1,0],[0,1],[0,-1]]` (down, up, right,
left), shared by all grid algorithms. -/
def DIRS : List (Int × Int) := [(1, 0), (-1, 0), (0, 1), (0, -1)]

/-- A cell is inside the `rows × cols` grid. -/
def inGrid (m : GridModel) (x : Cell) : Prop :=
  0 ≤ x.r ∧ x.r < (m.rows : Int) ∧ 0 ≤ x.c ∧ x.c < (m.cols : Int)

instance (m : GridModel) (x : Cell) : Decidable (inGrid m x) := by
  unfold inGrid; infer_instance

/-- Result record `{path, branches}` of the grid algorithms. -/
structure PathResult where
  path : List Cell
  branches : List (List Cell)

deriving DecidableEq, Repr

/-- Stable insertion used to model JS `Array.prototype.sort` (stable since
ES2019): an element is inserted behind every earlier element it does not
strictly precede. -/
def insertSorted (le : α → α → Bool) (a : α) : List α → List α
  | [] => [a]
  | b :: l => if le a b then a :: b :: l else b :: insertSorted le a l

/-- Stable sort by repeated insertion; equal-key elements keep their
original relative order, as JS `sort` guarantees. -/
def sortStable (le : α → α → Bool) : List α → List α
  | [] => []
  | a :: l => insertSorted le a (sortStable le l)

/-! ### Dijkstra on the grid (`dijShortestPath`, src/algorithms/dijkstra.js) -/

/-- A priority-queue entry `{r, c, d}`. -/
structure PQE where
  r : Int
  c : Int
  d : Int

deriving DecidableEq, Repr

/-- Working state of the Dijkstra loop: distance table, predecessor table,
pop order, and queue. -/
structure DijState where
  dist : Cell → Int
  prev : Cell → Option Cell
  popped : List Cell
  pq : List PQE

/-- One neighbour relaxation of `dijShortestPath`: bounds check, wall check,
then `nd = d + 1` improvement test. -/
def dijRelaxDir (m : GridModel) (x : Cell) (d : Int) (st : DijState)
    (dir : Int × Int) : DijState :=
  let nr := x.r + dir.1
  let nc := x.c + dir.2
  if nr < 0 ∨ (m.rows : Int) ≤ nr ∨ nc < 0 ∨ (m.cols : Int) ≤ nc then st
  else if m.isWall nr nc then st
  else
    let nd := d + 1
    if nd < st.dist ⟨nr, nc⟩ then
      { st with
        dist := Function.update st.dist ⟨nr, nc⟩ nd
        prev := Function.update st.prev ⟨nr, nc⟩ (some x)
        pq := st.pq ++ [⟨nr, nc, nd⟩] }
    else st

/-- Relaxation of the four neighbours of a popped cell, in `DIRS` order. -/
def dijStep (m : GridModel) (x : Cell) (d : Int) (st : DijState) : DijState :=
  DIRS.foldl (dijRelaxDir m x d) st

/-- The `while (pq.length)` loop of `dijShortestPath`: sort the queue by
ascending `d` (stably), shift the head, record it in `popped`, stop when the
end cell is popped, otherwise relax its neighbours. -/
def dijLoop (m : GridModel) (e : Cell) : Nat → DijState → DijState
  | 0, st => st
  | fuel + 1, st =>
    match sortStable (fun a b : PQE => decide (a.d ≤ b.d)) st.pq with
    | [] => st
    | top :: rest =>
      let st1 : DijState :=
        { st with pq := rest, popped := st.popped ++ [⟨top.r, top.c⟩] }
      if top.r = e.r ∧ top.c = e.c then st1
      else dijLoop m e fuel (dijStep m ⟨top.r, top.c⟩ top.d st1)

/-- Fuel for the Dijkstra/A* `while` loop, covering the measure
`(sum of finite distances) + (queue length)`. -/
def gridFuel (m : GridModel) : Nat :=
  m.rows * m.cols * 1000000000 + m.rows * m.cols + 2

/-- Fuel for predecessor walks, past any acyclic chain of grid cells. -/
def walkFuel (m : GridModel) : Nat := m.rows * m.cols + 2

/-- The main-path walk `for (let cur = end; cur; cur = prev[cur.r][cur.c])
path.push(cur)`. -/
def walkChain (prev : Cell → Option Cell) : Nat → Cell → List Cell
  | 0, x => [x]
  | fuel + 1, x =>
    x :: (match prev x with
          | none => []
          | some p => walkChain prev fuel p)

/-- The branch walk shared by Dijkstra/A*/Bellman-Ford: push the current
cell, break once `start` has been pushed, otherwise follow the predecessor
link. -/
def walkToStart (prev : Cell → Option Cell) (s : Cell) :
    Nat → Cell → List Cell
  | 0, x => [x]
  | fuel + 1, x =>
    x :: (if x = s then []
          else
            match prev x with
            | none => []
            | some p => walkToStart prev s fuel p)

/-- Initial Dijkstra state: `dist[start] = 0`, empty predecessors, queue
`[{start, 0}]`. -/
def dijInit (s : Cell) : DijState :=
  { dist := Function.update (fun _ => INF) s 0
    prev := fun _ => none
    popped := []
    pq := [⟨s.r, s.c, 0⟩] }

/-- The state left by the Dijkstra loop. -/
def dijFinal (m : GridModel) (s e : Cell) : DijState :=
  dijLoop m e (gridFuel m) (dijInit s)

/-- `dijShortestPath` (src/algorithms/dijkstra.js): guard on unset markers,
run the loop, return `{path: [], branches: []}` if the end distance is still
`INF`, else reconstruct the path from `end` and one branch per popped cell
off the path. -/
def dijShortestPath (m : GridModel) : PathResult :=
  match m.start, m.endp with
  | some s, some e =>
    let fin := dijFinal m s e
    if fin.dist e = INF then ⟨[], []⟩
    else
      let shortest := (walkChain fin.prev (walkFuel m) e).reverse
      let branches :=
        (fin.popped.filter (fun x => ¬ shortest.contains x)).map
          (fun x => (walkToStart fin.prev s (walkFuel m) x).reverse)
      ⟨shortest, branches⟩
  | _, _ => ⟨[], []⟩

/-! ### A* on the grid (`aStarShortestPath`, src A* module) -/

/-- An A* queue entry `{r, c, f, g}`. -/
structure PQA where
  r : Int
  c : Int
  f : Int
  g : Int

deriving DecidableEq, Repr

/-- Working state of the A* loop. -/
structure AStarState where
  g : Cell → Int
  f : Cell → Int
  prev : Cell → Option Cell
  popped : List Cell
  pq : List PQA

/-- Manhattan heuristic `h(r, c) = |r - end.r| + |c - end.c|`. -/
def manhattan (e : Cell) (r c : Int) : Int :=
  (r - e.r).natAbs + (c - e.c).natAbs

/-- One neighbour relaxation of `aStarShortestPath`. -/
def aStarRelaxDir (m : GridModel) (e : Cell) (x : Cell) (gCur : Int)
    (st : AStarState) (dir : Int × Int) : AStarState :=
  let nr := x.r + dir.1
  let nc := x.c + dir.2
  if nr < 0 ∨ (m.rows : Int) ≤ nr ∨ nc < 0 ∨ (m.cols : Int) ≤ nc then st
  else if m.isWall nr nc then st
  else
    let tentativeG := gCur + 1
    if tentativeG < st.g ⟨nr, nc⟩ then
      let nf := tentativeG + manhattan e nr nc
      { st with
        g := Function.update st.g ⟨nr, nc⟩ tentativeG
        f := Function.update st.f ⟨nr, nc⟩ nf
        prev := Function.update st.prev ⟨nr, nc⟩ (some x)
        pq := st.pq ++ [⟨nr, nc, nf, tentativeG⟩] }
    else st

/-- Relaxation of the four neighbours, in `DIRS` order. -/
def aStarStep (m : GridModel) (e : Cell) (x : Cell) (gCur : Int)
    (st : AStarState) : AStarState :=
  DIRS.foldl (aStarRelaxDir m e x gCur) st

/-- The JS comparator `(a, b) => (a.f === b.f ? a.g - b.g : a.f - b.f)` as a
non-strict order for the stable sort. -/
def aStarLe (a b : PQA) : Bool :=
  decide (a.f < b.f ∨ (a.f = b.f ∧ a.g ≤ b.g))

/-- The `while (pq.length)` loop of `aStarShortestPath`: sort by `f` with
ties by `g`, shift, record in `popped`, stop when the end cell is popped. -/
def aStarLoop (m : GridModel) (e : Cell) : Nat → AStarState → AStarState
  | 0, st => st
  | fuel + 1, st =>
    match sortStable aStarLe st.pq with
    | [] => st
    | top :: rest =>
      let st1 : AStarState :=
        { st with pq := rest, popped := st.popped ++ [⟨top.r, top.c⟩] }
      if top.r = e.r ∧ top.c = e.c then st1
      else aStarLoop m e fuel (aStarStep m e ⟨top.r, top.c⟩ top.g st1)

/-- Initial A* state. -/
def aStarInit (e s : Cell) : AStarState :=
  { g := Function.update (fun _ => INF) s 0
    f := Function.update (fun _ => INF) s (manhattan e s.r s.c)
    prev := fun _ => none
    popped := []
    pq := [⟨s.r, s.c, manhattan e s.r s.c, 0⟩] }

/-- The state left by the A* loop. -/
def aStarFinal (m : GridModel) (s e : Cell) : AStarState :=
  aStarLoop m e (gridFuel m) (aStarInit e s)

/-- `aStarShortestPath`: same shell as Dijkstra, with the `g`-table playing
the distance role. -/
def aStarShortestPath (m : GridModel) : PathResult :=
  match m.start, m.endp with
  | some s, some e =>
    let fin := aStarFinal m s e
    if fin.g e = INF then ⟨[], []⟩
    else
      let shortest := (walkChain fin.prev (walkFuel m) e).reverse
      let branches :=
        (fin.popped.filter (fun x => ¬ shortest.contains x)).map
          (fun x => (walkToStart fin.prev s (walkFuel m) x).reverse)
      ⟨shortest, branches⟩
  | _, _ => ⟨[], []⟩

/-! ### Bellman-Ford on the grid (`bellmanFordShortestPath`,
src/algorithms/bellmanford.js) -/

/-- Working state of the Bellman-Ford sweeps; `anyChange` is the per-sweep
relaxation flag. -/
structure BFState where
  dist : Cell → Int
  prev : Cell → Option Cell
  seen : Cell → Bool
  visitedOrder : List Cell
  anyChange : Bool

/-- All grid cells in row-major order (rows outer, columns inner), the order
both Bellman-Ford sweeps and Floyd-Warshall initialisation visit them. -/
def rowMajor (m : GridModel) : List Cell :=
  (List.range m.rows).flatMap
    (fun r => (List.range m.cols).map (fun c => ⟨Int.ofNat r, Int.ofNat c⟩))

/-- One neighbour relaxation of a Bellman-Ford sweep: on improvement the
cell is appended to `visitedOrder` the first time it is ever improved, and
`anyChange` is raised. -/
def bfRelaxDir (m : GridModel) (x : Cell) (dHere : Int) (st : BFState)
    (dir : Int × Int) : BFState :=
  let nr := x.r + dir.1
  let nc := x.c + dir.2
  if nr < 0 ∨ (m.rows : Int) ≤ nr ∨ nc < 0 ∨ (m.cols : Int) ≤ nc then st
  else if m.isWall nr nc then st
  else
    let nd := dHere + 1
    if nd < st.dist ⟨nr, nc⟩ then
      let st' :=
        if st.seen ⟨nr, nc⟩ then st
        else
          { st with
            visitedOrder := st.visitedOrder ++ [⟨nr, nc⟩]
            seen := Function.update st.seen ⟨nr, nc⟩ true }
      { st' with
        dist := Function.update st'.dist ⟨nr, nc⟩ nd
        prev := Function.update st'.prev ⟨nr, nc⟩ (some x)
        anyChange := true }
    else st

/-- Processing of one cell within a sweep: skip unreached cells, else relax
the four neighbours. -/
def bfCellStep (m : GridModel) (st : BFState) (x : Cell) : BFState :=
  let dHere := st.dist x
  if dHere = INF then st
  else DIRS.foldl (bfRelaxDir m x dHere) st

/-- One full relaxation sweep over all cells in row-major order, starting
with a cleared `anyChange` flag. -/
def bfSweep (m : GridModel) (st : BFState) : BFState :=
  (rowMajor m).foldl (bfCellStep m) { st with anyChange := false }

/-- The outer `for (iter = 0; iter < V - 1; iter++)` loop with its
`if (!anyChange) break` early exit. -/
def bfRounds (m : GridModel) : Nat → BFState → BFState
  | 0, st => st
  | k + 1, st =>
    let st' := bfSweep m st
    if st'.anyChange then bfRounds m k st' else st'

/-- Initial Bellman-Ford state: `dist[start] = 0`, `seen[start] = true`. -/
def bfInit (s : Cell) : BFState :=
  { dist := Function.update (fun _ => INF) s 0
    prev := fun _ => none
    seen := Function.update (fun _ => false) s true
    visitedOrder := []
    anyChange := false }

/-- The state left by the sweep loop (`V - 1` rounds at most). -/
def bfFinal (m : GridModel) (s : Cell) : BFState :=
  bfRounds m (m.rows * m.cols - 1) (bfInit s)

/-- `bellmanFordShortestPath` (src/algorithms/bellmanford.js). -/
def bellmanFordShortestPath (m : GridModel) : PathResult :=
  match m.start, m.endp with
  | some s, some e =>
    let fin := bfFinal m s
    if fin.dist e = INF then ⟨[], []⟩
    else
      let shortest := (walkChain fin.prev (walkFuel m) e).reverse
      let branches :=
        (fin.visitedOrder.filter (fun x => ¬ shortest.contains x)).map
          (fun x => (walkToStart fin.prev s (walkFuel m) x).reverse)
      ⟨shortest, branches⟩
  | _, _ => ⟨[], []⟩

/-! ### Floyd-Warshall on the grid (`floydWarsShortestPath`) -/

/-- Working state of Floyd-Warshall: all-pairs distance and next-hop
matrices over linear cell indices `0 .. V-1`, plus the log of destinations
whose distance from `start` improved. -/
structure FWState where
  dist : Nat × Nat → Int
  next : Nat × Nat → Option Nat
  improved : List Nat

/-- `idx(r, c) = r * cols + c`. -/
def fwIdx (m : GridModel) (r c : Nat) : Nat := r * m.cols + c

/-- `rc(v) = {r: floor(v / cols), c: v % cols}`. -/
def fwRC (m : GridModel) (v : Nat) : Cell :=
  ⟨((v / m.cols : Nat) : Int), ((v % m.cols : Nat) : Int)⟩

/-- `V = rows * cols`. -/
def fwV (m : GridModel) : Nat := m.rows * m.cols

/-- One direction of the Floyd-Warshall initialisation for the cell `p`
with linear index `v`: a weight-1 edge into an in-bounds non-wall
neighbour. -/
def fwInitDir (m : GridModel) (p : Nat × Nat) (v : Nat) (st : FWState)
    (dir : Int × Int) : FWState :=
  let nr := (p.1 : Int) + dir.1
  let nc := (p.2 : Int) + dir.2
  if nr < 0 ∨ (m.rows : Int) ≤ nr ∨ nc < 0 ∨ (m.cols : Int) ≤ nc then st
  else if m.isWall nr nc then st
  else
    let u := fwIdx m nr.toNat nc.toNat
    { st with
      dist := Function.update st.dist (v, u) 1
      next := Function.update st.next (v, u) (some u) }

/-- Initialisation for one cell `(r, c)`: `dist[v][v] = 0`, `next[v][v] = v`,
then weight-1 edges into each in-bounds non-wall neighbour. -/
def fwInitCell (m : GridModel) (st : FWState) (p : Nat × Nat) : FWState :=
  let v := fwIdx m p.1 p.2
  let st0 : FWState :=
    { st with
      dist := Function.update st.dist (v, v) 0
      next := Function.update st.next (v, v) (some v) }
  DIRS.foldl (fwInitDir m p v) st0

/-- All cell index pairs `(r, c)` in the order of the initialisation loops. -/
def fwCells (m : GridModel) : List (Nat × Nat) :=
  (List.range m.rows).flatMap
    (fun r => (List.range m.cols).map (fun c => (r, c)))

/-- The fully initialised matrices: everything `INF`/`null`, then the
per-cell initialisation. -/
def fwInit (m : GridModel) : FWState :=
  (fwCells m).foldl (fwInitCell m)
    { dist := fun _ => INF, next := fun _ => none, improved := [] }

/-- The innermost relaxation of the triple loop: try intermediate `k`
between `i` and `j`, log `j` in `improved` when `i` is the start index. -/
def fwUpd (startV k i : Nat) (dik : Int) (st : FWState) (j : Nat) : FWState :=
  let alt := dik + st.dist (k, j)
  if alt < st.dist (i, j) then
    { dist := Function.update st.dist (i, j) alt
      next := Function.update st.next (i, j) (st.next (i, k))
      improved := if i = startV then st.improved ++ [j] else st.improved }
  else st

/-- The middle loop body: read `dik = dist[i][k]` once, skip the row if it
is `INF`, else relax all destinations `j`. -/
def fwRow (m : GridModel) (startV k : Nat) (st : FWState) (i : Nat) :
    FWState :=
  let dik := st.dist (i, k)
  if dik = INF then st
  else (List.range (fwV m)).foldl (fwUpd startV k i dik) st

/-- The triple loop over intermediate `k`, source `i`, destination `j`. -/
def fwRun (m : GridModel) (startV : Nat) (st : FWState) : FWState :=
  (List.range (fwV m)).foldl
    (fun st k => (List.range (fwV m)).foldl (fwRow m startV k) st) st

/-- The main-path walk `while (v !== null && v !== endV) { path.push(rc(v));
v = next[v][endV] }` (the trailing `path.push(rc(endV))` is appended by the
caller). -/
def fwPathLoop (m : GridModel) (nxt : Nat × Nat → Option Nat) (endV : Nat) :
    Nat → Option Nat → List Cell
  | 0, _ => []
  | _ + 1, none => []
  | fuel + 1, some v =>
    if v = endV then []
    else fwRC m v :: fwPathLoop m nxt endV fuel (nxt (v, endV))

/-- The branch walk `while (u !== null && u !== j) { branch.push(rc(u));
u = next[u][j]; if (!u) break }`: the JS `!u` test also breaks on the falsy
index `0` (the top-left cell). -/
def fwBranchLoop (m : GridModel) (nxt : Nat × Nat → Option Nat) (j : Nat) :
    Nat → Option Nat → List Cell
  | 0, _ => []
  | _ + 1, none => []
  | fuel + 1, some u =>
    if u = j then []
    else
      fwRC m u ::
        (match nxt (u, j) with
         | none => []
         | some u' =>
           if u' = 0 then [] else fwBranchLoop m nxt j fuel (some u'))

/-- `floydWarsShortestPath`: guard, build the matrices, run the triple loop,
reconstruct the next-hop path from start and one branch per improved
off-path destination. -/
def floydWarsShortestPath (m : GridModel) : PathResult :=
  match m.start, m.endp with
  | some s, some e =>
    let startV := fwIdx m s.r.toNat s.c.toNat
    let endV := fwIdx m e.r.toNat e.c.toNat
    let fin := fwRun m startV (fwInit m)
    if fin.dist (startV, endV) = INF then ⟨[], []⟩
    else
      let path :=
        fwPathLoop m fin.next endV (walkFuel m) (some startV) ++ [fwRC m endV]
      let branches :=
        (fin.improved.filter (fun j => ¬ path.contains (fwRC m j))).map
          (fun j =>
            fwBranchLoop m fin.next j (walkFuel m) (some startV) ++ [fwRC m j])
      ⟨path, branches⟩
  | _, _ => ⟨[], []⟩

/-! ### NodeModel (src/models/NodeModel.js) -/

/-- A graph node `{id, x, y, r}` (pixel coordinates idealised as
integers). -/
structure GNode where
  id : String
  x : Int
  y : Int
  r : Int

deriving DecidableEq, Repr

/-- A directed weighted edge `{from, to, w}`; `fro`/`toN` embed the
source's `from`/`to` (Lean keywords). -/
structure GEdge where
  fro : String
  toN : String
  w : Int

deriving DecidableEq, Repr

/-- `NodeModel` state: nodes, the `_counter` behind `_nextID`, edges, and
the `start`/`goal` marker ids. -/
structure NodeModel where
  nodes : List GNode
  counter : Nat
  edges : List GEdge
  start : Option String
  goal : Option String

deriving DecidableEq, Repr

/-- The digit list produced by `_nextID`'s do-while loop
(`id = String.fromCharCode(65 + n % 26) + id; n = Math.floor(n / 26) - 1`),
most significant digit first; the fuel argument dominates the number of
iterations (each iteration at least halves `n`). -/
def idDigitsAux : Nat → Nat → List Nat
  | 0, n => [n % 26]
  | fuel + 1, n =>
    if n < 26 then [n] else idDigitsAux fuel (n / 26 - 1) ++ [n % 26]

/-- Digits of the bijective base-26 id encoding of `n`. -/
def idDigits (n : Nat) : List Nat := idDigitsAux n n

/-- `_nextID`'s letter string for counter value `n` (`A`, `B`, …, `Z`,
`AA`, `AB`, …). -/
def toID (n : Nat) : String :=
  String.mk ((idDigits n).map (fun d => Char.ofNat (65 + d)))

/-- `NodeModel.add(x, y, r = 22)`: assign the next id, advance the counter,
append the node. -/
def NodeModel.add (m : NodeModel) (x y : Int) (r : Int := 22) : NodeModel :=
  { m with
    counter := m.counter + 1
    nodes := m.nodes ++ [⟨toID m.counter, x, y, r⟩] }

/-- `NodeModel.remove(node)`: drop the node (if present) and every edge
touching its id.  JS locates the node by object identity; with pairwise
distinct nodes structural equality coincides. -/
def NodeModel.remove (m : NodeModel) (node : GNode) : NodeModel :=
  if m.nodes.contains node then
    { m with
      nodes := m.nodes.erase node
      edges := m.edges.filter (fun e => e.fro ≠ node.id ∧ e.toN ≠ node.id) }
  else m

/-- `NodeModel.move(node, x, y)` (in-place mutation of the node object). -/
def NodeModel.move (m : NodeModel) (node : GNode) (x y : Int) : NodeModel :=
  { m with
    nodes := m.nodes.map (fun n => if n = node then { n with x := x, y := y } else n) }

/-- `NodeModel.addEdge(fromNode, toNode)`: refuse self-loops and duplicate
ordered pairs, otherwise append a weight-1 edge. -/
def NodeModel.addEdge (m : NodeModel) (fromNode toNode : GNode) : NodeModel :=
  if fromNode = toNode then m
  else if m.edges.any (fun e => e.fro == fromNode.id && e.toN == toNode.id) then m
  else { m with edges := m.edges ++ [⟨fromNode.id, toNode.id, 1⟩] }

/-- `NodeModel.removeEdge(fromId, toId)`: drop the first matching edge. -/
def NodeModel.removeEdge (m : NodeModel) (fromId toId : String) : NodeModel :=
  match m.edges.findIdx? (fun e => e.fro == fromId && e.toN == toId) with
  | some i => { m with edges := m.edges.eraseIdx i }
  | none => m

/-- `NodeModel.neighbours(node)`: outgoing edges paired with the (possibly
missing) target node. -/
def NodeModel.neighbours (m : NodeModel) (node : GNode) :
    List (Option GNode × GEdge) :=
  (m.edges.filter (fun e => e.fro == node.id)).map
    (fun e => (m.nodes.find? (fun n => n.id == e.toN), e))

/-- The fresh `NodeModel` produced by the constructor. -/
def nmInit : NodeModel := ⟨[], 0, [], none, none⟩

/-- The mutating operations of `NodeModel`, for stating invariants over any
call sequence. -/
inductive NOp where
  | add (x y r : Int)
  | remove (node : GNode)
  | move (node : GNode) (x y : Int)
  | addEdge (a b : GNode)
  | removeEdge (fromId toId : String)
  | setMarker (kind : String) (node : GNode)
  | clearMarker (kind : String)

/-- Apply one `NodeModel` operation. -/
def applyNOp (m : NodeModel) : NOp → NodeModel
  | .add x y r => m.add x y r
  | .remove node => m.remove node
  | .move node x y => m.move node x y
  | .addEdge a b => m.addEdge a b
  | .removeEdge f t => m.removeEdge f t
  | .setMarker kind node =>
    if kind = "start" then { m with start := some node.id }
    else if kind = "end" then { m with goal := some node.id }
    else m
  | .clearMarker kind =>
    if kind = "start" then { m with start := none }
    else if kind = "end" then { m with goal := none }
    else m

/-- Apply a call sequence to a fresh `NodeModel`. -/
def applyNOps (ops : List NOp) : NodeModel := ops.foldl applyNOp nmInit

/-! ### Node-graph algorithms (`bfsNodePath`, `dfsNodePath`,
`dijkstraNodePath`) -/

/-- Fuel for the node-graph search loops. -/
def nodeFuel (m : NodeModel) : Nat :=
  (m.nodes.length + 1) * 1000000000 + 2

/-- Fuel for node-graph predecessor walks. -/
def nodeWalkFuel (m : NodeModel) : Nat := m.nodes.length + 2

/-- The `dijkstraNodePath` walk `for (let cur = goal; cur; cur = prev.get(cur))
path.push(cur)`. -/
def walkStr (prev : String → Option String) : Nat → String → List String
  | 0, x => [x]
  | fuel + 1, x =>
    x :: (match prev x with
          | none => []
          | some p => walkStr prev fuel p)

/-- The BFS/DFS walk, which additionally breaks once `start` is pushed. -/
def walkStrToStart (prev : String → Option String) (s : String) :
    Nat → String → List String
  | 0, x => [x]
  | fuel + 1, x =>
    x :: (if x = s then []
          else
            match prev x with
            | none => []
            | some p => walkStrToStart prev s fuel p)

/-- Working state of `dijkstraNodePath`: `Map`s become partial functions. -/
structure DijNState where
  dist : String → Option Int
  prev : String → Option String
  pq : List (String × Int)

/-- One neighbour relaxation of `dijkstraNodePath` (`if (!nb) continue`,
then the `!dist.has || alt < dist.get` improvement test). -/
def dijNRelax (uid : String) (d : Int) (st : DijNState)
    (pr : Option GNode × GEdge) : DijNState :=
  match pr.1 with
  | none => st
  | some nb =>
    let alt := d + pr.2.w
    let better :=
      match st.dist nb.id with
      | none => true
      | some cur => decide (alt < cur)
    if better then
      { dist := Function.update st.dist nb.id (some alt)
        prev := Function.update st.prev nb.id (some uid)
        pq := st.pq ++ [(nb.id, alt)] }
    else st

/-- The `while (pq.length)` loop of `dijkstraNodePath`.  If the popped id no
longer names a node the source would throw inside `model.neighbours`; the
embedding stops the loop there, which no claim exercises. -/
def dijNLoop (m : NodeModel) (goal : String) : Nat → DijNState → DijNState
  | 0, st => st
  | fuel + 1, st =>
    match sortStable (fun a b : String × Int => decide (a.2 ≤ b.2)) st.pq with
    | [] => st
    | top :: rest =>
      let st1 : DijNState := { st with pq := rest }
      if top.1 = goal then st1
      else
        match m.nodes.find? (fun n => n.id == top.1) with
        | none => st1
        | some node =>
          dijNLoop m goal fuel
            ((m.neighbours node).foldl (dijNRelax top.1 top.2) st1)

/-- `dijkstraNodePath` (src/algorithms/dijkstra.js). -/
def dijkstraNodePath (m : NodeModel) : List String :=
  match m.start, m.goal with
  | some s, some g =>
    let st0 : DijNState :=
      { dist := Function.update (fun _ => none) s (some 0)
        prev := fun _ => none
        pq := [(s, 0)] }
    let fin := dijNLoop m g (nodeFuel m) st0
    match fin.dist g with
    | none => []
    | some _ => (walkStr fin.prev (nodeWalkFuel m) g).reverse
  | _, _ => []

/-- Working state of BFS: FIFO queue, visited set (in insertion order), and
the first-visit predecessor map. -/
structure BFSNState where
  q : List String
  seen : List String
  prev : String → Option String

/-- Enqueueing of one BFS neighbour (`if (!vNode) continue`, then the
not-yet-seen test). -/
def bfsVisit (u : String) (st : BFSNState) (pr : Option GNode × GEdge) :
    BFSNState :=
  match pr.1 with
  | none => st
  | some vNode =>
    if st.seen.contains vNode.id then st
    else
      { q := st.q ++ [vNode.id]
        seen := st.seen ++ [vNode.id]
        prev := Function.update st.prev vNode.id (some u) }

/-- The `while (q.length)` loop of `bfsNodePath` (`if (!uNode) continue`
skips stale ids). -/
def bfsLoop (m : NodeModel) (goal : String) : Nat → BFSNState → BFSNState
  | 0, st => st
  | fuel + 1, st =>
    match st.q with
    | [] => st
    | u :: rest =>
      let st1 : BFSNState := { st with q := rest }
      if u = goal then st1
      else
        match m.nodes.find? (fun n => n.id == u) with
        | none => bfsLoop m goal fuel st1
        | some uNode =>
          bfsLoop m goal fuel ((m.neighbours uNode).foldl (bfsVisit u) st1)

/-- `bfsNodePath`: run the loop, give up unless `goal` was seen, walk
predecessors back from `goal`, and give up unless the walk ended at
`start`. -/
def bfsNodePath (m : NodeModel) : List String :=
  match m.start, m.goal with
  | some s, some g =>
    let fin := bfsLoop m g (nodeFuel m)
      { q := [s], seen := [s], prev := fun _ => none }
    if fin.seen.contains g then
      let path := walkStrToStart fin.prev s (nodeWalkFuel m) g
      if path.getLast? = some s then path.reverse else []
    else []
  | _, _ => []

/-- Working state of DFS: LIFO stack (head is the top, matching JS
`push`/`pop` on the array tail), visited set, predecessors, found flag. -/
structure DFSNState where
  stack : List String
  seen : List String
  prev : String → Option String
  found : Bool

/-- Pushing of one DFS neighbour. -/
def dfsVisit (u : String) (st : DFSNState) (vNode : GNode) : DFSNState :=
  if st.seen.contains vNode.id then st
  else
    { st with
      stack := vNode.id :: st.stack
      seen := st.seen ++ [vNode.id]
      prev := Function.update st.prev vNode.id (some u) }

/-- The `while (st.length)` loop of `dfsNodePath`: neighbours are pushed in
reversed adjacency order. -/
def dfsLoop (m : NodeModel) (goal : String) : Nat → DFSNState → DFSNState
  | 0, st => st
  | fuel + 1, st =>
    match st.stack with
    | [] => st
    | u :: rest =>
      let st1 : DFSNState := { st with stack := rest }
      if u = goal then { st1 with found := true }
      else
        match m.nodes.find? (fun n => n.id == u) with
        | none => dfsLoop m goal fuel st1
        | some uNode =>
          let nbrs := ((m.neighbours uNode).filterMap (fun pr => pr.1)).reverse
          dfsLoop m goal fuel (nbrs.foldl (dfsVisit u) st1)

/-- `dfsNodePath`: run the loop, give up unless the goal was popped, then
the same predecessor walk and start check as BFS. -/
def dfsNodePath (m : NodeModel) : List String :=
  match m.start, m.goal with
  | some s, some g =>
    let fin := dfsLoop m g (nodeFuel m)
      { stack := [s], seen := [s], prev := fun _ => none, found := false }
    if fin.found then
      let path := walkStrToStart fin.prev s (nodeWalkFuel m) g
      if path.getLast? = some s then path.reverse else []
    else []
  | _, _ => []

/-! ### Playback controller (grid mode `animRef`/`startRAF`/`stepAnim`/
`clearAnim` in the app component) -/

/-- One branch trace with its own cursor (`{ path, pos }`). -/
structure BranchAnim where
  path : List Cell
  pos : Nat

deriving DecidableEq, Repr

/-- The grid animation state held in `animRef.current`.  The `timer`/`rafId`
scheduler handles and the drawing calls are rendering plumbing with no
engine state; timestamps and `msPerStep` are idealised to integers. -/
structure AnimState where
  path : List Cell
  pos : Nat
  branches : List BranchAnim
  playing : Bool
  lastTs : Option Int
  acc : Int
  msPerStep : Int

deriving DecidableEq, Repr

/-- `clearAnim()` (also the body of `resetAnim()`): fresh state with an
empty cached result. -/
def clearAnim (speed : Int) : AnimState :=
  { path := [], pos := 0, branches := [], playing := false
    lastTs := none, acc := 0, msPerStep := speed }

/-- Advance every branch cursor one step, clamped to its own length
(`if (b.pos < b.path.length - 1) b.pos++`). -/
def branchStep (bs : List BranchAnim) : List BranchAnim :=
  bs.map (fun b => if b.pos + 1 < b.path.length then { b with pos := b.pos + 1 } else b)

/-- `stepAnim()`: nothing on an empty path, else one clamped advance of the
main cursor and of every branch cursor. -/
def stepAnim (a : AnimState) : AnimState :=
  if a.path.length = 0 then a
  else
    let a1 := if a.pos + 1 < a.path.length then { a with pos := a.pos + 1 } else a
    { a1 with branches := branchStep a1.branches }

/-- The `while (a.acc >= a.msPerStep && a.pos < a.path.length - 1)` loop of
the RAF tick: commit whole steps, advancing the branch cursors in lock-step.
The fuel `a.path.length` dominates the iteration count, since `pos` strictly
increases below `path.length - 1`. -/
def advanceLoop : Nat → AnimState → AnimState
  | 0, a => a
  | fuel + 1, a =>
    if a.msPerStep ≤ a.acc ∧ a.pos + 1 < a.path.length then
      advanceLoop fuel
        { a with
          acc := a.acc - a.msPerStep
          pos := a.pos + 1
          branches := branchStep a.branches }
    else a

/-- One RAF callback of `startRAF`'s `tick` at timestamp `ts`: ignore when
not playing, accumulate the elapsed time (zero on the very first callback,
where `lastTs` is `null`), commit whole steps, and hand off to
`handlePause()` once the cursor sits at the path end. -/
def rafTick (a : AnimState) (ts : Int) : AnimState :=
  if ¬ a.playing then a
  else
    let last := a.lastTs.getD ts
    let a1 := { a with lastTs := some ts, acc := a.acc + (ts - last) }
    let a2 := advanceLoop a1.path.length a1
    if a2.path.length ≤ a2.pos + 1 then { a2 with playing := false } else a2

/-- `startRAF()` up to the first frame request: no-op while playing, else
arm the clock (`lastTs = null`, `acc = 0`, `msPerStep = Number(speed)`). -/
def startRAF (a : AnimState) (speed : Int) : AnimState :=
  if a.playing then a
  else { a with playing := true, lastTs := none, acc := 0, msPerStep := speed }

/-- The state `computeIfNeeded()` caches for a result `res`: cursor `0` and
one zero-positioned branch cursor per branch. -/
def computedState (res : PathResult) (speed : Int) : AnimState :=
  { path := res.path, pos := 0
    branches := res.branches.map (fun p => { path := p, pos := 0 })
    playing := false, lastTs := none, acc := 0, msPerStep := speed }

/-- The timestamps `ts0, ts0 + ms, ts0 + 2*ms, …`: `rafTicks` applies the
first `n` RAF callbacks of an uninterrupted playback clocked at one step
duration per frame. -/
def rafTicks (a : AnimState) (ts0 ms : Int) : Nat → AnimState
  | 0 => a
  | n + 1 => rafTick (rafTicks a ts0 ms n) (ts0 + n * ms)

/-! ### Shared invariant-preservation helpers -/

/-- The empty result shared by all guard paths. -/
def emptyResult : PathResult := ⟨[], []⟩

/-- A 1×2 grid whose end cell is separated from the start by being a
wall. -/
def mDisconnected : GridModel := ⟨1, 2, [⟨0, 1⟩], some ⟨0, 0⟩, some ⟨0, 1⟩⟩

/-- A grid with no start marker. -/
def mUnset : GridModel := ⟨2, 2, [], none, some ⟨1, 1⟩⟩

/-- The target cell of a relaxation in direction `dir` from `x`. -/
def nbr (x : Cell) (dir : Int × Int) : Cell := ⟨x.r + dir.1, x.c + dir.2⟩

/-- A 1×3 all-open grid whose start and end coincide. -/
def mSame13 : GridModel := ⟨1, 3, [], some ⟨0, 0⟩, some ⟨0, 0⟩⟩

/-- A one-node graph with `start = goal`. -/
def gSelf : NodeModel := ⟨[⟨"A", 0, 0, 22⟩], 1, [], some "A", some "A"⟩

/-- The wall test on a linear cell index. -/
def wallV (m : GridModel) (j : Nat) : Bool :=
  m.isWall (fwRC m j).r (fwRC m j).c

/-- A 1×2 grid whose start cell is itself a wall. -/
def mWalledStart : GridModel := ⟨1, 2, [⟨0, 0⟩], some ⟨0, 0⟩, some ⟨0, 1⟩⟩

/-- The sweep loop without the early exit: always `n` full sweeps. -/
def bfRoundsFull (m : GridModel) : Nat → BFState → BFState
  | 0, st => st
  | k + 1, st => bfRoundsFull m k (bfSweep m st)

/-- The number of sweeps the early-exit loop actually performs. -/
def bfRoundsCount (m : GridModel) : Nat → BFState → Nat
  | 0, _ => 0
  | k + 1, st =>
    let st' := bfSweep m st
    if st'.anyChange then bfRoundsCount m k st' + 1 else 1

/-- A 1×1 grid: its single sweep relaxes nothing. -/
def mOne : GridModel := ⟨1, 1, [], some ⟨0, 0⟩, some ⟨0, 0⟩⟩

/-- The id list of a `NodeModel`. -/
def nodeIds (m : NodeModel) : List String := m.nodes.map (fun nd => nd.id)

/-- The `NodeModel` invariant: ids are pairwise distinct and every node was
minted by `_nextID` at some earlier counter value. -/
def NodesInv (m : NodeModel) : Prop :=
  (nodeIds m).Nodup ∧ ∀ nd ∈ m.nodes, ∃ k, k < m.counter ∧ nd.id = toID k

/-- The finite set of in-bounds cells. -/
def gridFinset (m : GridModel) : Finset Cell :=
  (Finset.range m.rows ×ˢ Finset.range m.cols).image
    (fun p => ⟨(p.1 : Int), (p.2 : Int)⟩)

/-- The number of in-bounds cells whose `dist` does not exceed `dist x`:
the termination measure of every predecessor walk. -/
def distCard (m : GridModel) (dist : Cell → Int) (x : Cell) : Nat :=
  ((gridFinset m).filter (fun y => dist y ≤ dist x)).card

/-- The predecessor-structure facts shared by Dijkstra, A* and Bellman-Ford
final states: a link strictly decreases the distance, stays in bounds, is
4-adjacent, never enters a wall, and every finite-distance cell other than
the start has a link. -/
def PrevOK (m : GridModel) (s : Cell) (dist : Cell → Int)
    (prev : Cell → Option Cell) : Prop :=
  (∀ x p, prev x = some p → dist p < dist x ∧ inGrid m p ∧
    (∃ dir ∈ DIRS, x = nbr p dir) ∧ m.isWall x.r x.c = false) ∧
  (∀ x, dist x < INF → x ≠ s → prev x ≠ none)

/-- The full Dijkstra loop invariant: sound predecessor links, queue
entries over-approximating current distances inside the grid, distance
bounds, recorded pops in bounds with finite distance, and an untouched
start entry. -/
def DijInv (m : GridModel) (s : Cell) (st : DijState) : Prop :=
  PrevOK m s st.dist st.prev ∧
  (∀ e ∈ st.pq, st.dist ⟨e.r, e.c⟩ ≤ e.d ∧ inGrid m ⟨e.r, e.c⟩ ∧ e.d < INF) ∧
  (∀ x, 0 ≤ st.dist x ∧ st.dist x ≤ INF) ∧
  (∀ y ∈ st.popped, inGrid m y ∧ st.dist y < INF) ∧
  st.dist s = 0 ∧ st.prev s = none

/-- One grid step: `b` is a 4-neighbour of `a`. -/
def stepAdj (a b : Cell) : Prop := ∃ dir ∈ DIRS, b = nbr a dir

/-- The A* loop invariant, with the `g`-table in the distance role (the
`f`-table is ordering metadata only). -/
def AStarInv (m : GridModel) (s : Cell) (st : AStarState) : Prop :=
  PrevOK m s st.g st.prev ∧
  (∀ e ∈ st.pq, st.g ⟨e.r, e.c⟩ ≤ e.g ∧ inGrid m ⟨e.r, e.c⟩ ∧ e.g < INF) ∧
  (∀ x, 0 ≤ st.g x ∧ st.g x ≤ INF) ∧
  (∀ y ∈ st.popped, inGrid m y ∧ st.g y < INF) ∧
  st.g s = 0 ∧ st.prev s = none

/-- The Bellman-Ford sweep invariant. -/
def BFInv (m : GridModel) (s : Cell) (st : BFState) : Prop :=
  PrevOK m s st.dist st.prev ∧
  (∀ x, 0 ≤ st.dist x ∧ st.dist x ≤ INF) ∧
  (∀ y ∈ st.visitedOrder, inGrid m y ∧ st.dist y < INF) ∧
  st.dist s = 0 ∧ st.prev s = none

/-- Well-formedness of a main path from `s` to `e`: starts at `s`, ends at
`e`, moves one axis step at a time through in-bounds cells, and contains no
wall apart from (possibly) the start cell itself. -/
def PathWF (m : GridModel) (s e : Cell) (l : List Cell) : Prop :=
  l.head? = some s ∧ l.getLast? = some e ∧ List.Chain' stepAdj l ∧
  (∀ y ∈ l, inGrid m y) ∧ (∀ y ∈ l, y = s ∨ m.isWall y.r y.c = false)

/-- Well-formedness of a reconstructed branch: the walk terminated, reached
the start cell, and took at most `rows*cols` link steps (hence at most
`rows*cols + 1` cells). -/
def BranchWF (m : GridModel) (s : Cell) (l : List Cell) : Prop :=
  l ≠ [] ∧ l.head? = some s ∧ l.length ≤ m.rows * m.cols + 1

/-- A linear index names a non-wall cell. -/
def fwNonwall (m : GridModel) (v : Nat) : Prop :=
  m.isWall (fwRC m v).r (fwRC m v).c = false

/-- Two linear indices name 4-adjacent cells. -/
def fwAdj (m : GridModel) (i u : Nat) : Prop :=
  stepAdj (fwRC m i) (fwRC m u)

/-- The basic Floyd-Warshall matrix invariant: distances in `[0, INF]`,
zero diagonal below `V`, finite off-diagonal entries confined to `V × V`
with non-wall targets, and only reachable non-start destinations logged in
`improved`. -/
def FWB (m : GridModel) (sv : Nat) (st : FWState) : Prop :=
  (∀ q, 0 ≤ st.dist q) ∧ (∀ q, st.dist q ≤ INF) ∧
  (∀ v, v < fwV m → st.dist (v, v) = 0) ∧
  (∀ i j, i ≠ j → st.dist (i, j) < INF →
    i < fwV m ∧ j < fwV m ∧ fwNonwall m j) ∧
  (∀ j ∈ st.improved, j < fwV m ∧ j ≠ sv ∧ st.dist (sv, j) < INF)

/-- A sound next-hop entry: recorded, in range, one axis step away, not a
wall. -/
def FWHopOK (m : GridModel) (st : FWState) (i j u : Nat) : Prop :=
  st.next (i, j) = some u ∧ u < fwV m ∧ fwAdj m i u ∧ fwNonwall m u

/-- The phase-boundary invariant of the triple loop: every finite
off-diagonal entry has a sound next hop that strictly decreases the
distance to the destination. -/
def FWP (m : GridModel) (sv : Nat) (st : FWState) : Prop :=
  FWB m sv st ∧
  ∀ i j, i ≠ j → st.dist (i, j) < INF →
    ∃ u, FWHopOK m st i j u ∧ st.dist (u, j) + 1 ≤ st.dist (i, j)

/-- The invariant carried across the innermost (`j`) loop of one row of
the triple loop: row `i0` is being relaxed through `k` with the frozen
read `dik`; `l` is the tail of destinations still to visit and `lrest` the
tail of source rows the middle loop still has to visit. -/
def FWInner (m : GridModel) (sv k i0 : Nat) (dik : Int)
    (lrest l : List Nat) (st : FWState) : Prop :=
  FWB m sv st ∧
  st.dist (i0, k) = dik ∧
  (∀ j, j ∉ l → st.dist (i0, j) ≤ dik + st.dist (k, j)) ∧
  (∀ i, i < fwV m → i ∉ (i0 :: lrest) → ∀ j,
    st.dist (i, k) < INF → st.dist (k, j) < INF →
    st.dist (i, j) ≤ st.dist (i, k) + st.dist (k, j)) ∧
  (∀ i j, i ≠ j → st.dist (i, j) < INF → ∃ u, FWHopOK m st i j u ∧
    (st.dist (u, j) + 1 ≤ st.dist (i, j) ∨
      (u ≠ k ∧ st.dist (u, k) + 1 ≤ st.dist (i, k) ∧
        st.dist (i, k) + st.dist (k, j) ≤ st.dist (i, j) ∧
        (u ∈ lrest ∨ (u = i0 ∧ j ∈ l)))))

/-- The invariant carried across the middle (`i`) loop of phase `k`:
sources no longer pending are fully relaxed through `k`, and deferred hops
always point at a pending source. -/
def FWMid (m : GridModel) (sv k : Nat) (l₂ : List Nat) (st : FWState) :
    Prop :=
  FWB m sv st ∧
  (∀ i, i < fwV m → i ∉ l₂ → ∀ j,
    st.dist (i, k) < INF → st.dist (k, j) < INF →
    st.dist (i, j) ≤ st.dist (i, k) + st.dist (k, j)) ∧
  (∀ i j, i ≠ j → st.dist (i, j) < INF → ∃ u, FWHopOK m st i j u ∧
    (st.dist (u, j) + 1 ≤ st.dist (i, j) ∨
      (u ≠ k ∧ st.dist (u, k) + 1 ≤ st.dist (i, k) ∧
        st.dist (i, k) + st.dist (k, j) ≤ st.dist (i, j) ∧ u ∈ l₂)))

/-- Termination measure for the next-hop walks: how many indices are at
most as far from `j` as `v` is. -/
def fwCard (m : GridModel) (dist : Nat × Nat → Int) (j v : Nat) : Nat :=
  ((Finset.range (fwV m)).filter (fun u => dist (u, j) ≤ dist (v, j))).card

/-- A 1 × 2 open grid with start `(0,0)` and end `(0,1)`. -/
def mOpen12 : GridModel := ⟨1, 2, [], some ⟨0, 0⟩, some ⟨0, 1⟩⟩

/-- A 2 × 2 open grid with start `(0,0)` and end `(1,1)`. -/
def mOpen22 : GridModel := ⟨2, 2, [], some ⟨0, 0⟩, some ⟨1, 1⟩⟩

/-- One traversable grid edge, exactly the relaxation guard shared by the
four algorithms: from an in-bounds cell one axis step into an in-bounds
non-wall cell (a wall may be a source — the start cell is relaxed out of
unconditionally — but never a target). -/
def gStep (m : GridModel) (a b : Cell) : Prop :=
  inGrid m a ∧ inGrid m b ∧ stepAdj a b ∧ m.isWall b.r b.c = false

/-- There is a walk of exactly `n` edges from `src` to `x`. -/
def reachN (m : GridModel) (src : Cell) : Nat → Cell → Prop
  | 0, x => x = src
  | n + 1, x => ∃ y, reachN m src n y ∧ gStep m y x

/-- A walk of exactly `n` edges whose intermediate cells all have linear
index below `K` (endpoints are unconstrained). -/
def reachVia (m : GridModel) (K : Nat) (src : Cell) : Nat → Cell → Prop
  | 0, x => x = src
  | n + 1, x => ∃ y, reachVia m K src n y ∧ gStep m y x ∧
      (n = 0 ∨ fwIdx m y.r.toNat y.c.toNat < K)

/-- The first `t` phases of the triple loop. -/
def fwPhasePrefix (m : GridModel) (sv : Nat) (t : Nat) : FWState :=
  (List.range t).foldl
    (fun st k => (List.range (fwV m)).foldl (fwRow m sv k) st) (fwInit m)

/-- The Dijkstra correctness invariant: distances are achievable walk
lengths, queue entries carry achievable labels dominating the table, and
every reached cell either still has its defining entry queued or has had
all its outgoing edges relaxed. -/
def DijC (m : GridModel) (s : Cell) (st : DijState) : Prop :=
  (∀ x, 0 ≤ st.dist x ∧ st.dist x ≤ INF ∧
    (st.dist x < INF → reachN m s (st.dist x).toNat x)) ∧
  (∀ ent ∈ st.pq, st.dist ⟨ent.r, ent.c⟩ ≤ ent.d ∧ 0 ≤ ent.d ∧
    ent.d < INF ∧ inGrid m ⟨ent.r, ent.c⟩ ∧
    reachN m s ent.d.toNat ⟨ent.r, ent.c⟩) ∧
  (∀ y, st.dist y < INF →
    (∃ ent ∈ st.pq, (⟨ent.r, ent.c⟩ : Cell) = y ∧ ent.d = st.dist y) ∨
    (∀ z, gStep m y z → st.dist z ≤ st.dist y + 1)) ∧
  st.dist s = 0

/-- Termination measure of the Dijkstra loop. -/
def dijMeasure (m : GridModel) (st : DijState) : Nat :=
  Finset.sum (gridFinset m) (fun x => (st.dist x).toNat) + st.pq.length

/-- The invariant with the popped cell's queue clause temporarily
suspended. -/
def DijCexc (m : GridModel) (s exc : Cell) (st : DijState) : Prop :=
  (∀ x, 0 ≤ st.dist x ∧ st.dist x ≤ INF ∧
    (st.dist x < INF → reachN m s (st.dist x).toNat x)) ∧
  (∀ ent ∈ st.pq, st.dist ⟨ent.r, ent.c⟩ ≤ ent.d ∧ 0 ≤ ent.d ∧
    ent.d < INF ∧ inGrid m ⟨ent.r, ent.c⟩ ∧
    reachN m s ent.d.toNat ⟨ent.r, ent.c⟩) ∧
  (∀ y, y ≠ exc → st.dist y < INF →
    (∃ ent ∈ st.pq, (⟨ent.r, ent.c⟩ : Cell) = y ∧ ent.d = st.dist y) ∨
    (∀ z, gStep m y z → st.dist z ≤ st.dist y + 1)) ∧
  st.dist s = 0

/-- The A* correctness invariant (on the `g` table). -/
def AStarC (m : GridModel) (s e : Cell) (st : AStarState) : Prop :=
  (∀ x, 0 ≤ st.g x ∧ st.g x ≤ INF ∧
    (st.g x < INF → reachN m s (st.g x).toNat x)) ∧
  (∀ ent ∈ st.pq, st.g ⟨ent.r, ent.c⟩ ≤ ent.g ∧ 0 ≤ ent.g ∧
    ent.g < INF ∧ inGrid m ⟨ent.r, ent.c⟩ ∧
    reachN m s ent.g.toNat ⟨ent.r, ent.c⟩ ∧
    ent.f = ent.g + manhattan e ent.r ent.c) ∧
  (∀ y, st.g y < INF →
    (∃ ent ∈ st.pq, (⟨ent.r, ent.c⟩ : Cell) = y ∧ ent.g = st.g y) ∨
    (∀ z, gStep m y z → st.g z ≤ st.g y + 1)) ∧
  st.g s = 0

/-- The suspended version of the A* invariant. -/
def AStarCexc (m : GridModel) (s e exc : Cell) (st : AStarState) : Prop :=
  (∀ x, 0 ≤ st.g x ∧ st.g x ≤ INF ∧
    (st.g x < INF → reachN m s (st.g x).toNat x)) ∧
  (∀ ent ∈ st.pq, st.g ⟨ent.r, ent.c⟩ ≤ ent.g ∧ 0 ≤ ent.g ∧
    ent.g < INF ∧ inGrid m ⟨ent.r, ent.c⟩ ∧
    reachN m s ent.g.toNat ⟨ent.r, ent.c⟩ ∧
    ent.f = ent.g + manhattan e ent.r ent.c) ∧
  (∀ y, y ≠ exc → st.g y < INF →
    (∃ ent ∈ st.pq, (⟨ent.r, ent.c⟩ : Cell) = y ∧ ent.g = st.g y) ∨
    (∀ z, gStep m y z → st.g z ≤ st.g y + 1)) ∧
  st.g s = 0

/-- Termination measure of the A* loop. -/
def aStarMeasure (m : GridModel) (st : AStarState) : Nat :=
  Finset.sum (gridFinset m) (fun x => (st.g x).toNat) + st.pq.length

/-- A 1×2 wall-free grid with distinct start and end markers. -/
def mOpenC1 : GridModel := ⟨1, 2, [], some ⟨0, 0⟩, some ⟨0, 1⟩⟩

/-- A 1×2 wall-free grid for the Manhattan-length witness. -/
def mOpenC2 : GridModel := ⟨1, 2, [], some ⟨0, 0⟩, some ⟨0, 1⟩⟩

/-- A wall-free 1×(10^9 + 2) grid: the Manhattan separation of its
markers exceeds the `1e9` sentinel. -/
def mHugeC2 : GridModel :=
  ⟨1, 1000000002, [], some ⟨0, 0⟩, some ⟨0, 1000000001⟩⟩

theorem foldlPres {α β : Type _} {f : β → α → β} {P : β → Prop} :
    ∀ (l : List α) (b : β), (∀ b a, a ∈ l → P b → P (f b a)) → P b →
      P (l.foldl f b)
  | [], _, _, hb => hb
  | a :: l, b, h, hb =>
    foldlPres l (f b a) (fun b' a' ha' => h b' a' (List.mem_cons_of_mem _ ha'))
      (h b a (List.mem_cons_self _ _) hb)

/-- Invariants preserved by popping and by single-direction relaxation are
preserved by the whole Dijkstra loop. -/
theorem dijLoop_invariant (m : GridModel) (e : Cell) (P : DijState → Prop)
    (hpop : ∀ st top rest,
      sortStable (fun a b : PQE => decide (a.d ≤ b.d)) st.pq = top :: rest →
      P st → P { st with pq := rest, popped := st.popped ++ [⟨top.r, top.c⟩] })
    (hrelax : ∀ st x d dir, P st → P (dijRelaxDir m x d st dir)) :
    ∀ fuel st, P st → P (dijLoop m e fuel st) := by
  intro fuel
  induction fuel with
  | zero => intro st h; exact h
  | succ fuel ih =>
    intro st h
    cases hsort : sortStable (fun a b : PQE => decide (a.d ≤ b.d)) st.pq with
    | nil => rw [dijLoop, hsort]; exact h
    | cons top rest =>
      rw [dijLoop, hsort]
      dsimp only
      have h1 := hpop st top rest hsort h
      by_cases hend : top.r = e.r ∧ top.c = e.c
      · rw [if_pos hend]; exact h1
      · rw [if_neg hend]
        exact ih _ (foldlPres DIRS _ (fun st' dir _ h' => hrelax st' _ _ dir h') h1)

/-- The analogue for the A* loop. -/
theorem aStarLoop_invariant (m : GridModel) (e : Cell) (P : AStarState → Prop)
    (hpop : ∀ st top rest, sortStable aStarLe st.pq = top :: rest →
      P st → P { st with pq := rest, popped := st.popped ++ [⟨top.r, top.c⟩] })
    (hrelax : ∀ st x g dir, P st → P (aStarRelaxDir m e x g st dir)) :
    ∀ fuel st, P st → P (aStarLoop m e fuel st) := by
  intro fuel
  induction fuel with
  | zero => intro st h; exact h
  | succ fuel ih =>
    intro st h
    cases hsort : sortStable aStarLe st.pq with
    | nil => rw [aStarLoop, hsort]; exact h
    | cons top rest =>
      rw [aStarLoop, hsort]
      dsimp only
      have h1 := hpop st top rest hsort h
      by_cases hend : top.r = e.r ∧ top.c = e.c
      · rw [if_pos hend]; exact h1
      · rw [if_neg hend]
        exact ih _ (foldlPres DIRS _ (fun st' dir _ h' => hrelax st' _ _ dir h') h1)

/-- Invariants preserved by each full sweep are preserved by the round
loop. -/
theorem bfRounds_invariant (m : GridModel) (P : BFState → Prop)
    (hsweep : ∀ st, P st → P (bfSweep m st)) :
    ∀ n st, P st → P (bfRounds m n st) := by
  intro n
  induction n with
  | zero => intro st h; exact h
  | succ n ih =>
    intro st h
    rw [bfRounds]
    by_cases hc : (bfSweep m st).anyChange
    · simp only [hc, if_true]; exact ih _ (hsweep st h)
    · simp only [hc, if_false]; exact hsweep st h

/-- Invariants preserved by each row step are preserved by the whole
Floyd-Warshall triple loop. -/
theorem fwRun_invariant (m : GridModel) (startV : Nat) (P : FWState → Prop)
    (hrow : ∀ st k i, P st → P (fwRow m startV k st i)) :
    ∀ st, P st → P (fwRun m startV st) := by
  intro st h
  exact foldlPres _ _
    (fun st' k _ h' => foldlPres _ _ (fun st'' i _ h'' => hrow st'' k i h'') h') h

/-! ### C4: unset markers or unreached end give `{path: [], branches: []}` -/

/-- C4: if `start` or `end` is unset, every grid algorithm returns
`{path: [], branches: []}`; and with both set, if the end cell's distance
is still the `INF` sentinel when the search loop completes, the result is
likewise `{path: [], branches: []}`.  (The embedded algorithms are total
functions, so no exception is possible.) -/
theorem grid_empty_on_unset_or_unreached (m : GridModel) :
    ((m.start = none ∨ m.endp = none) →
      dijShortestPath m = emptyResult ∧ aStarShortestPath m = emptyResult ∧
      bellmanFordShortestPath m = emptyResult ∧
      floydWarsShortestPath m = emptyResult) ∧
    (∀ s e, m.start = some s → m.endp = some e →
      ((dijFinal m s e).dist e = INF → dijShortestPath m = emptyResult) ∧
      ((aStarFinal m s e).g e = INF → aStarShortestPath m = emptyResult) ∧
      ((bfFinal m s).dist e = INF → bellmanFordShortestPath m = emptyResult) ∧
      ((fwRun m (fwIdx m s.r.toNat s.c.toNat) (fwInit m)).dist
          (fwIdx m s.r.toNat s.c.toNat, fwIdx m e.r.toNat e.c.toNat) = INF →
        floydWarsShortestPath m = emptyResult)) := by
  constructor
  · intro h
    rcases h with h | h
    · cases he : m.endp <;>
        refine ⟨?_, ?_, ?_, ?_⟩ <;>
        simp [dijShortestPath, aStarShortestPath, bellmanFordShortestPath,
          floydWarsShortestPath, emptyResult, h, he]
    · cases hs : m.start <;>
        refine ⟨?_, ?_, ?_, ?_⟩ <;>
        simp [dijShortestPath, aStarShortestPath, bellmanFordShortestPath,
          floydWarsShortestPath, emptyResult, h, hs]
  · intro s e hs he
    refine ⟨?_, ?_, ?_, ?_⟩ <;> intro hINF <;>
      simp [dijShortestPath, aStarShortestPath, bellmanFordShortestPath,
        floydWarsShortestPath, emptyResult, hs, he, hINF]

theorem grid_empty_on_unset_or_unreached_witness :
    dijShortestPath mUnset = emptyResult ∧
    bellmanFordShortestPath mDisconnected = emptyResult :=
  ⟨((grid_empty_on_unset_or_unreached mUnset).1 (Or.inl rfl)).1,
   (((grid_empty_on_unset_or_unreached mDisconnected).2 ⟨0, 0⟩ ⟨0, 1⟩ rfl
      rfl).2.2.1 (by decide))⟩

/-! ### Step characterisations of the relaxation functions -/

/-- A Dijkstra relaxation either leaves the state unchanged or fires on an
in-bounds non-wall neighbour whose distance strictly improves. -/
theorem dijRelaxDir_cases (m : GridModel) (x : Cell) (d : Int)
    (st : DijState) (dir : Int × Int) :
    dijRelaxDir m x d st dir = st ∨
    (inGrid m (nbr x dir) ∧ m.isWall (nbr x dir).r (nbr x dir).c = false ∧
      d + 1 < st.dist (nbr x dir) ∧
      dijRelaxDir m x d st dir =
        { st with
          dist := Function.update st.dist (nbr x dir) (d + 1)
          prev := Function.update st.prev (nbr x dir) (some x)
          pq := st.pq ++ [⟨(nbr x dir).r, (nbr x dir).c, d + 1⟩] }) := by
  unfold dijRelaxDir
  dsimp only
  by_cases hb : x.r + dir.1 < 0 ∨ (m.rows : Int) ≤ x.r + dir.1 ∨
      x.c + dir.2 < 0 ∨ (m.cols : Int) ≤ x.c + dir.2
  · rw [if_pos hb]; exact Or.inl rfl
  · rw [if_neg hb]
    by_cases hw : m.isWall (x.r + dir.1) (x.c + dir.2) = true
    · rw [if_pos hw]; exact Or.inl rfl
    · rw [if_neg hw]
      by_cases hlt : d + 1 < st.dist ⟨x.r + dir.1, x.c + dir.2⟩
      · rw [if_pos hlt]
        refine Or.inr ⟨?_, ?_, hlt, rfl⟩
        · unfold inGrid nbr
          push_neg at hb
          exact ⟨hb.1, hb.2.1, hb.2.2.1, hb.2.2.2⟩
        · simpa using hw
      · rw [if_neg hlt]; exact Or.inl rfl

/-- The A* analogue of `dijRelaxDir_cases`. -/
theorem aStarRelaxDir_cases (m : GridModel) (e x : Cell) (gCur : Int)
    (st : AStarState) (dir : Int × Int) :
    aStarRelaxDir m e x gCur st dir = st ∨
    (inGrid m (nbr x dir) ∧ m.isWall (nbr x dir).r (nbr x dir).c = false ∧
      gCur + 1 < st.g (nbr x dir) ∧
      aStarRelaxDir m e x gCur st dir =
        { st with
          g := Function.update st.g (nbr x dir) (gCur + 1)
          f := Function.update st.f (nbr x dir)
            (gCur + 1 + manhattan e (nbr x dir).r (nbr x dir).c)
          prev := Function.update st.prev (nbr x dir) (some x)
          pq := st.pq ++ [⟨(nbr x dir).r, (nbr x dir).c,
            gCur + 1 + manhattan e (nbr x dir).r (nbr x dir).c,
            gCur + 1⟩] }) := by
  unfold aStarRelaxDir
  dsimp only
  by_cases hb : x.r + dir.1 < 0 ∨ (m.rows : Int) ≤ x.r + dir.1 ∨
      x.c + dir.2 < 0 ∨ (m.cols : Int) ≤ x.c + dir.2
  · rw [if_pos hb]; exact Or.inl rfl
  · rw [if_neg hb]
    by_cases hw : m.isWall (x.r + dir.1) (x.c + dir.2) = true
    · rw [if_pos hw]; exact Or.inl rfl
    · rw [if_neg hw]
      by_cases hlt : gCur + 1 < st.g ⟨x.r + dir.1, x.c + dir.2⟩
      · rw [if_pos hlt]
        refine Or.inr ⟨?_, ?_, hlt, rfl⟩
        · unfold inGrid nbr
          push_neg at hb
          exact ⟨hb.1, hb.2.1, hb.2.2.1, hb.2.2.2⟩
        · simpa using hw
      · rw [if_neg hlt]; exact Or.inl rfl

/-- A Bellman-Ford relaxation either leaves the state unchanged or fires:
the `seen`/`visitedOrder` bookkeeping happens exactly when the cell was
never seen, and then `dist`/`prev` are rewritten and `anyChange` raised. -/
theorem bfRelaxDir_cases (m : GridModel) (x : Cell) (dHere : Int)
    (st : BFState) (dir : Int × Int) :
    bfRelaxDir m x dHere st dir = st ∨
    (inGrid m (nbr x dir) ∧ m.isWall (nbr x dir).r (nbr x dir).c = false ∧
      dHere + 1 < st.dist (nbr x dir) ∧
      ∃ st' : BFState,
        (st'.dist = st.dist ∧ st'.prev = st.prev ∧
          (st' = st ∨
            (st.seen (nbr x dir) = false ∧
              st' = { st with
                visitedOrder := st.visitedOrder ++ [nbr x dir]
                seen := Function.update st.seen (nbr x dir) true }))) ∧
        bfRelaxDir m x dHere st dir =
          { st' with
            dist := Function.update st'.dist (nbr x dir) (dHere + 1)
            prev := Function.update st'.prev (nbr x dir) (some x)
            anyChange := true }) := by
  unfold bfRelaxDir
  dsimp only
  by_cases hb : x.r + dir.1 < 0 ∨ (m.rows : Int) ≤ x.r + dir.1 ∨
      x.c + dir.2 < 0 ∨ (m.cols : Int) ≤ x.c + dir.2
  · rw [if_pos hb]; exact Or.inl rfl
  · rw [if_neg hb]
    by_cases hw : m.isWall (x.r + dir.1) (x.c + dir.2) = true
    · rw [if_pos hw]; exact Or.inl rfl
    · rw [if_neg hw]
      by_cases hlt : dHere + 1 < st.dist ⟨x.r + dir.1, x.c + dir.2⟩
      · rw [if_pos hlt]
        refine Or.inr ⟨?_, ?_, hlt, ?_⟩
        · unfold inGrid nbr
          push_neg at hb
          exact ⟨hb.1, hb.2.1, hb.2.2.1, hb.2.2.2⟩
        · simpa using hw
        · by_cases hseen : st.seen ⟨x.r + dir.1, x.c + dir.2⟩ = true
          · rw [if_pos hseen]
            exact ⟨st, ⟨rfl, rfl, Or.inl rfl⟩, rfl⟩
          · rw [if_neg hseen]
            refine ⟨{ st with
                visitedOrder := st.visitedOrder ++ [nbr x dir]
                seen := Function.update st.seen (nbr x dir) true },
              ⟨rfl, rfl, Or.inr ⟨by simpa using hseen, rfl⟩⟩, rfl⟩
      · rw [if_neg hlt]; exact Or.inl rfl

/-- A Floyd-Warshall inner update either leaves the state unchanged or
rewrites the single entry `(i, j)` (and logs `j` when `i` is the start
index). -/
theorem fwUpd_cases (startV k i : Nat) (dik : Int) (st : FWState) (j : Nat) :
    fwUpd startV k i dik st j = st ∨
    (dik + st.dist (k, j) < st.dist (i, j) ∧
      fwUpd startV k i dik st j =
        { dist := Function.update st.dist (i, j) (dik + st.dist (k, j))
          next := Function.update st.next (i, j) (st.next (i, k))
          improved :=
            if i = startV then st.improved ++ [j] else st.improved }) := by
  unfold fwUpd
  dsimp only
  by_cases hlt : dik + st.dist (k, j) < st.dist (i, j)
  · rw [if_pos hlt]; exact Or.inr ⟨hlt, rfl⟩
  · rw [if_neg hlt]; exact Or.inl rfl

/-! ### Bellman-Ford: start keeps distance 0 and no predecessor -/

/-- An invariant kit for the Bellman-Ford sweeps: the start cell keeps
distance `0` and a null predecessor, and all distances stay nonnegative
(a firing relaxation writes `dHere + 1 ≥ 1`, which can never undercut the
start's `0`). -/
theorem bfRounds_start_inv (m : GridModel) (s : Cell) (n : Nat) (st : BFState)
    (h : st.dist s = 0 ∧ st.prev s = none ∧ ∀ x, 0 ≤ st.dist x) :
    (bfRounds m n st).dist s = 0 ∧ (bfRounds m n st).prev s = none ∧
      ∀ x, 0 ≤ (bfRounds m n st).dist x := by
  set P : BFState → Prop :=
    fun st => st.dist s = 0 ∧ st.prev s = none ∧ ∀ x, 0 ≤ st.dist x with hP
  refine bfRounds_invariant m P ?_ n st h
  intro st h
  refine foldlPres (P := P) _ _ ?_ h
  intro st1 x _ h1
  unfold bfCellStep
  dsimp only
  by_cases hfin : st1.dist x = INF
  · rw [if_pos hfin]; exact h1
  · rw [if_neg hfin]
    have hd0 : 0 ≤ st1.dist x := h1.2.2 x
    refine foldlPres (P := P) _ _ ?_ h1
    intro st2 dir _ h2
    rcases bfRelaxDir_cases m x (st1.dist x) st2 dir with heq |
      ⟨_, _, hlt, st', ⟨hdist, hprev, _⟩, heq⟩
    · rw [heq]; exact h2
    · rw [heq]
      have hys : s ≠ nbr x dir := by
        intro hcontra
        rw [← hcontra] at hlt
        rw [h2.1] at hlt
        omega
      refine ⟨?_, ?_, ?_⟩
      · show Function.update st'.dist (nbr x dir) (st1.dist x + 1) s = 0
        rw [Function.update_noteq hys, hdist, h2.1]
      · show Function.update st'.prev (nbr x dir) (some x) s = none
        rw [Function.update_noteq hys, hprev, h2.2.1]
      · intro z
        show 0 ≤ Function.update st'.dist (nbr x dir) (st1.dist x + 1) z
        by_cases hz : z = nbr x dir
        · rw [hz, Function.update_same]; omega
        · rw [Function.update_noteq hz, hdist]; exact h2.2.2 z

/-! ### Floyd-Warshall index arithmetic and initialisation facts -/

/-- `idx` is injective on in-bounds cells. -/
theorem fwIdx_inj (m : GridModel) {r₁ c₁ r₂ c₂ : Nat} (h₁ : c₁ < m.cols)
    (h₂ : c₂ < m.cols) (h : fwIdx m r₁ c₁ = fwIdx m r₂ c₂) :
    r₁ = r₂ ∧ c₁ = c₂ := by
  unfold fwIdx at h
  have hc : c₁ = c₂ := by
    have e₁ : (r₁ * m.cols + c₁) % m.cols = c₁ := by
      rw [Nat.mul_comm, Nat.mul_add_mod, Nat.mod_eq_of_lt h₁]
    have e₂ : (r₂ * m.cols + c₂) % m.cols = c₂ := by
      rw [Nat.mul_comm, Nat.mul_add_mod, Nat.mod_eq_of_lt h₂]
    rw [← e₁, ← e₂, h]
  refine ⟨?_, hc⟩
  have hr : r₁ * m.cols = r₂ * m.cols := by omega
  exact Nat.eq_of_mul_eq_mul_right (by omega) hr

/-- `rc` inverts `idx` on in-bounds cells. -/
theorem fwRC_fwIdx (m : GridModel) {r c : Nat} (hc : c < m.cols) :
    fwRC m (fwIdx m r c) = ⟨r, c⟩ := by
  unfold fwRC fwIdx
  have hdiv : (r * m.cols + c) / m.cols = r := by
    rw [Nat.mul_comm, Nat.mul_add_div (by omega : 0 < m.cols),
      Nat.div_eq_of_lt hc, Nat.add_zero]
  have hmod : (r * m.cols + c) % m.cols = c := by
    rw [Nat.mul_comm, Nat.mul_add_mod, Nat.mod_eq_of_lt hc]
  rw [hdiv, hmod]

/-- Membership in the initialisation cell list is exactly in-boundedness. -/
theorem mem_fwCells (m : GridModel) (p : Nat × Nat) :
    p ∈ fwCells m ↔ p.1 < m.rows ∧ p.2 < m.cols := by
  cases p with
  | mk a b =>
    simp [fwCells, List.mem_flatMap, List.mem_range, List.mem_map]

/-- No direction offset is `(0, 0)`. -/
theorem DIRS_ne_zero : ∀ dir ∈ DIRS, ¬(dir.1 = 0 ∧ dir.2 = 0) := by decide

/-- An initialisation step either does nothing or writes the single entry
`(v, u)` for an in-bounds non-wall neighbour `u`. -/
theorem fwInitDir_cases (m : GridModel) (p : Nat × Nat) (v : Nat)
    (st : FWState) (dir : Int × Int) :
    fwInitDir m p v st dir = st ∨
    (0 ≤ (p.1 : Int) + dir.1 ∧ (p.1 : Int) + dir.1 < (m.rows : Int) ∧
      0 ≤ (p.2 : Int) + dir.2 ∧ (p.2 : Int) + dir.2 < (m.cols : Int) ∧
      m.isWall ((p.1 : Int) + dir.1) ((p.2 : Int) + dir.2) = false ∧
      fwInitDir m p v st dir =
        { st with
          dist := Function.update st.dist
            (v, fwIdx m ((p.1 : Int) + dir.1).toNat ((p.2 : Int) + dir.2).toNat) 1
          next := Function.update st.next
            (v, fwIdx m ((p.1 : Int) + dir.1).toNat ((p.2 : Int) + dir.2).toNat)
            (some (fwIdx m ((p.1 : Int) + dir.1).toNat
              ((p.2 : Int) + dir.2).toNat)) }) := by
  unfold fwInitDir
  dsimp only
  by_cases hb : (p.1 : Int) + dir.1 < 0 ∨ (m.rows : Int) ≤ (p.1 : Int) + dir.1 ∨
      (p.2 : Int) + dir.2 < 0 ∨ (m.cols : Int) ≤ (p.2 : Int) + dir.2
  · rw [if_pos hb]; exact Or.inl rfl
  · rw [if_neg hb]
    by_cases hw : m.isWall ((p.1 : Int) + dir.1) ((p.2 : Int) + dir.2) = true
    · rw [if_pos hw]; exact Or.inl rfl
    · rw [if_neg hw]
      push_neg at hb
      exact Or.inr ⟨hb.1, hb.2.1, hb.2.2.1, hb.2.2.2, by simpa using hw, rfl⟩

/-- All initial distances are nonnegative. -/
theorem fwInit_nonneg (m : GridModel) : ∀ q, 0 ≤ (fwInit m).dist q := by
  have h : ∀ (l : List (Nat × Nat)) (st : FWState),
      (∀ q, 0 ≤ st.dist q) → ∀ q, 0 ≤ (l.foldl (fwInitCell m) st).dist q := by
    intro l st hst
    refine foldlPres (P := fun (st : FWState) => ∀ q, 0 ≤ st.dist q) _ _ ?_ hst
    intro st1 p _ h1
    unfold fwInitCell
    dsimp only
    refine foldlPres (P := fun (st : FWState) => ∀ q, 0 ≤ st.dist q) _ _ ?_ ?_
    · intro st2 dir _ h2 q
      rcases fwInitDir_cases m p (fwIdx m p.1 p.2) st2 dir with heq |
        ⟨_, _, _, _, _, heq⟩
      · rw [heq]; exact h2 q
      · rw [heq]
        dsimp only
        by_cases hq : q = (fwIdx m p.1 p.2,
            fwIdx m ((p.1 : Int) + dir.1).toNat ((p.2 : Int) + dir.2).toNat)
        · rw [hq, Function.update_same]; omega
        · rw [Function.update_noteq hq]; exact h2 q
    · intro q
      dsimp only
      by_cases hq : q = (fwIdx m p.1 p.2, fwIdx m p.1 p.2)
      · rw [hq, Function.update_same]
      · rw [Function.update_noteq hq]; exact h1 q
  intro q
  refine h (fwCells m) _ ?_ q
  intro q'
  show (0 : Int) ≤ INF
  unfold INF; omega

/-- Cells other than `p`'s row are untouched by `p`'s initialisation. -/
theorem fwInitCell_offrow (m : GridModel) (st : FWState) (p : Nat × Nat)
    (q : Nat × Nat) (hq : q.1 ≠ fwIdx m p.1 p.2) :
    (fwInitCell m st p).dist q = st.dist q := by
  unfold fwInitCell
  dsimp only
  have hbase : (Function.update st.dist (fwIdx m p.1 p.2, fwIdx m p.1 p.2) 0) q
      = st.dist q := by
    rw [Function.update_noteq (fun hc => hq (by rw [hc]))]
  refine foldlPres (P := fun (st' : FWState) => st'.dist q = st.dist q) _ _ ?_ hbase
  intro st2 dir _ h2
  rcases fwInitDir_cases m p (fwIdx m p.1 p.2) st2 dir with heq |
    ⟨_, _, _, _, _, heq⟩
  · rw [heq]; exact h2
  · rw [heq]
    dsimp only
    rw [Function.update_noteq (fun hc => hq (by rw [hc]))]
    exact h2

/-- `p`'s own initialisation puts `0` on its diagonal entry. -/
theorem fwInitCell_diag_self (m : GridModel) (st : FWState) (p : Nat × Nat)
    (hp : p.1 < m.rows ∧ p.2 < m.cols) :
    (fwInitCell m st p).dist (fwIdx m p.1 p.2, fwIdx m p.1 p.2) = 0 := by
  unfold fwInitCell
  dsimp only
  refine foldlPres
    (P := fun (st' : FWState) => st'.dist (fwIdx m p.1 p.2, fwIdx m p.1 p.2) = 0) _ _ ?_
    (Function.update_same _ _ _)
  intro st2 dir hdir h2
  rcases fwInitDir_cases m p (fwIdx m p.1 p.2) st2 dir with heq |
    ⟨hb1, hb2, hb3, hb4, _, heq⟩
  · rw [heq]; exact h2
  · rw [heq]
    dsimp only
    rw [Function.update_noteq ?_]
    · exact h2
    · intro hc
      have hu := (Prod.mk.injEq _ _ _ _).mp hc
      have hinj := fwIdx_inj m (h := hu.2) hp.2
        (by omega)
      have := DIRS_ne_zero dir hdir
      omega

/-- After the whole initialisation the start diagonal entry is `0`. -/
theorem fwInit_diag_start (m : GridModel) (s : Cell) (hs : inGrid m s) :
    (fwInit m).dist
      (fwIdx m s.r.toNat s.c.toNat, fwIdx m s.r.toNat s.c.toNat) = 0 := by
  obtain ⟨h1, h2, h3, h4⟩ := hs
  set v₀ := fwIdx m s.r.toNat s.c.toNat with hv
  have hmem : (s.r.toNat, s.c.toNat) ∈ fwCells m := by
    rw [mem_fwCells]; constructor <;> [skip; skip] <;> dsimp only <;> omega
  obtain ⟨l₁, l₂, hsplit⟩ := List.append_of_mem hmem
  unfold fwInit
  rw [hsplit, List.foldl_append, List.foldl_cons]
  refine foldlPres (P := fun (st : FWState) => st.dist (v₀, v₀) = 0) _ _ ?_
    (fwInitCell_diag_self m _ _ (by dsimp only; omega))
  intro st1 p hp h1'
  have hpmem : p ∈ fwCells m := by rw [hsplit]; simp [hp]
  have hpb := (mem_fwCells m p).mp hpmem
  by_cases hrow : v₀ = fwIdx m p.1 p.2
  · rw [hrow]
    exact fwInitCell_diag_self m st1 p hpb
  · rw [fwInitCell_offrow m st1 p (v₀, v₀) hrow]
    exact h1'

/-- The triple loop keeps all distances nonnegative and the start diagonal
entry at `0` (an update writes `dik + dist[k][j] ≥ 0`, which can never beat
a diagonal `0`). -/
theorem fwRun_diag_nonneg (m : GridModel) (sv v₀ : Nat) (st : FWState)
    (h : st.dist (v₀, v₀) = 0 ∧ ∀ q, 0 ≤ st.dist q) :
    (fwRun m sv st).dist (v₀, v₀) = 0 ∧
      ∀ q, 0 ≤ (fwRun m sv st).dist q := by
  refine fwRun_invariant m sv
    (fun (st : FWState) => st.dist (v₀, v₀) = 0 ∧ ∀ q, 0 ≤ st.dist q)
    ?_ st h
  intro st k i h
  unfold fwRow
  dsimp only
  by_cases hik : st.dist (i, k) = INF
  · rw [if_pos hik]; exact h
  · rw [if_neg hik]
    have hd : 0 ≤ st.dist (i, k) := h.2 _
    refine foldlPres
      (P := fun (st' : FWState) => st'.dist (v₀, v₀) = 0 ∧ ∀ q, 0 ≤ st'.dist q)
      _ _ ?_ h
    intro st2 j _ h2
    rcases fwUpd_cases sv k i (st.dist (i, k)) st2 j with heq | ⟨hlt, heq⟩
    · rw [heq]; exact h2
    · rw [heq]
      dsimp only
      have halt : 0 ≤ st.dist (i, k) + st2.dist (k, j) := by
        have := h2.2 (k, j); omega
      constructor
      · by_cases hij : ((v₀, v₀) : Nat × Nat) = (i, j)
        · exfalso
          rw [← hij, h2.1] at hlt
          omega
        · rw [Function.update_noteq hij]; exact h2.1
      · intro q
        by_cases hq : q = (i, j)
        · rw [hq, Function.update_same]; exact halt
        · rw [Function.update_noteq hq]; exact h2.2 q

/-! ### One-iteration unfoldings for `start = end` -/

/-- When `start = end`, the very first Dijkstra pop is the end cell, so the
loop stops with untouched tables and `popped = [start]`. -/
theorem dijFinal_self (m : GridModel) (s : Cell) :
    dijFinal m s s =
      { dist := Function.update (fun _ => INF) s 0
        prev := fun _ => none
        popped := [s]
        pq := [] } := by
  unfold dijFinal dijInit
  rw [show gridFuel m = (m.rows * m.cols * 1000000000 + m.rows * m.cols + 1) + 1
    from rfl]
  rw [dijLoop]
  dsimp only [sortStable, insertSorted]
  rw [if_pos ⟨rfl, rfl⟩]
  simp

/-- The A* analogue of `dijFinal_self`. -/
theorem aStarFinal_self (m : GridModel) (s : Cell) :
    aStarFinal m s s =
      { g := Function.update (fun _ => INF) s 0
        f := Function.update (fun _ => INF) s (manhattan s s.r s.c)
        prev := fun _ => none
        popped := [s]
        pq := [] } := by
  unfold aStarFinal aStarInit
  rw [show gridFuel m = (m.rows * m.cols * 1000000000 + m.rows * m.cols + 1) + 1
    from rfl]
  rw [aStarLoop]
  dsimp only [sortStable, insertSorted]
  rw [if_pos ⟨rfl, rfl⟩]
  simp

/-- A predecessor walk from a cell with no predecessor stops at once. -/
theorem walkChain_none (prev : Cell → Option Cell) (x : Cell)
    (h : prev x = none) (fuel : Nat) : walkChain prev (fuel + 1) x = [x] := by
  rw [walkChain, h]

/-- A branch walk starting at `start` itself stops at once. -/
theorem walkToStart_self (prev : Cell → Option Cell) (s : Cell)
    (fuel : Nat) : walkToStart prev s (fuel + 1) s = [s] := by
  rw [walkToStart, if_pos rfl]

/-- Dijkstra with `start = end`: path `[start]`, no branches. -/
theorem dijShortestPath_self (m : GridModel) (s : Cell)
    (hs : m.start = some s) (he : m.endp = some s) :
    dijShortestPath m = ⟨[s], []⟩ := by
  unfold dijShortestPath
  rw [hs, he]
  dsimp only
  rw [dijFinal_self]
  dsimp only
  rw [Function.update_same]
  rw [if_neg (by unfold INF; omega : ¬ (0 : Int) = INF)]
  rw [show walkFuel m = (m.rows * m.cols + 1) + 1 from rfl]
  rw [walkChain_none _ _ rfl]
  simp

/-- A* with `start = end`: path `[start]`, no branches. -/
theorem aStarShortestPath_self (m : GridModel) (s : Cell)
    (hs : m.start = some s) (he : m.endp = some s) :
    aStarShortestPath m = ⟨[s], []⟩ := by
  unfold aStarShortestPath
  rw [hs, he]
  dsimp only
  rw [aStarFinal_self]
  dsimp only
  rw [Function.update_same]
  rw [if_neg (by unfold INF; omega : ¬ (0 : Int) = INF)]
  rw [show walkFuel m = (m.rows * m.cols + 1) + 1 from rfl]
  rw [walkChain_none _ _ rfl]
  simp

/-- Bellman-Ford with `start = end`: the path is `[start]` (branches may
well be non-empty, since the sweeps still run). -/
theorem bellmanFord_path_self (m : GridModel) (s : Cell)
    (hs : m.start = some s) (he : m.endp = some s) :
    (bellmanFordShortestPath m).path = [s] := by
  unfold bellmanFordShortestPath
  rw [hs, he]
  dsimp only
  have hinit : (bfInit s).dist s = 0 ∧ (bfInit s).prev s = none ∧
      ∀ x, 0 ≤ (bfInit s).dist x := by
    unfold bfInit
    dsimp only
    refine ⟨Function.update_same _ _ _, rfl, ?_⟩
    intro x
    by_cases hx : x = s
    · rw [hx, Function.update_same]
    · rw [Function.update_noteq hx]; unfold INF; omega
  have hinv := bfRounds_start_inv m s (m.rows * m.cols - 1) (bfInit s) hinit
  unfold bfFinal
  rw [if_neg (by rw [hinv.1]; unfold INF; omega)]
  rw [show walkFuel m = (m.rows * m.cols + 1) + 1 from rfl]
  rw [walkChain_none _ _ hinv.2.1]
  simp

/-- Floyd-Warshall with `start = end`: the path is `[start]` (again the
branches may be non-empty). -/
theorem floydWars_path_self (m : GridModel) (s : Cell)
    (hs : m.start = some s) (he : m.endp = some s) (hin : inGrid m s) :
    (floydWarsShortestPath m).path = [s] := by
  unfold floydWarsShortestPath
  rw [hs, he]
  dsimp only
  have h0 := fwRun_diag_nonneg m (fwIdx m s.r.toNat s.c.toNat)
    (fwIdx m s.r.toNat s.c.toNat) (fwInit m)
    ⟨fwInit_diag_start m s hin, fwInit_nonneg m⟩
  rw [if_neg (by rw [h0.1]; unfold INF; omega)]
  rw [show walkFuel m = (m.rows * m.cols + 1) + 1 from rfl]
  rw [fwPathLoop]
  rw [if_pos rfl]
  have hrc : fwRC m (fwIdx m s.r.toNat s.c.toNat) = s := by
    obtain ⟨hb1, hb2, hb3, hb4⟩ := hin
    rw [fwRC_fwIdx m (by omega)]
    cases s with
    | mk r c =>
      simp only [Cell.mk.injEq]
      dsimp only at hb1 hb3
      omega
  rw [hrc]
  simp

/-- `dijkstraNodePath` with `start = goal`: the first pop is the goal. -/
theorem dijkstraNodePath_self (nm : NodeModel) (g : String)
    (hs : nm.start = some g) (hg : nm.goal = some g) :
    dijkstraNodePath nm = [g] := by
  unfold dijkstraNodePath
  rw [hs, hg]
  dsimp only
  rw [show nodeFuel nm = ((nm.nodes.length + 1) * 1000000000 + 1) + 1 from rfl]
  rw [dijNLoop]
  dsimp only [sortStable, insertSorted]
  rw [if_pos rfl]
  dsimp only
  rw [Function.update_same]
  rw [show nodeWalkFuel nm = (nm.nodes.length + 1) + 1 from rfl]
  rw [walkStr]
  simp

/-- `bfsNodePath` with `start = goal`. -/
theorem bfsNodePath_self (nm : NodeModel) (g : String)
    (hs : nm.start = some g) (hg : nm.goal = some g) :
    bfsNodePath nm = [g] := by
  unfold bfsNodePath
  rw [hs, hg]
  dsimp only
  rw [show nodeFuel nm = ((nm.nodes.length + 1) * 1000000000 + 1) + 1 from rfl]
  rw [bfsLoop]
  dsimp only
  rw [if_pos rfl]
  rw [show nodeWalkFuel nm = (nm.nodes.length + 1) + 1 from rfl]
  rw [walkStrToStart]
  rw [if_pos rfl]
  simp

/-- `dfsNodePath` with `start = goal`. -/
theorem dfsNodePath_self (nm : NodeModel) (g : String)
    (hs : nm.start = some g) (hg : nm.goal = some g) :
    dfsNodePath nm = [g] := by
  unfold dfsNodePath
  rw [hs, hg]
  dsimp only
  rw [show nodeFuel nm = ((nm.nodes.length + 1) * 1000000000 + 1) + 1 from rfl]
  rw [dfsLoop]
  dsimp only
  rw [if_pos rfl]
  dsimp only
  rw [show nodeWalkFuel nm = (nm.nodes.length + 1) + 1 from rfl]
  rw [walkStrToStart]
  rw [if_pos rfl]
  simp

/-! ### C3: start = end -/

/-- C3 as stated is false: with `start = end`, Bellman-Ford still runs its
sweeps (logging every reachable cell in `visitedOrder`) and Floyd-Warshall
still logs every destination improved from `start`, so both return
non-empty `branches` on a 1×3 open grid. -/
theorem start_eq_end_counterexample :
    mSame13.start = some ⟨0, 0⟩ ∧ mSame13.endp = some ⟨0, 0⟩ ∧
    (bellmanFordShortestPath mSame13).branches ≠ [] ∧
    (floydWarsShortestPath mSame13).branches ≠ [] := by decide

/-- C3 amended: with `start = end` every algorithm returns the
single-element path `[start]`; the branch list is empty for Dijkstra and
A* (which stop on the first pop), while Bellman-Ford and Floyd-Warshall may
return non-empty branches; the graph algorithms return the single-element
id sequence. -/
theorem start_eq_end_single (m : GridModel) (s : Cell) (nm : NodeModel)
    (g : String) (hs : m.start = some s) (he : m.endp = some s)
    (hin : inGrid m s) (hns : nm.start = some g) (hng : nm.goal = some g) :
    dijShortestPath m = ⟨[s], []⟩ ∧
    aStarShortestPath m = ⟨[s], []⟩ ∧
    (bellmanFordShortestPath m).path = [s] ∧
    (floydWarsShortestPath m).path = [s] ∧
    dijkstraNodePath nm = [g] ∧ bfsNodePath nm = [g] ∧ dfsNodePath nm = [g] :=
  ⟨dijShortestPath_self m s hs he, aStarShortestPath_self m s hs he,
   bellmanFord_path_self m s hs he, floydWars_path_self m s hs he hin,
   dijkstraNodePath_self nm g hns hng, bfsNodePath_self nm g hns hng,
   dfsNodePath_self nm g hns hng⟩

theorem start_eq_end_single_witness :
    dijShortestPath mSame13 = ⟨[⟨0, 0⟩], []⟩ ∧
    (floydWarsShortestPath mSame13).path = [⟨0, 0⟩] ∧
    dijkstraNodePath gSelf = ["A"] :=
  ⟨(start_eq_end_single mSame13 ⟨0, 0⟩ gSelf "A" rfl rfl (by decide) rfl
      rfl).1,
   (start_eq_end_single mSame13 ⟨0, 0⟩ gSelf "A" rfl rfl (by decide) rfl
      rfl).2.2.2.1,
   (start_eq_end_single mSame13 ⟨0, 0⟩ gSelf "A" rfl rfl (by decide) rfl
      rfl).2.2.2.2.1⟩

/-! ### C5: walls at the endpoints -/

/-- Wall cells other than the start never acquire a finite Dijkstra
distance: relaxation only ever writes to non-wall targets. -/
theorem dij_wall_INF (m : GridModel) (s e : Cell) :
    ∀ x, m.isWall x.r x.c = true → x ≠ s → (dijFinal m s e).dist x = INF := by
  refine dijLoop_invariant m e
    (fun st => ∀ (x : Cell), m.isWall x.r x.c = true → x ≠ s →
      st.dist x = INF) ?_ ?_ (gridFuel m) (dijInit s) ?_
  · intro st top rest _ hst
    exact hst
  · intro st x d dir hst y hy hys
    rcases dijRelaxDir_cases m x d st dir with heq | ⟨_, hw, _, heq⟩
    · rw [heq]; exact hst y hy hys
    · rw [heq]
      dsimp only
      rw [Function.update_noteq
        (fun hc => by rw [hc] at hy; rw [hy] at hw; cases hw)]
      exact hst y hy hys
  · intro y _ hys
    unfold dijInit
    dsimp only
    rw [Function.update_noteq hys]

/-- The A* analogue of `dij_wall_INF` for the `g`-table. -/
theorem aStar_wall_INF (m : GridModel) (s e : Cell) :
    ∀ x, m.isWall x.r x.c = true → x ≠ s → (aStarFinal m s e).g x = INF := by
  refine aStarLoop_invariant m e
    (fun st => ∀ (x : Cell), m.isWall x.r x.c = true → x ≠ s →
      st.g x = INF) ?_ ?_ (gridFuel m) (aStarInit e s) ?_
  · intro st top rest _ hst
    exact hst
  · intro st x g dir hst y hy hys
    rcases aStarRelaxDir_cases m e x g st dir with heq | ⟨_, hw, _, heq⟩
    · rw [heq]; exact hst y hy hys
    · rw [heq]
      dsimp only
      rw [Function.update_noteq
        (fun hc => by rw [hc] at hy; rw [hy] at hw; cases hw)]
      exact hst y hy hys
  · intro y _ hys
    unfold aStarInit
    dsimp only
    rw [Function.update_noteq hys]

/-- The Bellman-Ford analogue of `dij_wall_INF`. -/
theorem bf_wall_INF (m : GridModel) (s : Cell) :
    ∀ x, m.isWall x.r x.c = true → x ≠ s → (bfFinal m s).dist x = INF := by
  refine bfRounds_invariant m
    (fun st => ∀ (x : Cell), m.isWall x.r x.c = true → x ≠ s →
      st.dist x = INF) ?_ (m.rows * m.cols - 1) (bfInit s) ?_
  · intro st hst
    unfold bfSweep
    refine foldlPres (P := fun (st : BFState) =>
      ∀ (x : Cell), m.isWall x.r x.c = true → x ≠ s → st.dist x = INF)
      _ _ ?_ hst
    intro st1 x _ h1
    unfold bfCellStep
    dsimp only
    by_cases hfin : st1.dist x = INF
    · rw [if_pos hfin]; exact h1
    · rw [if_neg hfin]
      refine foldlPres (P := fun (st : BFState) =>
        ∀ (x : Cell), m.isWall x.r x.c = true → x ≠ s → st.dist x = INF)
        _ _ ?_ h1
      intro st2 dir _ h2 y hy hys
      rcases bfRelaxDir_cases m x (st1.dist x) st2 dir with heq |
        ⟨_, hw, _, st', ⟨hdist, _, _⟩, heq⟩
      · rw [heq]; exact h2 y hy hys
      · rw [heq]
        dsimp only
        rw [Function.update_noteq
          (fun hc => by rw [hc] at hy; rw [hy] at hw; cases hw), hdist]
        exact h2 y hy hys
  · intro y _ hys
    unfold bfInit
    dsimp only
    rw [Function.update_noteq hys]

/-- Off-diagonal entries into wall indices stay `INF` through the whole
Floyd-Warshall computation, and all distances stay nonnegative. -/
theorem fw_wall_INF (m : GridModel) (sv : Nat) :
    (∀ q, 0 ≤ (fwRun m sv (fwInit m)).dist q) ∧
    (∀ i j, j ≠ i → wallV m j = true →
      (fwRun m sv (fwInit m)).dist (i, j) = INF) := by
  set P : FWState → Prop := fun st =>
    (∀ q, 0 ≤ st.dist q) ∧
    (∀ i j, j ≠ i → wallV m j = true → st.dist (i, j) = INF) with hP
  have hrun : P (fwInit m) → P (fwRun m sv (fwInit m)) := by
    refine fwRun_invariant m sv P ?_ _
    intro st k i h
    unfold fwRow
    dsimp only
    by_cases hik : st.dist (i, k) = INF
    · rw [if_pos hik]; exact h
    · rw [if_neg hik]
      have hd : 0 ≤ st.dist (i, k) := h.1 _
      have hkw : wallV m k = true → k = i := by
        intro hw
        by_contra hki
        exact hik (h.2 i k hki hw)
      refine foldlPres (P := P) _ _ ?_ h
      intro st2 j _ h2
      rcases fwUpd_cases sv k i (st.dist (i, k)) st2 j with heq | ⟨hlt, heq⟩
      · rw [heq]; exact h2
      · rw [heq]
        have hfire : ¬(j ≠ i ∧ wallV m j = true) := by
          rintro ⟨hji, hjw⟩
          have hINFij : st2.dist (i, j) = INF := h2.2 i j hji hjw
          by_cases hjk : j = k
          · exact hji (by rw [hjk]; exact hkw (by rw [← hjk]; exact hjw))
          · have hINFkj : st2.dist (k, j) = INF := h2.2 k j hjk hjw
            rw [hINFij, hINFkj] at hlt
            omega
        constructor
        · intro q
          dsimp only
          by_cases hq : q = (i, j)
          · rw [hq, Function.update_same]
            have := h2.1 (k, j)
            omega
          · rw [Function.update_noteq hq]; exact h2.1 q
        · intro i' j' hji' hjw'
          dsimp only
          rw [Function.update_noteq ?_]
          · exact h2.2 i' j' hji' hjw'
          · intro hc
            rw [Prod.mk.injEq] at hc
            exact hfire ⟨by rw [← hc.2, ← hc.1]; exact hji',
              by rw [← hc.2]; exact hjw'⟩
  have hinit : P (fwInit m) := by
    unfold fwInit
    refine foldlPres (P := P) _ _ ?_ ?_
    · intro st1 p _ h1
      unfold fwInitCell
      dsimp only
      refine foldlPres (P := P) _ _ ?_ ?_
      · intro st2 dir _ h2
        rcases fwInitDir_cases m p (fwIdx m p.1 p.2) st2 dir with heq |
          ⟨hb1, hb2, hb3, hb4, hw, heq⟩
        · rw [heq]; exact h2
        · rw [heq]
          have hu : wallV m (fwIdx m ((p.1 : Int) + dir.1).toNat
              ((p.2 : Int) + dir.2).toNat) = false := by
            unfold wallV
            rw [fwRC_fwIdx m (by omega)]
            have e1 : ((((p.1 : Int) + dir.1).toNat : Nat) : Int)
                = (p.1 : Int) + dir.1 := by omega
            have e2 : ((((p.2 : Int) + dir.2).toNat : Nat) : Int)
                = (p.2 : Int) + dir.2 := by omega
            dsimp only
            rw [e1, e2]
            exact hw
          constructor
          · intro q
            dsimp only
            by_cases hq : q = (fwIdx m p.1 p.2, fwIdx m ((p.1 : Int) + dir.1).toNat
                ((p.2 : Int) + dir.2).toNat)
            · rw [hq, Function.update_same]; omega
            · rw [Function.update_noteq hq]; exact h2.1 q
          · intro i' j' hji' hjw'
            dsimp only
            rw [Function.update_noteq ?_]
            · exact h2.2 i' j' hji' hjw'
            · intro hc
              rw [Prod.mk.injEq] at hc
              rw [hc.2] at hjw'
              rw [hu] at hjw'
              cases hjw'
      · constructor
        · intro q
          dsimp only
          by_cases hq : q = (fwIdx m p.1 p.2, fwIdx m p.1 p.2)
          · rw [hq, Function.update_same]
          · rw [Function.update_noteq hq]; exact h1.1 q
        · intro i' j' hji' hjw'
          dsimp only
          rw [Function.update_noteq ?_]
          · exact h1.2 i' j' hji' hjw'
          · intro hc
            rw [Prod.mk.injEq] at hc
            exact hji' (by rw [hc.2, hc.1])
    · constructor
      · intro q
        show (0 : Int) ≤ INF
        unfold INF; omega
      · intro i' j' _ _
        rfl
  exact hrun hinit

/-- C5 as stated is false: a walled start is *not* treated as unreachable —
all four algorithms happily relax out of the walled start cell (only edges
*into* walls are forbidden) and return the 2-cell path on a 1×2 grid whose
start is a wall. -/
theorem walled_start_counterexample :
    mWalledStart.start = some ⟨0, 0⟩ ∧ mWalledStart.endp = some ⟨0, 1⟩ ∧
    mWalledStart.isWall 0 0 = true ∧
    dijShortestPath mWalledStart ≠ emptyResult ∧
    aStarShortestPath mWalledStart ≠ emptyResult ∧
    bellmanFordShortestPath mWalledStart ≠ emptyResult ∧
    floydWarsShortestPath mWalledStart ≠ emptyResult := by decide

/-- C5 amended: a walled **end** (distinct from start) is treated as
unreachable by all four grid algorithms, which then return
`{path: [], branches: []}`; a walled start is not. -/
theorem walled_end_unreachable (m : GridModel) (s e : Cell)
    (hs : m.start = some s) (he : m.endp = some e)
    (hw : m.isWall e.r e.c = true) (hne : e ≠ s)
    (hins : inGrid m s) (hine : inGrid m e) :
    dijShortestPath m = emptyResult ∧ aStarShortestPath m = emptyResult ∧
    bellmanFordShortestPath m = emptyResult ∧
    floydWarsShortestPath m = emptyResult := by
  refine ⟨?_, ?_, ?_, ?_⟩
  · unfold dijShortestPath
    rw [hs, he]
    dsimp only
    rw [if_pos (dij_wall_INF m s e e hw hne)]
    rfl
  · unfold aStarShortestPath
    rw [hs, he]
    dsimp only
    rw [if_pos (aStar_wall_INF m s e e hw hne)]
    rfl
  · unfold bellmanFordShortestPath
    rw [hs, he]
    dsimp only
    rw [if_pos (bf_wall_INF m s e hw hne)]
    rfl
  · unfold floydWarsShortestPath
    rw [hs, he]
    dsimp only
    have hwv : wallV m (fwIdx m e.r.toNat e.c.toNat) = true := by
      unfold wallV
      obtain ⟨hb1, hb2, hb3, hb4⟩ := hine
      rw [fwRC_fwIdx m (by omega)]
      have e1 : ((e.r.toNat : Nat) : Int) = e.r := by omega
      have e2 : ((e.c.toNat : Nat) : Int) = e.c := by omega
      dsimp only
      rw [e1, e2]
      exact hw
    have hvne : fwIdx m e.r.toNat e.c.toNat ≠ fwIdx m s.r.toNat s.c.toNat := by
      intro hc
      obtain ⟨hb1, hb2, hb3, hb4⟩ := hine
      obtain ⟨hc1, hc2, hc3, hc4⟩ := hins
      have hinj := fwIdx_inj m (h := hc) (by omega) (by omega)
      apply hne
      cases e with
      | mk er ec =>
        cases s with
        | mk sr sc =>
          simp only [Cell.mk.injEq]
          dsimp only at hb1 hb3 hc1 hc3 hinj
          omega
    rw [if_pos ((fw_wall_INF m (fwIdx m s.r.toNat s.c.toNat)).2
      (fwIdx m s.r.toNat s.c.toNat) (fwIdx m e.r.toNat e.c.toNat) hvne hwv)]
    rfl

theorem walled_end_unreachable_witness :
    dijShortestPath mDisconnected = emptyResult ∧
    floydWarsShortestPath mDisconnected = emptyResult :=
  ⟨(walled_end_unreachable mDisconnected ⟨0, 0⟩ ⟨0, 1⟩ rfl rfl (by decide)
      (by decide) (by decide) (by decide)).1,
   (walled_end_unreachable mDisconnected ⟨0, 0⟩ ⟨0, 1⟩ rfl rfl (by decide)
      (by decide) (by decide) (by decide)).2.2.2⟩

/-! ### C7: Bellman-Ford sweep discipline -/

/-- A sweep that relaxes no edge (leaves `anyChange` down) changes nothing
at all: every cell step was the identity. -/
theorem bfSweep_no_change (m : GridModel) (st : BFState)
    (h : (bfSweep m st).anyChange = false) :
    bfSweep m st = { st with anyChange := false } := by
  have key : ∀ (l : List Cell) (b : BFState),
      (b.anyChange = false → b = { st with anyChange := false }) →
      ((l.foldl (bfCellStep m) b).anyChange = false →
        l.foldl (bfCellStep m) b = { st with anyChange := false }) := by
    intro l b hb
    refine foldlPres (P := fun (st' : BFState) =>
      st'.anyChange = false → st' = { st with anyChange := false }) l b ?_ hb
    intro st1 x _ h1
    unfold bfCellStep
    dsimp only
    by_cases hfin : st1.dist x = INF
    · rw [if_pos hfin]; exact h1
    · rw [if_neg hfin]
      refine foldlPres (P := fun (st' : BFState) =>
        st'.anyChange = false → st' = { st with anyChange := false })
        DIRS st1 ?_ h1
      intro st2 dir _ h2 hfalse
      rcases bfRelaxDir_cases m x (st1.dist x) st2 dir with heq |
        ⟨_, _, _, st', _, heq⟩
      · rw [heq] at hfalse ⊢; exact h2 hfalse
      · rw [heq] at hfalse
        simp at hfalse
  exact key (rowMajor m) { st with anyChange := false } (fun _ => rfl) h

/-- Sweeping is insensitive to the incoming `anyChange` flag. -/
theorem bfSweep_reset (m : GridModel) (st : BFState) (b : Bool) :
    bfSweep m { st with anyChange := b } = bfSweep m st := rfl

/-- A state fixed by its sweep is fixed by any number of further sweeps. -/
theorem bfRoundsFull_stable (m : GridModel) (st : BFState)
    (h : bfSweep m st = st) : ∀ k, bfRoundsFull m k st = st := by
  intro k
  induction k with
  | zero => rfl
  | succ k ih => rw [bfRoundsFull, h, ih]

/-- The early-exit loop computes exactly what `rows*cols - 1` uncut sweeps
compute: stopping after a no-change sweep loses nothing. -/
theorem bfRounds_eq_full (m : GridModel) :
    ∀ n st, bfRounds m n st = bfRoundsFull m n st := by
  intro n
  induction n with
  | zero => intro st; rfl
  | succ n ih =>
    intro st
    rw [bfRounds, bfRoundsFull]
    by_cases hc : (bfSweep m st).anyChange
    · rw [if_pos hc]
      exact ih _
    · rw [if_neg hc]
      rw [Bool.not_eq_true] at hc
      have hst' := bfSweep_no_change m st hc
      have hfix : bfSweep m (bfSweep m st) = bfSweep m st := by
        conv_lhs => rw [hst']
        rw [bfSweep_reset]
      exact (bfRoundsFull_stable m (bfSweep m st) hfix n).symm

/-- The loop never performs more sweeps than its bound. -/
theorem bfRoundsCount_le (m : GridModel) :
    ∀ n st, bfRoundsCount m n st ≤ n := by
  intro n
  induction n with
  | zero => intro st; exact Nat.le_refl 0
  | succ n ih =>
    intro st
    show (if (bfSweep m st).anyChange then bfRoundsCount m n (bfSweep m st) + 1
      else 1) ≤ n + 1
    by_cases hc : (bfSweep m st).anyChange
    · rw [if_pos hc]
      exact Nat.succ_le_succ (ih _)
    · rw [if_neg hc]
      omega

/-- C7: the Bellman-Ford sweep loop performs at most `rows*cols - 1` full
row-major sweeps; a sweep that relaxes no edge ends the loop at once (the
count is then 1), and the early exit is sound: the final state equals the
one produced by running all `rows*cols - 1` sweeps uncut. -/
theorem bellmanFord_sweep_discipline (m : GridModel) (s : Cell) :
    bfFinal m s = bfRoundsFull m (m.rows * m.cols - 1) (bfInit s) ∧
    bfRoundsCount m (m.rows * m.cols - 1) (bfInit s) ≤ m.rows * m.cols - 1 ∧
    (∀ n st, (bfSweep m st).anyChange = false →
      bfRoundsCount m (n + 1) st = 1) ∧
    (∀ n st, bfRounds m n st = bfRoundsFull m n st) := by
  refine ⟨bfRounds_eq_full m _ _, bfRoundsCount_le m _ _, ?_, bfRounds_eq_full m⟩
  intro n st hc
  show (if (bfSweep m st).anyChange then bfRoundsCount m n (bfSweep m st) + 1
    else 1) = 1
  rw [if_neg (by rw [hc]; exact Bool.false_ne_true)]

theorem bellmanFord_sweep_discipline_witness :
    bfRoundsCount mOne (5 + 1) (bfInit ⟨0, 0⟩) = 1 :=
  (bellmanFord_sweep_discipline mOne ⟨0, 0⟩).2.2.1 5 (bfInit ⟨0, 0⟩)
    (by decide)

/-! ### C8: playback controller -/

/-- The advance loop does nothing when less than one step duration has
accumulated. -/
theorem advanceLoop_done (f : Nat) (a : AnimState) (h : a.acc < a.msPerStep) :
    advanceLoop f a = a := by
  cases f with
  | zero => rfl
  | succ f =>
    rw [advanceLoop, if_neg]
    rintro ⟨h1, _⟩
    omega

/-- With exactly one step duration accumulated, the loop commits exactly
one step. -/
theorem advanceLoop_one (f : Nat) (a : AnimState) (h1 : a.acc = a.msPerStep)
    (h0 : 0 < a.msPerStep) (h2 : a.pos + 1 < a.path.length) :
    advanceLoop (f + 1) a =
      { a with acc := 0, pos := a.pos + 1, branches := branchStep a.branches } := by
  rw [advanceLoop, if_pos ⟨le_of_eq h1.symm, h2⟩]
  have : a.acc - a.msPerStep = 0 := by omega
  rw [this]
  exact advanceLoop_done f _ (by dsimp only; omega)

/-- One step of the advance loop from a positive fuel value. -/
theorem advanceLoop_one_of_pos (f : Nat) (a : AnimState) (hf : 0 < f)
    (h1 : a.acc = a.msPerStep) (h0 : 0 < a.msPerStep)
    (h2 : a.pos + 1 < a.path.length) :
    advanceLoop f a =
      { a with
        acc := 0
        pos := a.pos + 1
        branches := branchStep a.branches } := by
  cases f with
  | zero => omega
  | succ f => exact advanceLoop_one f a h1 h0 h2

/-- The closed form of an uninterrupted playback: after the initial RAF
callback and `n` further callbacks spaced one step duration apart, the
cursor sits at `min n (len-1)`, every branch cursor has advanced by the
same number of committed steps, clamped to its own length, the accumulator
is empty, and the clock has paused exactly when the cursor reached the path
end. -/
theorem rafTicks_closed (res : PathResult) (ms ts0 : Int) (hms : 0 < ms)
    (n : Nat) :
    rafTicks (startRAF (computedState res ms) ms) ts0 ms (n + 1) =
      { path := res.path
        pos := min n (res.path.length - 1)
        branches := res.branches.map (fun p =>
          { path := p
            pos := min (min n (res.path.length - 1)) (p.length - 1) })
        playing := decide (n + 1 < res.path.length)
        lastTs := some (ts0 + (min n (res.path.length - 1) : Nat) * ms)
        acc := 0
        msPerStep := ms } := by
  have hstart : startRAF (computedState res ms) ms =
      { path := res.path, pos := 0
        branches := res.branches.map (fun p => { path := p, pos := 0 })
        playing := true, lastTs := none, acc := 0, msPerStep := ms } := by
    unfold startRAF computedState
    rw [if_neg (by simp)]
  induction n with
  | zero =>
    rw [rafTicks, rafTicks, hstart]
    unfold rafTick
    rw [if_neg (by simp)]
    dsimp only [Option.getD]
    simp only [Nat.cast_zero, zero_mul, add_zero, sub_self, zero_add,
      Nat.zero_min]
    rw [advanceLoop_done _ _ (by dsimp only; omega)]
    by_cases h1 : res.path.length ≤ 0 + 1
    · rw [if_pos (by dsimp only; omega)]
      rw [decide_eq_false (by omega : ¬ (0 + 1 < res.path.length))]
    · rw [if_neg (by dsimp only; omega)]
      rw [decide_eq_true (by omega : 0 + 1 < res.path.length)]
  | succ n ih =>
    rw [rafTicks, ih]
    by_cases hcase : n + 1 < res.path.length
    · rw [decide_eq_true hcase]
      unfold rafTick
      rw [if_neg (by simp)]
      dsimp only [Option.getD]
      simp only [show min n (res.path.length - 1) = n from by omega]
      rw [show (0 : Int) + (ts0 + ((n : Nat) + 1 : Nat) * ms -
        (ts0 + (n : Nat) * ms)) = ms from by push_cast; ring]
      rw [advanceLoop_one_of_pos]
      rotate_left
      · dsimp only; omega
      · rfl
      · dsimp only; omega
      · dsimp only; omega
      dsimp only [branchStep]
      rw [List.map_map]
      by_cases hend : res.path.length ≤ n + 1 + 1
      · rw [if_pos (by omega)]
        simp only [show min (n + 1) (res.path.length - 1) = n + 1 from by omega]
        rw [decide_eq_false (by omega : ¬ (n + 1 + 1 < res.path.length))]
        congr 1
        apply List.map_congr_left
        intro p _
        simp only [Function.comp_apply]
        split
        · next hlt =>
          try dsimp only at hlt ⊢
          congr 1
          omega
        · next hlt =>
          try dsimp only at hlt ⊢
          congr 1
          omega
      · rw [if_neg (by omega)]
        simp only [show min (n + 1) (res.path.length - 1) = n + 1 from by omega]
        rw [decide_eq_true (by omega : n + 1 + 1 < res.path.length)]
        congr 1
        apply List.map_congr_left
        intro p _
        simp only [Function.comp_apply]
        split
        · next hlt =>
          try dsimp only at hlt ⊢
          congr 1
          omega
        · next hlt =>
          try dsimp only at hlt ⊢
          congr 1
          omega
    · rw [decide_eq_false hcase]
      unfold rafTick
      rw [if_pos (by simp)]
      simp only [show min (n + 1) (res.path.length - 1) = min n (res.path.length - 1)
          from by omega,
        decide_eq_false hcase,
        decide_eq_false (by omega : ¬ (n + 1 + 1 < res.path.length))]

/-- C8: starting from a freshly computed result, after `n` step-duration
intervals of uninterrupted playback the main cursor equals
`min n (len(path)-1)` and every branch cursor has advanced by the same
committed step count, independently clamped to its own branch length;
`stepAnim` never advances the cursor past the last path index; and
`clearAnim` (the body of `resetAnim`) leaves cursor `0` with no cached
result. -/
theorem playback_controller (res : PathResult) (ms ts0 : Int) (hms : 0 < ms)
    (n : Nat) :
    ((rafTicks (startRAF (computedState res ms) ms) ts0 ms (n + 1)).pos
      = min n (res.path.length - 1) ∧
     (rafTicks (startRAF (computedState res ms) ms) ts0 ms (n + 1)).branches
      = res.branches.map (fun p =>
          { path := p
            pos := min (min n (res.path.length - 1)) (p.length - 1) })) ∧
    (∀ a : AnimState, a.pos ≤ a.path.length - 1 →
      (stepAnim a).pos ≤ a.path.length - 1) ∧
    (∀ speed : Int, (clearAnim speed).pos = 0 ∧ (clearAnim speed).path = [] ∧
      (clearAnim speed).branches = []) := by
  refine ⟨⟨?_, ?_⟩, ?_, ?_⟩
  · rw [rafTicks_closed res ms ts0 hms n]
  · rw [rafTicks_closed res ms ts0 hms n]
  · intro a ha
    unfold stepAnim
    dsimp only
    by_cases h0 : a.path.length = 0
    · rw [if_pos h0]; exact ha
    · rw [if_neg h0]
      by_cases h1 : a.pos + 1 < a.path.length
      · rw [if_pos h1]; dsimp only; omega
      · rw [if_neg h1]; dsimp only; exact ha
  · intro speed
    exact ⟨rfl, rfl, rfl⟩

theorem playback_controller_witness :
    (rafTicks (startRAF (computedState
        ⟨[⟨0, 0⟩, ⟨0, 1⟩, ⟨0, 2⟩], [[⟨0, 0⟩, ⟨1, 0⟩]]⟩ 100) 100) 0 100
      (5 + 1)).pos = min 5 2 :=
  (playback_controller ⟨[⟨0, 0⟩, ⟨0, 1⟩, ⟨0, 2⟩], [[⟨0, 0⟩, ⟨1, 0⟩]]⟩ 100 0
    (by omega) 5).1.1

/-! ### C10: `_nextID` produces pairwise distinct ids -/

/-- `Char.ofNat` round-trips on valid codepoints. -/
theorem charOfNat_toNat (n : Nat) (h : Nat.isValidChar n) :
    (Char.ofNat n).toNat = n := by
  unfold Char.ofNat
  rw [dif_pos h]
  rfl

/-- The fuel of `idDigitsAux` is irrelevant above the argument. -/
theorem idDigitsAux_congr : ∀ (f₁ f₂ n : Nat), n ≤ f₁ → n ≤ f₂ →
    idDigitsAux f₁ n = idDigitsAux f₂ n := by
  intro f₁
  induction f₁ with
  | zero =>
    intro f₂ n h1 _
    have hn : n = 0 := by omega
    subst hn
    cases f₂ with
    | zero => rfl
    | succ f₂ => simp [idDigitsAux]
  | succ f₁ ih =>
    intro f₂ n h1 h2
    by_cases h26 : n < 26
    · cases f₂ with
      | zero =>
        have hn : n = 0 := by omega
        subst hn
        simp [idDigitsAux]
      | succ f₂ =>
        rw [idDigitsAux, idDigitsAux, if_pos h26, if_pos h26]
    · have hdiv : n / 26 < n := Nat.div_lt_self (by omega) (by omega)
      cases f₂ with
      | zero => omega
      | succ f₂ =>
        rw [idDigitsAux, idDigitsAux, if_neg h26, if_neg h26]
        congr 1
        exact ih f₂ (n / 26 - 1) (by omega) (by omega)

/-- The recurrence satisfied by `idDigits`, mirroring the do-while loop of
`_nextID`. -/
theorem idDigits_eq (n : Nat) :
    idDigits n = if n < 26 then [n] else idDigits (n / 26 - 1) ++ [n % 26] := by
  by_cases h : n < 26
  · rw [if_pos h]
    unfold idDigits
    cases n with
    | zero => simp [idDigitsAux]
    | succ k => rw [idDigitsAux, if_pos h]
  · rw [if_neg h]
    unfold idDigits
    obtain ⟨k, hk⟩ : ∃ k, n = k + 1 := ⟨n - 1, by omega⟩
    have hdiv : n / 26 < n := Nat.div_lt_self (by omega) (by omega)
    conv_lhs => rw [hk, idDigitsAux]
    rw [if_neg (by omega)]
    rw [← hk]
    congr 1
    exact idDigitsAux_congr k (n / 26 - 1) (n / 26 - 1) (by omega) (by omega)

/-- An id never has an empty digit list. -/
theorem idDigits_ne_nil (n : Nat) : idDigits n ≠ [] := by
  rw [idDigits_eq]
  split
  · simp
  · simp

/-- Every digit of an id is a valid base-26 digit. -/
theorem idDigits_lt (n : Nat) : ∀ d ∈ idDigits n, d < 26 := by
  induction n using Nat.strong_induction_on with
  | _ n ih =>
    rw [idDigits_eq]
    split
    · next h =>
      intro d hd
      simp at hd
      omega
    · next h =>
      intro d hd
      rw [List.mem_append] at hd
      rcases hd with hd | hd
      · have hdiv : n / 26 < n := Nat.div_lt_self (by omega) (by omega)
        exact ih (n / 26 - 1) (by omega) d hd
      · simp at hd
        omega

/-- The bijective base-26 digit encoding is injective. -/
theorem idDigits_inj : ∀ a b, idDigits a = idDigits b → a = b := by
  intro a
  induction a using Nat.strong_induction_on with
  | _ a ih =>
    intro b h
    rw [idDigits_eq a, idDigits_eq b] at h
    by_cases ha : a < 26 <;> by_cases hb : b < 26
    · rw [if_pos ha, if_pos hb] at h
      simpa using h
    · rw [if_pos ha, if_neg hb] at h
      exfalso
      have hl := congrArg List.length h
      simp only [List.length_append, List.length_cons, List.length_nil] at hl
      have h0 : (idDigits (b / 26 - 1)).length = 0 := by omega
      exact (idDigits_ne_nil (b / 26 - 1)) (List.length_eq_zero.mp h0)
    · rw [if_neg ha, if_pos hb] at h
      exfalso
      have hl := congrArg List.length h
      simp only [List.length_append, List.length_cons, List.length_nil] at hl
      have h0 : (idDigits (a / 26 - 1)).length = 0 := by omega
      exact (idDigits_ne_nil (a / 26 - 1)) (List.length_eq_zero.mp h0)
    · rw [if_neg ha, if_neg hb] at h
      obtain ⟨h1, h2⟩ := List.append_inj' h (by simp)
      have hdiv : a / 26 < a := Nat.div_lt_self (by omega) (by omega)
      have hd : a / 26 - 1 = b / 26 - 1 := ih (a / 26 - 1) (by omega) _ h1
      have hm : a % 26 = b % 26 := by simpa using h2
      have ha26 := Nat.div_add_mod a 26
      have hb26 := Nat.div_add_mod b 26
      have hma : a % 26 < 26 := Nat.mod_lt _ (by omega)
      have hmb : b % 26 < 26 := Nat.mod_lt _ (by omega)
      omega

/-- Letter encoding of distinct digit lists is injective. -/
theorem mapChar_inj : ∀ (l₁ l₂ : List Nat), (∀ d ∈ l₁, d < 26) →
    (∀ d ∈ l₂, d < 26) →
    l₁.map (fun d => Char.ofNat (65 + d)) =
      l₂.map (fun d => Char.ofNat (65 + d)) → l₁ = l₂ := by
  intro l₁
  induction l₁ with
  | nil =>
    intro l₂ _ _ h
    cases l₂ with
    | nil => rfl
    | cons e l₂' => simp at h
  | cons d l ih =>
    intro l₂ h1 h2 h
    cases l₂ with
    | nil => simp at h
    | cons e l₂' =>
      simp only [List.map_cons, List.cons.injEq] at h
      obtain ⟨hh, ht⟩ := h
      have hd : d = e := by
        have hva := charOfNat_toNat (65 + d)
          (Or.inl (by have := h1 d (by simp); omega))
        have hvb := charOfNat_toNat (65 + e)
          (Or.inl (by have := h2 e (by simp); omega))
        rw [hh] at hva
        omega
      rw [hd, ih l₂' (fun x hx => h1 x (by simp [hx]))
        (fun x hx => h2 x (by simp [hx])) ht]

/-- `_nextID`'s letter strings are pairwise distinct across counter
values. -/
theorem toID_inj : ∀ a b, toID a = toID b → a = b := by
  intro a b h
  have hdata : (idDigits a).map (fun d => Char.ofNat (65 + d)) =
      (idDigits b).map (fun d => Char.ofNat (65 + d)) :=
    congrArg String.data h
  exact idDigits_inj a b
    (mapChar_inj _ _ (idDigits_lt a) (idDigits_lt b) hdata)

/-- Every `NodeModel` operation preserves the invariant. -/
theorem applyNOp_inv (m : NodeModel) (op : NOp) (h : NodesInv m) :
    NodesInv (applyNOp m op) := by
  obtain ⟨hnd, hmem⟩ := h
  cases op with
  | add x y r =>
    dsimp only [applyNOp]
    constructor
    · unfold nodeIds NodeModel.add at *
      dsimp only
      rw [List.map_append]
      rw [List.nodup_append]
      refine ⟨hnd, by simp, ?_⟩
      intro a ha hb
      simp only [List.map_cons, List.map_nil, List.mem_singleton] at hb
      subst hb
      rw [List.mem_map] at ha
      obtain ⟨nd, hnd', hid⟩ := ha
      obtain ⟨k, hk, hkid⟩ := hmem nd hnd'
      rw [hkid] at hid
      have := toID_inj _ _ hid
      omega
    · unfold NodeModel.add
      dsimp only
      intro nd hnd'
      rw [List.mem_append] at hnd'
      rcases hnd' with hnd' | hnd'
      · obtain ⟨k, hk, hkid⟩ := hmem nd hnd'
        exact ⟨k, by omega, hkid⟩
      · simp only [List.mem_singleton] at hnd'
        subst hnd'
        exact ⟨m.counter, by omega, rfl⟩
  | remove node =>
    dsimp only [applyNOp]
    unfold NodeModel.remove
    by_cases hc : m.nodes.contains node
    · rw [if_pos hc]
      constructor
      · unfold nodeIds
        dsimp only
        exact ((m.nodes.erase_sublist node).map _).nodup hnd
      · dsimp only
        intro nd hnd'
        exact hmem nd ((m.nodes.erase_sublist node).subset hnd')
    · rw [if_neg hc]; exact ⟨hnd, hmem⟩
  | move node x y =>
    dsimp only [applyNOp]
    constructor
    · unfold nodeIds NodeModel.move
      dsimp only
      rw [List.map_map]
      have : ∀ nd : GNode,
          ((fun n => n.id) ∘ fun n =>
            if n = node then { n with x := x, y := y } else n) nd = nd.id := by
        intro nd
        dsimp only [Function.comp_apply]
        split <;> rfl
      rw [List.map_congr_left (fun nd _ => this nd)]
      exact hnd
    · unfold NodeModel.move
      dsimp only
      intro nd hnd'
      rw [List.mem_map] at hnd'
      obtain ⟨n0, hn0, heq⟩ := hnd'
      obtain ⟨k, hk, hkid⟩ := hmem n0 hn0
      refine ⟨k, hk, ?_⟩
      rw [← heq]
      split <;> exact hkid
  | addEdge a b =>
    dsimp only [applyNOp]
    unfold NodeModel.addEdge
    split
    · exact ⟨hnd, hmem⟩
    · split <;> exact ⟨hnd, hmem⟩
  | removeEdge f t =>
    dsimp only [applyNOp]
    unfold NodeModel.removeEdge
    split <;> exact ⟨hnd, hmem⟩
  | setMarker kind node =>
    dsimp only [applyNOp]
    split
    · exact ⟨hnd, hmem⟩
    · split <;> exact ⟨hnd, hmem⟩
  | clearMarker kind =>
    dsimp only [applyNOp]
    split
    · exact ⟨hnd, hmem⟩
    · split <;> exact ⟨hnd, hmem⟩

/-- C10: the base-26 letter encoding of `_nextID` is injective, so after
any sequence of `NodeModel` operations on a fresh model the nodes list
carries pairwise distinct ids. -/
theorem nextID_distinct :
    (∀ a b, toID a = toID b → a = b) ∧
    ∀ ops : List NOp, ((applyNOps ops).nodes.map (fun nd => nd.id)).Nodup := by
  refine ⟨toID_inj, ?_⟩
  intro ops
  have h : NodesInv (applyNOps ops) := by
    unfold applyNOps
    refine foldlPres (P := NodesInv) ops nmInit
      (fun m op _ h => applyNOp_inv m op h) ?_
    exact ⟨List.nodup_nil, by intro nd h; cases h⟩
  exact h.1

theorem nextID_distinct_witness :
    (26 : Nat) = 26 ∧
    ((applyNOps [NOp.add 1 2 22, NOp.add 3 4 22,
      NOp.add 5 6 22]).nodes.map (fun nd => nd.id)).Nodup :=
  ⟨nextID_distinct.1 26 26 rfl,
   nextID_distinct.2 [NOp.add 1 2 22, NOp.add 3 4 22, NOp.add 5 6 22]⟩

/-! ### C6/C9 infrastructure: grid cardinality and predecessor walks -/

theorem mem_gridFinset (m : GridModel) (x : Cell) :
    x ∈ gridFinset m ↔ inGrid m x := by
  unfold gridFinset inGrid
  rw [Finset.mem_image]
  constructor
  · rintro ⟨⟨a, b⟩, hab, rfl⟩
    rw [Finset.mem_product, Finset.mem_range, Finset.mem_range] at hab
    dsimp only
    omega
  · rintro ⟨h1, h2, h3, h4⟩
    refine ⟨(x.r.toNat, x.c.toNat), ?_, ?_⟩
    · rw [Finset.mem_product, Finset.mem_range, Finset.mem_range]
      constructor <;> omega
    · dsimp only
      cases x with
      | mk r c =>
        simp only [Cell.mk.injEq]
        dsimp only at h1 h3
        omega

theorem card_gridFinset (m : GridModel) :
    (gridFinset m).card = m.rows * m.cols := by
  unfold gridFinset
  rw [Finset.card_image_of_injective _ ?_, Finset.card_product,
    Finset.card_range, Finset.card_range]
  intro p q h
  rw [Cell.mk.injEq] at h
  cases p; cases q
  simp only [Prod.mk.injEq]
  dsimp only at h
  omega

theorem distCard_le (m : GridModel) (dist : Cell → Int) (x : Cell) :
    distCard m dist x ≤ m.rows * m.cols := by
  unfold distCard
  rw [← card_gridFinset m]
  exact Finset.card_le_card (Finset.filter_subset _ _)

theorem distCard_pos (m : GridModel) (dist : Cell → Int) (x : Cell)
    (hx : inGrid m x) : 0 < distCard m dist x := by
  unfold distCard
  rw [Finset.card_pos]
  exact ⟨x, Finset.mem_filter.mpr ⟨(mem_gridFinset m x).mpr hx, le_refl _⟩⟩

theorem distCard_lt (m : GridModel) (dist : Cell → Int) (x p : Cell)
    (hx : inGrid m x) (hlt : dist p < dist x) :
    distCard m dist p < distCard m dist x := by
  unfold distCard
  apply Finset.card_lt_card
  rw [Finset.ssubset_iff_of_subset]
  · exact ⟨x, Finset.mem_filter.mpr ⟨(mem_gridFinset m x).mpr hx, le_refl _⟩,
      fun hmem => by
        rw [Finset.mem_filter] at hmem
        omega⟩
  · intro y hy
    rw [Finset.mem_filter] at hy ⊢
    refine ⟨hy.1, ?_⟩
    omega

/-- Any branch walk from a finite-distance in-bounds cell ends at the
start, visits at most `distCard` cells (all in bounds, finite distance),
and its consecutive elements follow `prev` links. -/
theorem walkToStart_spec (m : GridModel) (s : Cell) (dist : Cell → Int)
    (prev : Cell → Option Cell) (hok : PrevOK m s dist prev) :
    ∀ (N : Nat) (x : Cell) (fuel : Nat), distCard m dist x ≤ N →
      inGrid m x → dist x < INF → distCard m dist x ≤ fuel →
      (walkToStart prev s fuel x).getLast? = some s ∧
      (walkToStart prev s fuel x).head? = some x ∧
      (walkToStart prev s fuel x).length ≤ distCard m dist x ∧
      List.Chain' (fun a b => prev a = some b) (walkToStart prev s fuel x) ∧
      (∀ y ∈ walkToStart prev s fuel x, inGrid m y ∧ dist y < INF) := by
  intro N
  induction N with
  | zero =>
    intro x fuel hN hxg _ _
    have := distCard_pos m dist x hxg
    omega
  | succ N ih =>
    intro x fuel hN hxg hxf hfuel
    have hpos := distCard_pos m dist x hxg
    cases fuel with
    | zero => omega
    | succ f =>
      rw [walkToStart]
      by_cases hxs : x = s
      · rw [if_pos hxs]
        refine ⟨by rw [hxs]; rfl, rfl, by simpa using hpos, by simp, ?_⟩
        intro y hy
        rw [List.mem_singleton] at hy
        subst hy
        exact ⟨hxg, hxf⟩
      · rw [if_neg hxs]
        have hne := hok.2 x hxf hxs
        cases hp : prev x with
        | none => exact absurd hp hne
        | some p =>
          dsimp only
          obtain ⟨hlt, hpg, _, _⟩ := hok.1 x p hp
          have hpf : dist p < INF := by omega
          have hcard := distCard_lt m dist x p hxg hlt
          obtain ⟨ihlast, ihhead, ihlen, ihchain, ihmem⟩ :=
            ih p f (by omega) hpg hpf (by omega)
          have hnonnil : walkToStart prev s f p ≠ [] := by
            intro hc
            rw [hc] at ihhead
            cases ihhead
          refine ⟨?_, rfl, ?_, ?_, ?_⟩
          · obtain ⟨hd, tl, htl⟩ := List.exists_cons_of_ne_nil hnonnil
            rw [htl, List.getLast?_cons_cons, ← htl]
            exact ihlast
          · rw [List.length_cons]
            omega
          · rw [List.chain'_cons']
            refine ⟨?_, ihchain⟩
            intro y hy
            rw [ihhead] at hy
            cases hy
            exact hp
          · intro y hy
            rw [List.mem_cons] at hy
            rcases hy with hy | hy
            · subst hy; exact ⟨hxg, hxf⟩
            · exact ihmem y hy

/-- The main-path walk (no explicit break at `start`): it stops exactly at
the predecessor-free start cell. -/
theorem walkChain_spec (m : GridModel) (s : Cell) (dist : Cell → Int)
    (prev : Cell → Option Cell) (hok : PrevOK m s dist prev) :
    ∀ (N : Nat) (x : Cell) (fuel : Nat), distCard m dist x ≤ N →
      inGrid m x → dist x < INF → distCard m dist x ≤ fuel →
      (walkChain prev fuel x).getLast? = some s ∧
      (walkChain prev fuel x).head? = some x ∧
      (walkChain prev fuel x).length ≤ distCard m dist x ∧
      List.Chain' (fun a b => prev a = some b) (walkChain prev fuel x) ∧
      (∀ y ∈ walkChain prev fuel x, inGrid m y ∧ dist y < INF) := by
  intro N
  induction N with
  | zero =>
    intro x fuel hN hxg _ _
    have := distCard_pos m dist x hxg
    omega
  | succ N ih =>
    intro x fuel hN hxg hxf hfuel
    have hpos := distCard_pos m dist x hxg
    cases fuel with
    | zero => omega
    | succ f =>
      rw [walkChain]
      cases hp : prev x with
      | none =>
        dsimp only
        have hxs : x = s := by
          by_contra hxs
          exact hok.2 x hxf hxs hp
        refine ⟨by rw [hxs]; rfl, rfl, by simpa using hpos, by simp, ?_⟩
        intro y hy
        rw [List.mem_singleton] at hy
        subst hy
        exact ⟨hxg, hxf⟩
      | some p =>
        dsimp only
        obtain ⟨hlt, hpg, _, _⟩ := hok.1 x p hp
        have hpf : dist p < INF := by omega
        have hcard := distCard_lt m dist x p hxg hlt
        obtain ⟨ihlast, ihhead, ihlen, ihchain, ihmem⟩ :=
          ih p f (by omega) hpg hpf (by omega)
        have hnonnil : walkChain prev f p ≠ [] := by
          intro hc
          rw [hc] at ihhead
          cases ihhead
        refine ⟨?_, rfl, ?_, ?_, ?_⟩
        · obtain ⟨hd, tl, htl⟩ := List.exists_cons_of_ne_nil hnonnil
          rw [htl, List.getLast?_cons_cons, ← htl]
          exact ihlast
        · rw [List.length_cons]
          omega
        · rw [List.chain'_cons']
          refine ⟨?_, ihchain⟩
          intro y hy
          rw [ihhead] at hy
          cases hy
          exact hp
        · intro y hy
          rw [List.mem_cons] at hy
          rcases hy with hy | hy
          · subst hy; exact ⟨hxg, hxf⟩
          · exact ihmem y hy

theorem mem_insertSorted (le : α → α → Bool) (a b : α) :
    ∀ l : List α, b ∈ insertSorted le a l ↔ b = a ∨ b ∈ l := by
  intro l
  induction l with
  | nil => simp [insertSorted]
  | cons c l ih =>
    rw [insertSorted]
    by_cases h : le a c
    · rw [if_pos h]
      simp
    · rw [if_neg h]
      simp only [List.mem_cons, ih]
      tauto

theorem mem_sortStable (le : α → α → Bool) (b : α) :
    ∀ l : List α, b ∈ sortStable le l ↔ b ∈ l := by
  intro l
  induction l with
  | nil => rfl
  | cons c l ih =>
    rw [sortStable, mem_insertSorted]
    simp only [List.mem_cons, ih]

/-- Neighbour targets are distinct from their sources. -/
theorem nbr_ne (x : Cell) (dir : Int × Int) (hdir : dir ∈ DIRS) :
    nbr x dir ≠ x := by
  intro hc
  unfold nbr at hc
  rw [Cell.mk.injEq] at hc
  have := DIRS_ne_zero dir hdir
  omega

/-- One firing relaxation from a popped queue entry preserves the
invariant and leaves the source cell's distance unchanged. -/
theorem dijRelaxDir_inv (m : GridModel) (s : Cell) (x : Cell) (d : Int)
    (st : DijState) (dir : Int × Int) (hdir : dir ∈ DIRS)
    (h : DijInv m s st) (hxd : st.dist x ≤ d) (hdINF : d < INF)
    (hxg : inGrid m x) :
    DijInv m s (dijRelaxDir m x d st dir) ∧
      (dijRelaxDir m x d st dir).dist x = st.dist x := by
  obtain ⟨⟨hprev, hterm⟩, hpq, hbounds, hpop, hs0, hsp⟩ := h
  rcases dijRelaxDir_cases m x d st dir with heq | ⟨hgy, hwy, hlt, heq⟩
  · rw [heq]
    exact ⟨⟨⟨hprev, hterm⟩, hpq, hbounds, hpop, hs0, hsp⟩, rfl⟩
  · rw [heq]
    set y := nbr x dir with hy
    have hyx : y ≠ x := nbr_ne x dir hdir
    have hys : y ≠ s := by
      intro hc
      rw [hc] at hlt
      rw [hs0] at hlt
      have := (hbounds x).1
      omega
    have hdist_le : ∀ z, Function.update st.dist y (d + 1) z ≤ st.dist z := by
      intro z
      by_cases hz : z = y
      · rw [hz, Function.update_same]; omega
      · rw [Function.update_noteq hz]
    constructor
    · refine ⟨⟨?_, ?_⟩, ?_, ?_, ?_, ?_, ?_⟩
      · -- predecessor links
        intro z p hzp
        dsimp only at hzp ⊢
        by_cases hz : z = y
        · rw [hz, Function.update_same] at hzp
          cases hzp
          rw [hz, Function.update_same, Function.update_noteq (Ne.symm hyx)]
          exact ⟨by omega, hxg, ⟨dir, hdir, hy⟩, hwy⟩
        · rw [Function.update_noteq hz] at hzp
          obtain ⟨hd1, hd2, hd3, hd4⟩ := hprev z p hzp
          rw [Function.update_noteq hz]
          refine ⟨?_, hd2, hd3, hd4⟩
          calc Function.update st.dist y (d + 1) p ≤ st.dist p := hdist_le p
            _ < st.dist z := hd1
      · -- termination links
        intro z hzf hzs
        dsimp only at hzf ⊢
        by_cases hz : z = y
        · rw [hz, Function.update_same]
          exact Option.some_ne_none _
        · rw [Function.update_noteq hz] at hzf ⊢
          exact hterm z hzf hzs
      · -- queue entries
        intro e he
        dsimp only at he ⊢
        rw [List.mem_append] at he
        rcases he with he | he
        · obtain ⟨he1, he2, he3⟩ := hpq e he
          exact ⟨le_trans (hdist_le _) he1, he2, he3⟩
        · rw [List.mem_singleton] at he
          subst he
          dsimp only
          have hyy : (⟨y.r, y.c⟩ : Cell) = y := rfl
          rw [hyy, Function.update_same]
          exact ⟨le_refl _, hgy, by have := (hbounds y).2; omega⟩
      · -- bounds
        intro z
        dsimp only
        by_cases hz : z = y
        · rw [hz, Function.update_same]
          have := (hbounds x).1
          have := (hbounds y).2
          omega
        · rw [Function.update_noteq hz]
          exact hbounds z
      · -- popped
        intro z hz
        dsimp only at hz ⊢
        obtain ⟨hz1, hz2⟩ := hpop z hz
        exact ⟨hz1, lt_of_le_of_lt (hdist_le z) hz2⟩
      · dsimp only
        rw [Function.update_noteq (Ne.symm hys)]
        exact hs0
      · dsimp only
        rw [Function.update_noteq (Ne.symm hys)]
        exact hsp
    · dsimp only
      rw [Function.update_noteq (Ne.symm hyx)]

/-- The Dijkstra loop preserves `DijInv`. -/
theorem dijLoop_inv (m : GridModel) (s e : Cell) :
    ∀ fuel st, DijInv m s st → DijInv m s (dijLoop m e fuel st) := by
  intro fuel
  induction fuel with
  | zero => intro st h; exact h
  | succ fuel ih =>
    intro st h
    cases hsort : sortStable (fun a b : PQE => decide (a.d ≤ b.d)) st.pq with
    | nil => rw [dijLoop, hsort]; exact h
    | cons top rest =>
      rw [dijLoop, hsort]
      dsimp only
      have htop : top ∈ st.pq := by
        rw [← mem_sortStable (fun a b : PQE => decide (a.d ≤ b.d)) top st.pq,
          hsort]
        exact List.mem_cons_self _ _
      obtain ⟨htop1, htop2, htop3⟩ := h.2.1 top htop
      have h1 : DijInv m s
          { st with pq := rest, popped := st.popped ++ [⟨top.r, top.c⟩] } := by
        obtain ⟨hprevok, hpq, hbounds, hpop, hs0, hsp⟩ := h
        refine ⟨hprevok, ?_, hbounds, ?_, hs0, hsp⟩
        · intro e' he'
          refine hpq e' ?_
          rw [← mem_sortStable (fun a b : PQE => decide (a.d ≤ b.d)) e' st.pq,
            hsort]
          exact List.mem_cons_of_mem _ he'
        · intro y hy
          dsimp only at hy
          rw [List.mem_append] at hy
          rcases hy with hy | hy
          · exact hpop y hy
          · rw [List.mem_singleton] at hy
            subst hy
            exact ⟨htop2, lt_of_le_of_lt htop1 htop3⟩
      by_cases hend : top.r = e.r ∧ top.c = e.c
      · rw [if_pos hend]; exact h1
      · rw [if_neg hend]
        apply ih
        unfold dijStep
        have hQ : DijInv m s
              (DIRS.foldl (dijRelaxDir m ⟨top.r, top.c⟩ top.d)
                { st with
                  pq := rest
                  popped := st.popped ++ [⟨top.r, top.c⟩] }) ∧
            (DIRS.foldl (dijRelaxDir m ⟨top.r, top.c⟩ top.d)
                { st with
                  pq := rest
                  popped := st.popped ++ [⟨top.r, top.c⟩] }).dist
              ⟨top.r, top.c⟩ ≤ top.d := by
          refine foldlPres (P := fun (st' : DijState) =>
            DijInv m s st' ∧ st'.dist ⟨top.r, top.c⟩ ≤ top.d) _ _ ?_ ⟨h1, htop1⟩
          intro st2 dir hdir ⟨h2, h2d⟩
          obtain ⟨h3, h3d⟩ := dijRelaxDir_inv m s ⟨top.r, top.c⟩ top.d st2 dir
            hdir h2 h2d htop3 htop2
          exact ⟨h3, by rw [h3d]; exact h2d⟩
        exact hQ.1

/-- The invariant holds of the initial state and hence of the final one. -/
theorem dijFinal_inv (m : GridModel) (s e : Cell) (hs : inGrid m s) :
    DijInv m s (dijFinal m s e) := by
  unfold dijFinal
  apply dijLoop_inv
  unfold dijInit DijInv PrevOK
  refine ⟨⟨?_, ?_⟩, ?_, ?_, ?_, ?_, ?_⟩
  · intro x p hxp
    cases hxp
  · intro x hx hxs
    dsimp only at hx
    rw [Function.update_noteq hxs] at hx
    unfold INF at hx
    omega
  · intro e' he'
    dsimp only at he'
    rw [List.mem_singleton] at he'
    subst he'
    dsimp only
    have : (⟨s.r, s.c⟩ : Cell) = s := rfl
    rw [this, Function.update_same]
    refine ⟨le_refl _, hs, by unfold INF; omega⟩
  · intro x
    dsimp only
    by_cases hx : x = s
    · rw [hx, Function.update_same]
      constructor <;> [omega; (unfold INF; omega)]
    · rw [Function.update_noteq hx]
      constructor <;> [(unfold INF; omega); omega]
  · intro y hy
    cases hy
  · show Function.update (fun _ => INF) s 0 s = (0 : Int)
    rw [Function.update_same]
  · rfl

/-- Facts shared by the outputs of Dijkstra/A*/Bellman-Ford, derived from
`PrevOK` final states: a well-formed main path and well-formed branches. -/
theorem prevOK_output (m : GridModel) (s e : Cell)
    (dist : Cell → Int) (prev : Cell → Option Cell)
    (hok : PrevOK m s dist prev) (heg : inGrid m e)
    (hef : dist e < INF) :
    (((walkChain prev (walkFuel m) e).reverse.head? = some s ∧
      (walkChain prev (walkFuel m) e).reverse.getLast? = some e ∧
      List.Chain' stepAdj (walkChain prev (walkFuel m) e).reverse ∧
      (∀ y ∈ (walkChain prev (walkFuel m) e).reverse, inGrid m y) ∧
      (∀ y ∈ (walkChain prev (walkFuel m) e).reverse,
        y = s ∨ m.isWall y.r y.c = false))) ∧
    (∀ x, inGrid m x → dist x < INF →
      (walkToStart prev s (walkFuel m) x).reverse ≠ [] ∧
      (walkToStart prev s (walkFuel m) x).reverse.head? = some s ∧
      (walkToStart prev s (walkFuel m) x).reverse.length ≤
        m.rows * m.cols) := by
  have hfuel : ∀ x : Cell, distCard m dist x ≤ walkFuel m := by
    intro x
    have := distCard_le m dist x
    unfold walkFuel
    omega
  constructor
  · obtain ⟨hlast, hhead, _, hchain, hmem⟩ :=
      walkChain_spec m s dist prev hok (distCard m dist e) e (walkFuel m)
        (le_refl _) heg hef (hfuel e)
    refine ⟨?_, ?_, ?_, ?_, ?_⟩
    · rw [List.head?_reverse]
      exact hlast
    · rw [List.getLast?_reverse]
      exact hhead
    · rw [List.chain'_reverse]
      refine hchain.imp ?_
      intro a b hab
      obtain ⟨_, _, hadj, _⟩ := hok.1 a b hab
      obtain ⟨dir, hdir, hd⟩ := hadj
      exact ⟨dir, hdir, hd⟩
    · intro y hy
      rw [List.mem_reverse] at hy
      exact (hmem y hy).1
    · intro y hy
      rw [List.mem_reverse] at hy
      by_cases hys : y = s
      · exact Or.inl hys
      · right
        have hyf := (hmem y hy).2
        have hne := hok.2 y hyf hys
        cases hp : prev y with
        | none => exact absurd hp hne
        | some p => exact (hok.1 y p hp).2.2.2
  · intro x hxg hxf
    obtain ⟨hlast, hhead, hlen, _, _⟩ :=
      walkToStart_spec m s dist prev hok (distCard m dist x) x (walkFuel m)
        (le_refl _) hxg hxf (hfuel x)
    have hnn : (walkToStart prev s (walkFuel m) x) ≠ [] := by
      intro hc
      rw [hc] at hhead
      cases hhead
    refine ⟨?_, ?_, ?_⟩
    · intro hc
      rw [List.reverse_eq_nil_iff] at hc
      exact hnn hc
    · rw [List.head?_reverse]
      exact hlast
    · rw [List.length_reverse]
      have := distCard_le m dist x
      omega

/-- A* relaxation preserves the invariant. -/
theorem aStarRelaxDir_inv (m : GridModel) (s e : Cell) (x : Cell)
    (gCur : Int) (st : AStarState) (dir : Int × Int) (hdir : dir ∈ DIRS)
    (h : AStarInv m s st) (hxd : st.g x ≤ gCur) (hdINF : gCur < INF)
    (hxg : inGrid m x) :
    AStarInv m s (aStarRelaxDir m e x gCur st dir) ∧
      (aStarRelaxDir m e x gCur st dir).g x = st.g x := by
  obtain ⟨⟨hprev, hterm⟩, hpq, hbounds, hpop, hs0, hsp⟩ := h
  rcases aStarRelaxDir_cases m e x gCur st dir with heq | ⟨hgy, hwy, hlt, heq⟩
  · rw [heq]
    exact ⟨⟨⟨hprev, hterm⟩, hpq, hbounds, hpop, hs0, hsp⟩, rfl⟩
  · rw [heq]
    set y := nbr x dir with hy
    have hyx : y ≠ x := nbr_ne x dir hdir
    have hys : y ≠ s := by
      intro hc
      rw [hc] at hlt
      rw [hs0] at hlt
      have := (hbounds x).1
      omega
    have hdist_le : ∀ z, Function.update st.g y (gCur + 1) z ≤ st.g z := by
      intro z
      by_cases hz : z = y
      · rw [hz, Function.update_same]; omega
      · rw [Function.update_noteq hz]
    constructor
    · refine ⟨⟨?_, ?_⟩, ?_, ?_, ?_, ?_, ?_⟩
      · intro z p hzp
        dsimp only at hzp ⊢
        by_cases hz : z = y
        · rw [hz, Function.update_same] at hzp
          cases hzp
          rw [hz, Function.update_same, Function.update_noteq (Ne.symm hyx)]
          exact ⟨by omega, hxg, ⟨dir, hdir, hy⟩, hwy⟩
        · rw [Function.update_noteq hz] at hzp
          obtain ⟨hd1, hd2, hd3, hd4⟩ := hprev z p hzp
          rw [Function.update_noteq hz]
          refine ⟨?_, hd2, hd3, hd4⟩
          calc Function.update st.g y (gCur + 1) p ≤ st.g p := hdist_le p
            _ < st.g z := hd1
      · intro z hzf hzs
        dsimp only at hzf ⊢
        by_cases hz : z = y
        · rw [hz, Function.update_same]
          exact Option.some_ne_none _
        · rw [Function.update_noteq hz] at hzf ⊢
          exact hterm z hzf hzs
      · intro e' he'
        dsimp only at he' ⊢
        rw [List.mem_append] at he'
        rcases he' with he' | he'
        · obtain ⟨he1, he2, he3⟩ := hpq e' he'
          exact ⟨le_trans (hdist_le _) he1, he2, he3⟩
        · rw [List.mem_singleton] at he'
          subst he'
          dsimp only
          have hyy : (⟨y.r, y.c⟩ : Cell) = y := rfl
          rw [hyy, Function.update_same]
          exact ⟨le_refl _, hgy, by have := (hbounds y).2; omega⟩
      · intro z
        dsimp only
        by_cases hz : z = y
        · rw [hz, Function.update_same]
          have := (hbounds x).1
          have := (hbounds y).2
          omega
        · rw [Function.update_noteq hz]
          exact hbounds z
      · intro z hz
        dsimp only at hz ⊢
        obtain ⟨hz1, hz2⟩ := hpop z hz
        exact ⟨hz1, lt_of_le_of_lt (hdist_le z) hz2⟩
      · dsimp only
        rw [Function.update_noteq (Ne.symm hys)]
        exact hs0
      · dsimp only
        rw [Function.update_noteq (Ne.symm hys)]
        exact hsp
    · dsimp only
      rw [Function.update_noteq (Ne.symm hyx)]

/-- The A* loop preserves `AStarInv`. -/
theorem aStarLoop_inv (m : GridModel) (s e : Cell) :
    ∀ fuel st, AStarInv m s st → AStarInv m s (aStarLoop m e fuel st) := by
  intro fuel
  induction fuel with
  | zero => intro st h; exact h
  | succ fuel ih =>
    intro st h
    cases hsort : sortStable aStarLe st.pq with
    | nil => rw [aStarLoop, hsort]; exact h
    | cons top rest =>
      rw [aStarLoop, hsort]
      dsimp only
      have htop : top ∈ st.pq := by
        rw [← mem_sortStable aStarLe top st.pq, hsort]
        exact List.mem_cons_self _ _
      obtain ⟨htop1, htop2, htop3⟩ := h.2.1 top htop
      have h1 : AStarInv m s
          { st with pq := rest, popped := st.popped ++ [⟨top.r, top.c⟩] } := by
        obtain ⟨hprevok, hpq, hbounds, hpop, hs0, hsp⟩ := h
        refine ⟨hprevok, ?_, hbounds, ?_, hs0, hsp⟩
        · intro e' he'
          refine hpq e' ?_
          rw [← mem_sortStable aStarLe e' st.pq, hsort]
          exact List.mem_cons_of_mem _ he'
        · intro y hy
          dsimp only at hy
          rw [List.mem_append] at hy
          rcases hy with hy | hy
          · exact hpop y hy
          · rw [List.mem_singleton] at hy
            subst hy
            exact ⟨htop2, lt_of_le_of_lt htop1 htop3⟩
      by_cases hend : top.r = e.r ∧ top.c = e.c
      · rw [if_pos hend]; exact h1
      · rw [if_neg hend]
        apply ih
        unfold aStarStep
        have hQ :=
          foldlPres (P := fun (st' : AStarState) =>
            AStarInv m s st' ∧ st'.g ⟨top.r, top.c⟩ ≤ top.g) DIRS
            { st with pq := rest, popped := st.popped ++ [⟨top.r, top.c⟩] }
            (fun st2 dir hdir h2 => by
              obtain ⟨h3, h3d⟩ := aStarRelaxDir_inv m s e ⟨top.r, top.c⟩ top.g
                st2 dir hdir h2.1 h2.2 htop3 htop2
              exact ⟨h3, by rw [h3d]; exact h2.2⟩)
            ⟨h1, htop1⟩
        exact hQ.1

/-- The invariant holds of the initial A* state and hence of the final
one. -/
theorem aStarFinal_inv (m : GridModel) (s e : Cell) (hs : inGrid m s) :
    AStarInv m s (aStarFinal m s e) := by
  unfold aStarFinal
  apply aStarLoop_inv
  unfold aStarInit AStarInv PrevOK
  refine ⟨⟨?_, ?_⟩, ?_, ?_, ?_, ?_, ?_⟩
  · intro x p hxp
    cases hxp
  · intro x hx hxs
    dsimp only at hx
    rw [Function.update_noteq hxs] at hx
    unfold INF at hx
    omega
  · intro e' he'
    dsimp only at he'
    rw [List.mem_singleton] at he'
    subst he'
    dsimp only
    have hss : (⟨s.r, s.c⟩ : Cell) = s := rfl
    rw [hss, Function.update_same]
    refine ⟨le_refl _, hs, by unfold INF; omega⟩
  · intro x
    dsimp only
    by_cases hx : x = s
    · rw [hx, Function.update_same]
      constructor <;> [omega; (unfold INF; omega)]
    · rw [Function.update_noteq hx]
      constructor <;> [(unfold INF; omega); omega]
  · intro y hy
    cases hy
  · show Function.update (fun _ => INF) s 0 s = (0 : Int)
    rw [Function.update_same]
  · rfl

theorem mem_rowMajor (m : GridModel) (x : Cell) (hx : x ∈ rowMajor m) :
    inGrid m x := by
  unfold rowMajor at hx
  rw [List.mem_flatMap] at hx
  obtain ⟨r, hr, hx⟩ := hx
  rw [List.mem_map] at hx
  obtain ⟨c, hc, hx⟩ := hx
  rw [List.mem_range] at hr hc
  subst hx
  unfold inGrid
  dsimp only
  simp only [Int.ofNat_eq_coe]
  omega

/-- A Bellman-Ford relaxation from a cell at its current distance
preserves the invariant and the source distance. -/
theorem bfRelaxDir_inv (m : GridModel) (s : Cell) (x : Cell) (dHere : Int)
    (st : BFState) (dir : Int × Int) (hdir : dir ∈ DIRS)
    (h : BFInv m s st) (hxd : st.dist x = dHere)
    (hxg : inGrid m x) :
    BFInv m s (bfRelaxDir m x dHere st dir) ∧
      (bfRelaxDir m x dHere st dir).dist x = st.dist x := by
  obtain ⟨⟨hprev, hterm⟩, hbounds, hvis, hs0, hsp⟩ := h
  rcases bfRelaxDir_cases m x dHere st dir with heq |
    ⟨hgy, hwy, hlt, st', ⟨hdist, hprev', hcases⟩, heq⟩
  · rw [heq]
    exact ⟨⟨⟨hprev, hterm⟩, hbounds, hvis, hs0, hsp⟩, rfl⟩
  · rw [heq, hdist, hprev']
    set y := nbr x dir with hy
    have hyx : y ≠ x := nbr_ne x dir hdir
    have h0x : 0 ≤ dHere := by rw [← hxd]; exact (hbounds x).1
    have hyINF : dHere + 1 < INF := lt_of_lt_of_le hlt (hbounds y).2
    have hys : y ≠ s := by
      intro hc
      rw [hc, hs0] at hlt
      omega
    have hdist_le : ∀ z, Function.update st.dist y (dHere + 1) z ≤ st.dist z := by
      intro z
      by_cases hz : z = y
      · rw [hz, Function.update_same]; omega
      · rw [Function.update_noteq hz]
    constructor
    · refine ⟨⟨?_, ?_⟩, ?_, ?_, ?_, ?_⟩
      · intro z p hzp
        dsimp only at hzp ⊢
        by_cases hz : z = y
        · rw [hz, Function.update_same] at hzp
          cases hzp
          rw [hz, Function.update_same,
            Function.update_noteq (Ne.symm hyx), hxd]
          exact ⟨by omega, hxg, ⟨dir, hdir, hy⟩, hwy⟩
        · rw [Function.update_noteq hz] at hzp
          obtain ⟨hd1, hd2, hd3, hd4⟩ := hprev z p hzp
          rw [Function.update_noteq hz]
          refine ⟨?_, hd2, hd3, hd4⟩
          calc Function.update st.dist y (dHere + 1) p ≤ st.dist p :=
              hdist_le p
            _ < st.dist z := hd1
      · intro z hzf hzs
        dsimp only at hzf ⊢
        by_cases hz : z = y
        · rw [hz, Function.update_same]
          exact Option.some_ne_none _
        · rw [Function.update_noteq hz] at hzf
          rw [Function.update_noteq hz]
          exact hterm z hzf hzs
      · intro z
        dsimp only
        by_cases hz : z = y
        · rw [hz, Function.update_same]
          omega
        · rw [Function.update_noteq hz]
          exact hbounds z
      · intro z hz
        dsimp only at hz ⊢
        rcases hcases with hc | ⟨hseen, hc⟩
        · rw [hc] at hz
          obtain ⟨hz1, hz2⟩ := hvis z hz
          exact ⟨hz1, lt_of_le_of_lt (hdist_le z) hz2⟩
        · rw [hc] at hz
          dsimp only at hz
          rw [List.mem_append] at hz
          rcases hz with hz | hz
          · obtain ⟨hz1, hz2⟩ := hvis z hz
            exact ⟨hz1, lt_of_le_of_lt (hdist_le z) hz2⟩
          · rw [List.mem_singleton] at hz
            subst hz
            rw [Function.update_same]
            exact ⟨hgy, hyINF⟩
      · dsimp only
        rw [Function.update_noteq (Ne.symm hys)]
        exact hs0
      · dsimp only
        rw [Function.update_noteq (Ne.symm hys)]
        exact hsp
    · dsimp only
      rw [Function.update_noteq (Ne.symm hyx)]

/-- Processing one in-grid cell of a sweep preserves the Bellman-Ford
invariant. -/
theorem bfCellStep_inv (m : GridModel) (s : Cell) (st : BFState) (x : Cell)
    (hxg : inGrid m x) (h : BFInv m s st) :
    BFInv m s (bfCellStep m st x) := by
  unfold bfCellStep
  by_cases hINF : st.dist x = INF
  · rw [if_pos hINF]; exact h
  · rw [if_neg hINF]
    refine (foldlPres
      (P := fun (st' : BFState) => BFInv m s st' ∧ st'.dist x = st.dist x)
      DIRS st ?_ ⟨h, rfl⟩).1
    intro st' dir hdir h'
    have hres := bfRelaxDir_inv m s x (st.dist x) st' dir hdir h'.1 h'.2 hxg
    exact ⟨hres.1, hres.2.trans h'.2⟩

/-- A full Bellman-Ford sweep preserves the invariant. -/
theorem bfSweep_inv (m : GridModel) (s : Cell) (st : BFState)
    (h : BFInv m s st) : BFInv m s (bfSweep m st) := by
  unfold bfSweep
  refine foldlPres (rowMajor m) _ ?_ h
  intro st' x hx h'
  exact bfCellStep_inv m s st' x (mem_rowMajor m x hx) h'

/-- The invariant holds in the initial Bellman-Ford state. -/
theorem bfInit_inv (m : GridModel) (s : Cell) : BFInv m s (bfInit s) := by
  unfold BFInv bfInit PrevOK
  dsimp only
  refine ⟨⟨?_, ?_⟩, ?_, ?_, ?_, ?_⟩
  · intro x p hxp; cases hxp
  · intro x hx hxs
    rw [Function.update_noteq hxs] at hx
    omega
  · intro x
    by_cases hx : x = s
    · rw [hx, Function.update_same]; unfold INF; omega
    · rw [Function.update_noteq hx]; unfold INF; omega
  · intro y hy; cases hy
  · rw [Function.update_same]
  · rfl

/-- The invariant holds in the final Bellman-Ford state. -/
theorem bfFinal_inv (m : GridModel) (s : Cell) :
    BFInv m s (bfFinal m s) := by
  unfold bfFinal
  exact bfRounds_invariant m (BFInv m s)
    (fun st h => bfSweep_inv m s st h) _ _ (bfInit_inv m s)

/-! ### C6/C9: well-formedness of returned paths and branches -/

/-- The Dijkstra output is well-formed. -/
theorem dij_output_wf (m : GridModel) (s e : Cell)
    (hms : m.start = some s) (hme : m.endp = some e)
    (hs : inGrid m s) (he : inGrid m e) :
    ((dijShortestPath m).path ≠ [] → PathWF m s e (dijShortestPath m).path) ∧
    (∀ b ∈ (dijShortestPath m).branches, BranchWF m s b) := by
  obtain ⟨hok, hpq, hbounds, hpop, hs0, hsp⟩ := dijFinal_inv m s e hs
  unfold dijShortestPath
  rw [hms, hme]
  dsimp only
  by_cases hINF : (dijFinal m s e).dist e = INF
  · rw [if_pos hINF]
    exact ⟨fun hne => absurd rfl hne, fun b hb => absurd hb (by simp)⟩
  · rw [if_neg hINF]
    have hef : (dijFinal m s e).dist e < INF :=
      lt_of_le_of_ne (hbounds e).2 hINF
    have hout := prevOK_output m s e _ _ hok he hef
    dsimp only
    refine ⟨fun _ => hout.1, ?_⟩
    intro b hb
    rw [List.mem_map] at hb
    obtain ⟨x, hx, hb⟩ := hb
    rw [List.mem_filter] at hx
    obtain ⟨hx1, hx2⟩ := hpop x hx.1
    obtain ⟨hb1, hb2, hb3⟩ := hout.2 x hx1 hx2
    subst hb
    exact ⟨hb1, hb2, by omega⟩

/-- The A* output is well-formed. -/
theorem aStar_output_wf (m : GridModel) (s e : Cell)
    (hms : m.start = some s) (hme : m.endp = some e)
    (hs : inGrid m s) (he : inGrid m e) :
    ((aStarShortestPath m).path ≠ [] →
      PathWF m s e (aStarShortestPath m).path) ∧
    (∀ b ∈ (aStarShortestPath m).branches, BranchWF m s b) := by
  obtain ⟨hok, hpq, hbounds, hpop, hs0, hsp⟩ := aStarFinal_inv m s e hs
  unfold aStarShortestPath
  rw [hms, hme]
  dsimp only
  by_cases hINF : (aStarFinal m s e).g e = INF
  · rw [if_pos hINF]
    exact ⟨fun hne => absurd rfl hne, fun b hb => absurd hb (by simp)⟩
  · rw [if_neg hINF]
    have hef : (aStarFinal m s e).g e < INF :=
      lt_of_le_of_ne (hbounds e).2 hINF
    have hout := prevOK_output m s e _ _ hok he hef
    dsimp only
    refine ⟨fun _ => hout.1, ?_⟩
    intro b hb
    rw [List.mem_map] at hb
    obtain ⟨x, hx, hb⟩ := hb
    rw [List.mem_filter] at hx
    obtain ⟨hx1, hx2⟩ := hpop x hx.1
    obtain ⟨hb1, hb2, hb3⟩ := hout.2 x hx1 hx2
    subst hb
    exact ⟨hb1, hb2, by omega⟩

/-- The Bellman-Ford output is well-formed. -/
theorem bf_output_wf (m : GridModel) (s e : Cell)
    (hms : m.start = some s) (hme : m.endp = some e) (he : inGrid m e) :
    ((bellmanFordShortestPath m).path ≠ [] →
      PathWF m s e (bellmanFordShortestPath m).path) ∧
    (∀ b ∈ (bellmanFordShortestPath m).branches, BranchWF m s b) := by
  obtain ⟨hok, hbounds, hvis, hs0, hsp⟩ := bfFinal_inv m s
  unfold bellmanFordShortestPath
  rw [hms, hme]
  dsimp only
  by_cases hINF : (bfFinal m s).dist e = INF
  · rw [if_pos hINF]
    exact ⟨fun hne => absurd rfl hne, fun b hb => absurd hb (by simp)⟩
  · rw [if_neg hINF]
    have hef : (bfFinal m s).dist e < INF :=
      lt_of_le_of_ne (hbounds e).2 hINF
    have hout := prevOK_output m s e _ _ hok he hef
    dsimp only
    refine ⟨fun _ => hout.1, ?_⟩
    intro b hb
    rw [List.mem_map] at hb
    obtain ⟨x, hx, hb⟩ := hb
    rw [List.mem_filter] at hx
    obtain ⟨hx1, hx2⟩ := hvis x hx.1
    obtain ⟨hb1, hb2, hb3⟩ := hout.2 x hx1 hx2
    subst hb
    exact ⟨hb1, hb2, by omega⟩

/-! ### Floyd-Warshall: index arithmetic for the walk lemmas -/

/-- In-bounds cells have linear index below `V`. -/
theorem fwIdx_lt (m : GridModel) {r c : Nat} (hr : r < m.rows)
    (hc : c < m.cols) : fwIdx m r c < fwV m := by
  unfold fwIdx fwV
  calc r * m.cols + c < r * m.cols + m.cols := by omega
    _ = (r + 1) * m.cols := by ring
    _ ≤ m.rows * m.cols := Nat.mul_le_mul_right _ (by omega)

/-- Indices below `V` decode to in-bounds cells. -/
theorem fwRC_inGrid (m : GridModel) {v : Nat} (hv : v < fwV m) :
    inGrid m (fwRC m v) := by
  unfold fwV at hv
  have hcols : 0 < m.cols := by
    rcases Nat.eq_zero_or_pos m.cols with h | h
    · rw [h, Nat.mul_zero] at hv; omega
    · exact h
  have h1 : v / m.cols < m.rows :=
    Nat.div_lt_of_lt_mul (by rw [Nat.mul_comm] at hv; exact hv)
  have h2 : v % m.cols < m.cols := Nat.mod_lt _ hcols
  unfold inGrid fwRC
  dsimp only
  exact ⟨Int.natCast_nonneg _, by exact_mod_cast h1, Int.natCast_nonneg _,
    by exact_mod_cast h2⟩

/-- `idx` inverts `rc` below `V`. -/
theorem fwIdx_fwRC (m : GridModel) (v : Nat) :
    fwIdx m (v / m.cols) (v % m.cols) = v := by
  unfold fwIdx
  rw [Nat.mul_comm]
  exact Nat.div_add_mod v m.cols

/-- `rc` of the linear index of an in-bounds cell is the cell itself. -/
theorem fwRC_start (m : GridModel) (s : Cell) (hs : inGrid m s) :
    fwRC m (fwIdx m s.r.toNat s.c.toNat) = s := by
  obtain ⟨h1, h2, h3, h4⟩ := hs
  have hc : s.c.toNat < m.cols := by omega
  rw [fwRC_fwIdx m hc]
  rw [Cell.mk.injEq]
  omega

/-- The linear index of an in-bounds cell is below `V`. -/
theorem fwIdx_start_lt (m : GridModel) (s : Cell) (hs : inGrid m s) :
    fwIdx m s.r.toNat s.c.toNat < fwV m := by
  obtain ⟨h1, h2, h3, h4⟩ := hs
  exact fwIdx_lt m (by omega) (by omega)

/-- Adjacent indices are distinct. -/
theorem fwAdj_ne (m : GridModel) {i u : Nat} (h : fwAdj m i u) : u ≠ i := by
  obtain ⟨dir, hdir, hu⟩ := h
  intro hc
  subst hc
  exact nbr_ne _ dir hdir hu.symm

/-- All initial distances are at most `INF`. -/
theorem fwInit_ub (m : GridModel) : ∀ q, (fwInit m).dist q ≤ INF := by
  have h : ∀ (l : List (Nat × Nat)) (st : FWState),
      (∀ q, st.dist q ≤ INF) →
      ∀ q, (l.foldl (fwInitCell m) st).dist q ≤ INF := by
    intro l st hst
    refine foldlPres (P := fun (st : FWState) => ∀ q, st.dist q ≤ INF) _ _ ?_ hst
    intro st1 p _ h1
    unfold fwInitCell
    dsimp only
    refine foldlPres (P := fun (st : FWState) => ∀ q, st.dist q ≤ INF) _ _ ?_ ?_
    · intro st2 dir _ h2 q
      rcases fwInitDir_cases m p (fwIdx m p.1 p.2) st2 dir with heq |
        ⟨_, _, _, _, _, heq⟩
      · rw [heq]; exact h2 q
      · rw [heq]
        dsimp only
        by_cases hq : q = (fwIdx m p.1 p.2,
            fwIdx m (((p.1 : Int) + dir.1).toNat) (((p.2 : Int) + dir.2).toNat))
        · rw [hq, Function.update_same]; unfold INF; omega
        · rw [Function.update_noteq hq]; exact h2 q
    · intro q
      dsimp only
      by_cases hq : q = (fwIdx m p.1 p.2, fwIdx m p.1 p.2)
      · rw [hq, Function.update_same]; unfold INF; omega
      · rw [Function.update_noteq hq]; exact h1 q
  exact h (fwCells m) _ (fun _ => le_refl INF)

/-- Initialisation logs nothing in `improved`. -/
theorem fwInit_improved (m : GridModel) : (fwInit m).improved = [] := by
  have h : ∀ (l : List (Nat × Nat)) (st : FWState), st.improved = [] →
      (l.foldl (fwInitCell m) st).improved = [] := by
    intro l st hst
    refine foldlPres (P := fun (st : FWState) => st.improved = []) _ _ ?_ hst
    intro st1 p _ h1
    unfold fwInitCell
    dsimp only
    refine foldlPres (P := fun (st : FWState) => st.improved = []) _ _ ?_ h1
    intro st2 dir _ h2
    rcases fwInitDir_cases m p (fwIdx m p.1 p.2) st2 dir with heq |
      ⟨_, _, _, _, _, heq⟩
    · rw [heq]; exact h2
    · rw [heq]; exact h2
  exact h (fwCells m) _ rfl

/-- The whole diagonal below `V` is `0` after initialisation. -/
theorem fwInit_diag (m : GridModel) : ∀ v, v < fwV m →
    (fwInit m).dist (v, v) = 0 := by
  intro v hv
  have h := fwInit_diag_start m (fwRC m v) (fwRC_inGrid m hv)
  have he : fwIdx m (fwRC m v).r.toNat (fwRC m v).c.toNat = v := by
    unfold fwRC
    dsimp only
    rw [Int.toNat_natCast, Int.toNat_natCast]
    exact fwIdx_fwRC m v
  rw [he] at h
  exact h

/-- Every finite off-diagonal initial entry is a unit edge to an adjacent
in-bounds non-wall cell, with the matching next hop. -/
theorem fwInit_offdiag (m : GridModel) : ∀ i j, i ≠ j →
    (fwInit m).dist (i, j) < INF →
    (fwInit m).dist (i, j) = 1 ∧ (fwInit m).next (i, j) = some j ∧
      i < fwV m ∧ j < fwV m ∧ fwAdj m i j ∧ fwNonwall m j := by
  have h : ∀ (l : List (Nat × Nat)) (st : FWState), (∀ p ∈ l, p ∈ fwCells m) →
      (∀ i j, i ≠ j → st.dist (i, j) < INF →
        st.dist (i, j) = 1 ∧ st.next (i, j) = some j ∧
          i < fwV m ∧ j < fwV m ∧ fwAdj m i j ∧ fwNonwall m j) →
      ∀ i j, i ≠ j → (l.foldl (fwInitCell m) st).dist (i, j) < INF →
        (l.foldl (fwInitCell m) st).dist (i, j) = 1 ∧
          (l.foldl (fwInitCell m) st).next (i, j) = some j ∧
          i < fwV m ∧ j < fwV m ∧ fwAdj m i j ∧ fwNonwall m j := by
    intro l st hl hst
    refine foldlPres (P := fun (st : FWState) => ∀ i j, i ≠ j →
      st.dist (i, j) < INF →
      st.dist (i, j) = 1 ∧ st.next (i, j) = some j ∧
        i < fwV m ∧ j < fwV m ∧ fwAdj m i j ∧ fwNonwall m j) _ _ ?_ hst
    intro st1 p hp h1
    have hpb := (mem_fwCells m p).mp (hl p hp)
    unfold fwInitCell
    dsimp only
    have hbase : ∀ i j, i ≠ j →
        (Function.update st1.dist (fwIdx m p.1 p.2, fwIdx m p.1 p.2) 0)
          (i, j) < INF →
        (Function.update st1.dist (fwIdx m p.1 p.2, fwIdx m p.1 p.2) 0)
            (i, j) = 1 ∧
          (Function.update st1.next (fwIdx m p.1 p.2, fwIdx m p.1 p.2)
            (some (fwIdx m p.1 p.2))) (i, j) = some j ∧
          i < fwV m ∧ j < fwV m ∧ fwAdj m i j ∧ fwNonwall m j := by
      intro i j hij hfin
      have hne : ((i, j) : Nat × Nat) ≠ (fwIdx m p.1 p.2, fwIdx m p.1 p.2) := by
        intro hc
        rw [Prod.mk.injEq] at hc
        exact hij (hc.1.trans hc.2.symm)
      rw [Function.update_noteq hne] at hfin ⊢
      rw [Function.update_noteq hne]
      exact h1 i j hij hfin
    refine foldlPres (P := fun (st' : FWState) => ∀ i j, i ≠ j →
      st'.dist (i, j) < INF →
      st'.dist (i, j) = 1 ∧ st'.next (i, j) = some j ∧
        i < fwV m ∧ j < fwV m ∧ fwAdj m i j ∧ fwNonwall m j) _ _ ?_ hbase
    intro st2 dir hdir h2
    rcases fwInitDir_cases m p (fwIdx m p.1 p.2) st2 dir with heq |
      ⟨hb1, hb2, hb3, hb4, hw, heq⟩
    · rw [heq]; exact h2
    · rw [heq]
      dsimp only
      intro i j hij hfin
      set u := fwIdx m (((p.1 : Int) + dir.1).toNat) (((p.2 : Int) + dir.2).toNat)
        with hu
      by_cases hq : ((i, j) : Nat × Nat) = (fwIdx m p.1 p.2, u)
      · rw [hq, Function.update_same]
        rw [Prod.mk.injEq] at hq
        have hrcu : fwRC m u = ⟨(p.1 : Int) + dir.1, (p.2 : Int) + dir.2⟩ := by
          rw [hu, fwRC_fwIdx m (by omega)]
          rw [Cell.mk.injEq]
          omega
        refine ⟨rfl, ?_, ?_, ?_, ?_, ?_⟩
        · rw [Function.update_same, hq.2]
        · rw [hq.1]; exact fwIdx_lt m hpb.1 hpb.2
        · rw [hq.2, hu]; exact fwIdx_lt m (by omega) (by omega)
        · rw [hq.1, hq.2]
          unfold fwAdj
          rw [fwRC_fwIdx m hpb.2, hrcu]
          exact ⟨dir, hdir, rfl⟩
        · rw [hq.2]
          unfold fwNonwall
          rw [hrcu]
          exact hw
      · rw [Function.update_noteq hq] at hfin ⊢
        rw [Function.update_noteq hq]
        exact h2 i j hij hfin
  intro i j hij hfin
  refine h (fwCells m) _ (fun p hp => hp) ?_ i j hij hfin
  intro i' j' _ hfin'
  exfalso
  revert hfin'
  show ¬ (INF < INF)
  omega

/-- The phase-boundary invariant holds after initialisation. -/
theorem fwInit_P (m : GridModel) (sv : Nat) : FWP m sv (fwInit m) := by
  refine ⟨⟨fwInit_nonneg m, fwInit_ub m, fwInit_diag m, ?_, ?_⟩, ?_⟩
  · intro i j hij hfin
    obtain ⟨_, _, h3, h4, _, h6⟩ := fwInit_offdiag m i j hij hfin
    exact ⟨h3, h4, h6⟩
  · intro j hj
    rw [fwInit_improved m] at hj
    cases hj
  · intro i j hij hfin
    obtain ⟨h1, h2, h3, h4, h5, h6⟩ := fwInit_offdiag m i j hij hfin
    refine ⟨j, ⟨h2, h4, h5, h6⟩, ?_⟩
    rw [fwInit_diag m j h4, h1]
    omega

/-- One innermost relaxation step preserves the inner invariant, moving
the visited destination out of the pending list. -/
theorem fwUpd_inner (m : GridModel) (sv k i0 : Nat) (dik : Int)
    (lrest l' : List Nat) (j0 : Nat) (st : FWState)
    (hk : k < fwV m) (hi0 : i0 < fwV m) (hik : i0 ≠ k)
    (hdik0 : 0 ≤ dik) (hdik : dik < INF) (hj0 : j0 < fwV m)
    (h : FWInner m sv k i0 dik lrest (j0 :: l') st) :
    FWInner m sv k i0 dik lrest l' (fwUpd sv k i0 dik st j0) := by
  obtain ⟨⟨hB1, hB2, hB3, hB4, hB5⟩, hK, hA3, hA4, hHop⟩ := h
  by_cases hlt : dik + st.dist (k, j0) < st.dist (i0, j0)
  case neg =>
    -- the relaxation does not fire: `dist (i0, j0) ≤ dik + dist (k, j0)`
    have heq : fwUpd sv k i0 dik st j0 = st := by
      unfold fwUpd
      dsimp only
      rw [if_neg hlt]
    rw [heq]
    have hle : st.dist (i0, j0) ≤ dik + st.dist (k, j0) := by omega
    refine ⟨⟨hB1, hB2, hB3, hB4, hB5⟩, hK, ?_, hA4, ?_⟩
    · intro j hj
      by_cases hjj : j = j0
      · rw [hjj]; exact hle
      · refine hA3 j ?_
        intro hc
        rw [List.mem_cons] at hc
        rcases hc with hc | hc
        · exact hjj hc
        · exact hj hc
    · intro i j hij hfin
      obtain ⟨u, hu, hcase⟩ := hHop i j hij hfin
      refine ⟨u, hu, ?_⟩
      rcases hcase with hstrong | ⟨huk, h1, h2, hmem⟩
      · exact Or.inl hstrong
      · rcases hmem with hmem | ⟨hui0, hjl⟩
        · exact Or.inr ⟨huk, h1, h2, Or.inl hmem⟩
        · rw [List.mem_cons] at hjl
          rcases hjl with hjl | hjl
          · -- `j = j0`, hop `i0`: the skipped relaxation already implies Strong
            refine Or.inl ?_
            rw [hui0] at h1
            rw [hK] at h1
            rw [hjl] at h2 ⊢
            rw [hui0]
            omega
          · exact Or.inr ⟨huk, h1, h2, Or.inr ⟨hui0, hjl⟩⟩
  case pos =>
    -- the relaxation fires
    have heq : fwUpd sv k i0 dik st j0 =
        { dist := Function.update st.dist (i0, j0) (dik + st.dist (k, j0))
          next := Function.update st.next (i0, j0) (st.next (i0, k))
          improved :=
            if i0 = sv then st.improved ++ [j0] else st.improved } := by
      unfold fwUpd
      dsimp only
      rw [if_pos hlt]
    have hne_ij : i0 ≠ j0 := by
      intro hc
      rw [← hc] at hlt
      rw [hB3 i0 hi0] at hlt
      have := hB1 (k, i0)
      omega
    have hkj0 : k ≠ j0 := by
      intro hc
      rw [← hc] at hlt
      rw [hB3 k hk] at hlt
      rw [hK] at hlt
      omega
    have hfinkj : st.dist (k, j0) < INF := by
      have := hB2 (i0, j0)
      omega
    have halt0 : 0 ≤ dik + st.dist (k, j0) := by
      have := hB1 (k, j0)
      omega
    have haltINF : dik + st.dist (k, j0) < INF := by
      have := hB2 (i0, j0)
      omega
    rw [heq]
    have hmono : ∀ q, (Function.update st.dist (i0, j0)
        (dik + st.dist (k, j0))) q ≤ st.dist q := by
      intro q
      by_cases hq : q = (i0, j0)
      · rw [hq, Function.update_same]
        omega
      · rw [Function.update_noteq hq]
    have hoff : ∀ q : Nat × Nat, q ≠ (i0, j0) →
        (Function.update st.dist (i0, j0) (dik + st.dist (k, j0))) q
          = st.dist q := by
      intro q hq
      rw [Function.update_noteq hq]
    refine ⟨⟨?_, ?_, ?_, ?_, ?_⟩, ?_, ?_, ?_, ?_⟩
    · intro q
      by_cases hq : q = (i0, j0)
      · rw [hq]
        show 0 ≤ Function.update st.dist (i0, j0) (dik + st.dist (k, j0)) _
        rw [Function.update_same]
        exact halt0
      · show 0 ≤ Function.update st.dist (i0, j0) (dik + st.dist (k, j0)) q
        rw [hoff q hq]
        exact hB1 q
    · intro q
      have := hmono q
      have := hB2 q
      show Function.update st.dist (i0, j0) (dik + st.dist (k, j0)) q ≤ INF
      omega
    · intro v hv
      show Function.update st.dist (i0, j0) (dik + st.dist (k, j0)) (v, v) = 0
      rw [hoff _ (by intro hc; rw [Prod.mk.injEq] at hc; exact hne_ij (hc.1.symm.trans hc.2))]
      exact hB3 v hv
    · intro i j hij hfin
      dsimp only at hfin
      by_cases hq : ((i, j) : Nat × Nat) = (i0, j0)
      · rw [Prod.mk.injEq] at hq
        obtain ⟨_, _, hw⟩ := hB4 k j0 hkj0 hfinkj
        rw [hq.1, hq.2]
        exact ⟨hi0, hj0, hw⟩
      · rw [hoff _ hq] at hfin
        exact hB4 i j hij hfin
    · intro j hj
      dsimp only at hj
      by_cases hsv : i0 = sv
      · rw [if_pos hsv] at hj
        rw [List.mem_append] at hj
        rcases hj with hj | hj
        · obtain ⟨h1, h2, h3⟩ := hB5 j hj
          refine ⟨h1, h2, ?_⟩
          show Function.update st.dist (i0, j0) (dik + st.dist (k, j0)) (sv, j) < INF
          have := hmono (sv, j)
          omega
        · rw [List.mem_singleton] at hj
          rw [hj]
          refine ⟨hj0, by rw [← hsv]; exact fun hc => hne_ij hc.symm, ?_⟩
          show Function.update st.dist (i0, j0) (dik + st.dist (k, j0)) (sv, j0) < INF
          rw [← hsv, Function.update_same]
          exact haltINF
      · rw [if_neg hsv] at hj
        obtain ⟨h1, h2, h3⟩ := hB5 j hj
        refine ⟨h1, h2, ?_⟩
        show Function.update st.dist (i0, j0) (dik + st.dist (k, j0)) (sv, j) < INF
        rw [hoff _ (by intro hc; rw [Prod.mk.injEq] at hc; exact hsv hc.1.symm)]
        exact h3
    · show Function.update st.dist (i0, j0) (dik + st.dist (k, j0)) (i0, k) = dik
      rw [hoff _ (by intro hc; rw [Prod.mk.injEq] at hc; exact hkj0 hc.2)]
      exact hK
    · intro j hj
      have hki0 : ∀ j', ((k, j') : Nat × Nat) ≠ (i0, j0) := by
        intro j' hc
        rw [Prod.mk.injEq] at hc
        exact hik hc.1.symm
      by_cases hjj : j = j0
      · show Function.update st.dist (i0, j0) (dik + st.dist (k, j0)) (i0, j)
          ≤ dik + Function.update st.dist (i0, j0) (dik + st.dist (k, j0)) (k, j)
        rw [hjj, Function.update_same, hoff _ (hki0 j0)]
      · show Function.update st.dist (i0, j0) (dik + st.dist (k, j0)) (i0, j)
          ≤ dik + Function.update st.dist (i0, j0) (dik + st.dist (k, j0)) (k, j)
        rw [hoff _ (by intro hc; rw [Prod.mk.injEq] at hc; exact hjj hc.2),
          hoff _ (hki0 j)]
        refine hA3 j ?_
        intro hc
        rw [List.mem_cons] at hc
        rcases hc with hc | hc
        · exact hjj hc
        · exact hj hc
    · intro i hiV hirest j
      have hii0 : i ≠ i0 := by
        intro hc
        exact hirest (by rw [hc]; exact List.mem_cons_self _ _)
      have e1 : ∀ j', ((i, j') : Nat × Nat) ≠ (i0, j0) := by
        intro j' hc
        rw [Prod.mk.injEq] at hc
        exact hii0 hc.1
      have e2 : ∀ j', ((k, j') : Nat × Nat) ≠ (i0, j0) := by
        intro j' hc
        rw [Prod.mk.injEq] at hc
        exact hik hc.1.symm
      show Function.update st.dist (i0, j0) _ (i, k) < INF →
        Function.update st.dist (i0, j0) _ (k, j) < INF →
        Function.update st.dist (i0, j0) _ (i, j)
          ≤ Function.update st.dist (i0, j0) _ (i, k)
            + Function.update st.dist (i0, j0) _ (k, j)
      rw [hoff _ (e1 k), hoff _ (e2 j), hoff _ (e1 j)]
      exact hA4 i hiV hirest j
    · intro i j hij hfin
      dsimp only at hfin ⊢
      by_cases hq : ((i, j) : Nat × Nat) = (i0, j0)
      · -- the freshly relaxed pair inherits the hop of `(i0, k)`
        rw [Prod.mk.injEq] at hq
        rw [hq.1, hq.2]
        have hfik : st.dist (i0, k) < INF := by rw [hK]; exact hdik
        obtain ⟨u', hu', hcase'⟩ := hHop i0 k hik hfik
        obtain ⟨hnext', huV', hadj', hw'⟩ := hu'
        have hd_uk : st.dist (u', k) + 1 ≤ dik := by
          rcases hcase' with hstrong' | ⟨_, h1', _, _⟩
          · rw [hK] at hstrong'; exact hstrong'
          · rw [hK] at h1'; exact h1'
        have hu'i0 : u' ≠ i0 := fwAdj_ne m hadj'
        refine ⟨u', ⟨?_, huV', hadj', hw'⟩, ?_⟩
        · show Function.update st.next (i0, j0) (st.next (i0, k)) (i0, j0)
            = some u'
          rw [Function.update_same]
          exact hnext'
        · rw [Function.update_same,
            hoff _ (by intro hc; rw [Prod.mk.injEq] at hc; exact hu'i0 hc.1)]
          by_cases huk : u' = k
          · refine Or.inl ?_
            rw [huk]
            rw [huk] at hd_uk
            have h00 := hB3 k hk
            omega
          · by_cases hurest : u' ∈ lrest
            · refine Or.inr ⟨huk, ?_, ?_, Or.inl hurest⟩
              · rw [hoff _ (by intro hc; rw [Prod.mk.injEq] at hc; exact hkj0 hc.2),
                  hoff _ (by intro hc; rw [Prod.mk.injEq] at hc; exact hkj0 hc.2)]
                rw [hK]
                exact hd_uk
              · rw [hoff _ (by intro hc; rw [Prod.mk.injEq] at hc; exact hkj0 hc.2),
                  hoff _ (by intro hc; rw [Prod.mk.injEq] at hc; exact hik hc.1.symm)]
                rw [hK]
            · -- `u'` was already relaxed through `k`: Strong at once
              refine Or.inl ?_
              have hnotmem : u' ∉ (i0 :: lrest) := by
                intro hc
                rw [List.mem_cons] at hc
                rcases hc with hc | hc
                · exact hu'i0 hc
                · exact hurest hc
              have hfu'k : st.dist (u', k) < INF := by omega
              have := hA4 u' huV' hnotmem j0 hfu'k hfinkj
              omega
      · rw [hoff _ hq] at hfin
        obtain ⟨u, ⟨hnext, huV, hadj, hw⟩, hcase⟩ := hHop i j hij hfin
        refine ⟨u, ⟨?_, huV, hadj, hw⟩, ?_⟩
        · show Function.update st.next (i0, j0) (st.next (i0, k)) (i, j)
            = some u
          rw [Function.update_noteq hq]
          exact hnext
        · rw [hoff _ hq]
          rcases hcase with hstrong | ⟨huk, h1, h2, hmem⟩
          · refine Or.inl ?_
            have := hmono (u, j)
            omega
          · have e_uk : ((u, k) : Nat × Nat) ≠ (i0, j0) := by
              intro hc
              rw [Prod.mk.injEq] at hc
              exact hkj0 hc.2
            have e_ik : ((i, k) : Nat × Nat) ≠ (i0, j0) := by
              intro hc
              rw [Prod.mk.injEq] at hc
              exact hkj0 hc.2
            have e_kj : ∀ j', ((k, j') : Nat × Nat) ≠ (i0, j0) := by
              intro j' hc
              rw [Prod.mk.injEq] at hc
              exact hik hc.1.symm
            rcases hmem with hmem | ⟨hui0, hjl⟩
            · exact Or.inr ⟨huk, by rw [hoff _ e_uk, hoff _ e_ik]; exact h1,
                by rw [hoff _ e_ik, hoff _ (e_kj j)]; exact h2, Or.inl hmem⟩
            · rw [List.mem_cons] at hjl
              rcases hjl with hjl | hjl
              · -- `j = j0`, hop `i0`: the new value closes the gap
                refine Or.inl ?_
                rw [hui0, hjl]
                rw [Function.update_same]
                rw [hui0] at h1
                rw [hK] at h1
                rw [hjl] at h2
                omega
              · exact Or.inr ⟨huk, by rw [hoff _ e_uk, hoff _ e_ik]; exact h1,
                  by rw [hoff _ e_ik, hoff _ (e_kj j)]; exact h2,
                  Or.inr ⟨hui0, hjl⟩⟩

/-- The inner invariant survives the whole destination loop of one row. -/
theorem fwInner_go (m : GridModel) (sv k i0 : Nat) (dik : Int)
    (lrest : List Nat) (hk : k < fwV m) (hi0 : i0 < fwV m) (hik : i0 ≠ k)
    (hdik0 : 0 ≤ dik) (hdik : dik < INF) :
    ∀ (l : List Nat) (st : FWState), (∀ j ∈ l, j < fwV m) →
      FWInner m sv k i0 dik lrest l st →
      FWInner m sv k i0 dik lrest [] (l.foldl (fwUpd sv k i0 dik) st)
  | [], _, _, h => h
  | j0 :: l', st, hl, h => by
    rw [List.foldl_cons]
    exact fwInner_go m sv k i0 dik lrest hk hi0 hik hdik0 hdik l' _
      (fun j hj => hl j (List.mem_cons_of_mem _ hj))
      (fwUpd_inner m sv k i0 dik lrest l' j0 st hk hi0 hik hdik0 hdik
        (hl j0 (List.mem_cons_self _ _)) h)

/-- Row `k` of phase `k` relaxes nothing (its frozen read is the zero
diagonal entry). -/
theorem fwRow_diag (m : GridModel) (sv k : Nat) (st : FWState)
    (hk : k < fwV m) (hB : FWB m sv st) : fwRow m sv k st k = st := by
  have hkk : st.dist (k, k) = 0 := hB.2.2.1 k hk
  unfold fwRow
  dsimp only
  by_cases hik : st.dist (k, k) = INF
  · rw [if_pos hik]
  · rw [if_neg hik]
    have hstep : ∀ (l : List Nat) (st2 : FWState),
        l.foldl (fwUpd sv k k (st.dist (k, k))) st2 = st2 := by
      intro l
      induction l with
      | nil => intro st2; rfl
      | cons j0 l' ih =>
        intro st2
        rw [List.foldl_cons]
        have hid : fwUpd sv k k (st.dist (k, k)) st2 j0 = st2 := by
          unfold fwUpd
          dsimp only
          rw [if_neg (by rw [hkk]; omega)]
        rw [hid]
        exact ih st2
    exact hstep _ st

/-- One middle-loop step: processing a pending source row preserves the
middle invariant, moving the source out of the pending list. -/
theorem fwRow_mid (m : GridModel) (sv k i0 : Nat) (l₂' : List Nat)
    (st : FWState) (hk : k < fwV m) (hi0 : i0 < fwV m) (hikk : i0 ≠ k)
    (h : FWMid m sv k (i0 :: l₂') st) :
    FWMid m sv k l₂' (fwRow m sv k st i0) := by
  obtain ⟨hB, hA, hHop⟩ := h
  unfold fwRow
  dsimp only
  by_cases hik : st.dist (i0, k) = INF
  · rw [if_pos hik]
    refine ⟨hB, ?_, ?_⟩
    · intro i hiV hil j h1 h2
      by_cases hii0 : i = i0
      · rw [hii0] at h1
        rw [hik] at h1
        omega
      · refine hA i hiV ?_ j h1 h2
        intro hc
        rw [List.mem_cons] at hc
        rcases hc with hc | hc
        · exact hii0 hc
        · exact hil hc
    · intro i j hij hfin
      obtain ⟨u, hu, hcase⟩ := hHop i j hij hfin
      refine ⟨u, hu, ?_⟩
      rcases hcase with hs | ⟨huk, h1, h2, hmem⟩
      · exact Or.inl hs
      · rw [List.mem_cons] at hmem
        rcases hmem with hmem | hmem
        · rw [hmem, hik] at h1
          have := hB.2.1 (i, k)
          omega
        · exact Or.inr ⟨huk, h1, h2, hmem⟩
  · rw [if_neg hik]
    have hdik0 : 0 ≤ st.dist (i0, k) := hB.1 _
    have hdik : st.dist (i0, k) < INF := lt_of_le_of_ne (hB.2.1 _) hik
    have hstart : FWInner m sv k i0 (st.dist (i0, k)) l₂'
        (List.range (fwV m)) st := by
      refine ⟨hB, rfl, ?_, hA, ?_⟩
      · intro j hj
        rw [List.mem_range] at hj
        have hji : i0 ≠ j := by omega
        have hjk : k ≠ j := by omega
        have e1 : st.dist (i0, j) = INF := by
          by_contra hc
          have hlt : st.dist (i0, j) < INF :=
            lt_of_le_of_ne (hB.2.1 _) hc
          have := (hB.2.2.2.1 i0 j hji hlt).2.1
          omega
        have e2 : st.dist (k, j) = INF := by
          by_contra hc
          have hlt : st.dist (k, j) < INF :=
            lt_of_le_of_ne (hB.2.1 _) hc
          have := (hB.2.2.2.1 k j hjk hlt).2.1
          omega
        rw [e1, e2]
        omega
      · intro i j hij hfin
        obtain ⟨u, hu, hcase⟩ := hHop i j hij hfin
        refine ⟨u, hu, ?_⟩
        rcases hcase with hs | ⟨huk, h1, h2, hmem⟩
        · exact Or.inl hs
        · rw [List.mem_cons] at hmem
          rcases hmem with hmem | hmem
          · refine Or.inr ⟨huk, h1, h2, Or.inr ⟨hmem, ?_⟩⟩
            rw [List.mem_range]
            exact (hB.2.2.2.1 i j hij hfin).2.1
          · exact Or.inr ⟨huk, h1, h2, Or.inl hmem⟩
    obtain ⟨hB', hK', hA3', hA4', hHop'⟩ :=
      fwInner_go m sv k i0 (st.dist (i0, k)) l₂' hk hi0 hikk hdik0 hdik
        (List.range (fwV m)) st (fun j hj => List.mem_range.mp hj) hstart
    refine ⟨hB', ?_, ?_⟩
    · intro i hiV hil j h1 h2
      by_cases hii0 : i = i0
      · rw [hii0]
        have := hA3' j (List.not_mem_nil j)
        rw [hK']
        exact this
      · refine hA4' i hiV ?_ j h1 h2
        intro hc
        rw [List.mem_cons] at hc
        rcases hc with hc | hc
        · exact hii0 hc
        · exact hil hc
    · intro i j hij hfin
      obtain ⟨u, hu, hcase⟩ := hHop' i j hij hfin
      refine ⟨u, hu, ?_⟩
      rcases hcase with hs | ⟨huk, h1, h2, hmem⟩
      · exact Or.inl hs
      · rcases hmem with hmem | ⟨_, hjnil⟩
        · exact Or.inr ⟨huk, h1, h2, hmem⟩
        · exact absurd hjnil (List.not_mem_nil j)

/-- The middle invariant survives the whole middle loop. -/
theorem fwPhase_go (m : GridModel) (sv k : Nat) (hk : k < fwV m) :
    ∀ (l₂ : List Nat) (st : FWState), (∀ i ∈ l₂, i < fwV m) → l₂.Nodup →
      FWMid m sv k l₂ st →
      FWMid m sv k [] (l₂.foldl (fwRow m sv k) st) := by
  intro l₂
  induction l₂ with
  | nil => intro st _ _ h; exact h
  | cons i0 l₂' ih =>
    intro st hl hnd h
    rw [List.foldl_cons]
    have hi0 : i0 < fwV m := hl i0 (List.mem_cons_self _ _)
    have hnd' := List.nodup_cons.mp hnd
    by_cases hikk : i0 = k
    · rw [hikk, fwRow_diag m sv k st hk h.1]
      refine ih st (fun i hi => hl i (List.mem_cons_of_mem _ hi)) hnd'.2 ?_
      obtain ⟨hB, hA, hHop⟩ := h
      refine ⟨hB, ?_, ?_⟩
      · intro i hiV hil j h1 h2
        by_cases hii0 : i = i0
        · rw [hii0, hikk]
          rw [hB.2.2.1 k hk]
          omega
        · refine hA i hiV ?_ j h1 h2
          intro hc
          rw [List.mem_cons] at hc
          rcases hc with hc | hc
          · exact hii0 hc
          · exact hil hc
      · intro i j hij hfin
        obtain ⟨u, hu, hcase⟩ := hHop i j hij hfin
        refine ⟨u, hu, ?_⟩
        rcases hcase with hs | ⟨huk, h1, h2, hmem⟩
        · exact Or.inl hs
        · rw [List.mem_cons] at hmem
          rcases hmem with hmem | hmem
          · exact absurd (hmem.trans hikk) huk
          · exact Or.inr ⟨huk, h1, h2, hmem⟩
    · exact ih _ (fun i hi => hl i (List.mem_cons_of_mem _ hi)) hnd'.2
        (fwRow_mid m sv k i0 l₂' st hk hi0 hikk h)

/-- One full phase of the triple loop preserves the phase-boundary
invariant. -/
theorem fwPhase_P (m : GridModel) (sv k : Nat) (hk : k < fwV m)
    (st : FWState) (h : FWP m sv st) :
    FWP m sv ((List.range (fwV m)).foldl (fwRow m sv k) st) := by
  have hmid : FWMid m sv k (List.range (fwV m)) st := by
    refine ⟨h.1, ?_, ?_⟩
    · intro i hiV hmem
      exact absurd (List.mem_range.mpr hiV) hmem
    · intro i j hij hfin
      obtain ⟨u, hu, hs⟩ := h.2 i j hij hfin
      exact ⟨u, hu, Or.inl hs⟩
  obtain ⟨hB, _, hHop⟩ := fwPhase_go m sv k hk (List.range (fwV m)) st
    (fun i hi => List.mem_range.mp hi) (List.nodup_range _) hmid
  refine ⟨hB, ?_⟩
  intro i j hij hfin
  obtain ⟨u, hu, hcase⟩ := hHop i j hij hfin
  refine ⟨u, hu, ?_⟩
  rcases hcase with hs | ⟨_, _, _, hmem⟩
  · exact hs
  · exact absurd hmem (List.not_mem_nil u)

/-- The triple loop preserves the phase-boundary invariant. -/
theorem fwRun_P (m : GridModel) (sv : Nat) (st : FWState)
    (h : FWP m sv st) : FWP m sv (fwRun m sv st) := by
  unfold fwRun
  refine foldlPres _ _ ?_ h
  intro st' k hkmem h'
  exact fwPhase_P m sv k (List.mem_range.mp hkmem) st' h'

theorem fwCard_le (m : GridModel) (dist : Nat × Nat → Int) (j v : Nat) :
    fwCard m dist j v ≤ fwV m := by
  unfold fwCard
  calc ((Finset.range (fwV m)).filter
        (fun u => dist (u, j) ≤ dist (v, j))).card
      ≤ (Finset.range (fwV m)).card :=
        Finset.card_le_card (Finset.filter_subset _ _)
    _ = fwV m := Finset.card_range _

theorem fwCard_pos (m : GridModel) (dist : Nat × Nat → Int) (j v : Nat)
    (hv : v < fwV m) : 0 < fwCard m dist j v := by
  unfold fwCard
  rw [Finset.card_pos]
  exact ⟨v, Finset.mem_filter.mpr ⟨Finset.mem_range.mpr hv, le_refl _⟩⟩

theorem fwCard_lt (m : GridModel) (dist : Nat × Nat → Int) (j v p : Nat)
    (hv : v < fwV m) (hlt : dist (p, j) < dist (v, j)) :
    fwCard m dist j p < fwCard m dist j v := by
  unfold fwCard
  apply Finset.card_lt_card
  rw [Finset.ssubset_iff_of_subset]
  · exact ⟨v, Finset.mem_filter.mpr ⟨Finset.mem_range.mpr hv, le_refl _⟩,
      fun hmem => by
        rw [Finset.mem_filter] at hmem
        omega⟩
  · intro y hy
    rw [Finset.mem_filter] at hy ⊢
    refine ⟨hy.1, ?_⟩
    omega

/-- The main-path next-hop walk of `floydWarsShortestPath`: it starts at
the walked vertex, stays adjacent one axis step at a time (including into
the appended end cell), visits only reachable in-range vertices, takes at
most `fwCard` steps, and leaves the start as the only possible wall. -/
theorem fwPathLoop_spec (m : GridModel) (sv : Nat) (st : FWState)
    (endV : Nat) (hP : FWP m sv st) :
    ∀ (N v fuel : Nat), fwCard m st.dist endV v ≤ N →
      v < fwV m → st.dist (v, endV) < INF →
      fwCard m st.dist endV v ≤ fuel →
      (fwPathLoop m st.next endV fuel (some v) ++ [fwRC m endV]).head?
          = some (fwRC m v) ∧
      List.Chain' stepAdj
        (fwPathLoop m st.next endV fuel (some v) ++ [fwRC m endV]) ∧
      (∀ y ∈ fwPathLoop m st.next endV fuel (some v),
        ∃ u, u < fwV m ∧ y = fwRC m u ∧ st.dist (u, endV) < INF) ∧
      (fwPathLoop m st.next endV fuel (some v)).length
          ≤ fwCard m st.dist endV v ∧
      (∀ y ∈ fwPathLoop m st.next endV fuel (some v),
        y = fwRC m v ∨ ∃ u, y = fwRC m u ∧ fwNonwall m u) := by
  intro N
  induction N with
  | zero =>
    intro v fuel hN hv _ _
    have := fwCard_pos m st.dist endV v hv
    omega
  | succ N ih =>
    intro v fuel hN hv hfin hfuel
    have hpos := fwCard_pos m st.dist endV v hv
    cases fuel with
    | zero => omega
    | succ f =>
      rw [fwPathLoop]
      by_cases hve : v = endV
      · rw [if_pos hve]
        refine ⟨by rw [hve]; rfl, ?_, ?_, ?_, ?_⟩
        · simp
        · intro y hy; cases hy
        · simp
        · intro y hy; cases hy
      · obtain ⟨u, ⟨hnext, huV, hadj, hw⟩, hstrong⟩ := hP.2 v endV hve hfin
        have hufin : st.dist (u, endV) < INF := by omega
        have hcard := fwCard_lt m st.dist endV v u hv (by omega)
        obtain ⟨iha, ihb, ihc, ihd, ihe⟩ :=
          ih u f (by omega) huV hufin (by omega)
        rw [if_neg hve, hnext]
        refine ⟨rfl, ?_, ?_, ?_, ?_⟩
        · rw [List.cons_append, List.chain'_cons']
          refine ⟨?_, ihb⟩
          intro y hy
          rw [iha] at hy
          cases hy
          exact hadj
        · intro y hy
          rw [List.mem_cons] at hy
          rcases hy with hy | hy
          · exact ⟨v, hv, hy, hfin⟩
          · exact ihc y hy
        · rw [List.length_cons]
          omega
        · intro y hy
          rw [List.mem_cons] at hy
          rcases hy with hy | hy
          · exact Or.inl hy
          · rcases ihe y hy with hy' | hy'
            · exact Or.inr ⟨u, hy', hw⟩
            · exact Or.inr hy'

/-- The branch next-hop walk of `floydWarsShortestPath` (with its falsy
`!u` break): it starts at the walked vertex and pushes at most `fwCard`
cells. -/
theorem fwBranchLoop_spec (m : GridModel) (sv : Nat) (st : FWState)
    (j : Nat) (hP : FWP m sv st) :
    ∀ (N u fuel : Nat), fwCard m st.dist j u ≤ N →
      u < fwV m → st.dist (u, j) < INF → fwCard m st.dist j u ≤ fuel →
      (fwBranchLoop m st.next j fuel (some u) ++ [fwRC m j]).head?
          = some (fwRC m u) ∧
      (fwBranchLoop m st.next j fuel (some u)).length
          ≤ fwCard m st.dist j u := by
  intro N
  induction N with
  | zero =>
    intro u fuel hN hu _ _
    have := fwCard_pos m st.dist j u hu
    omega
  | succ N ih =>
    intro u fuel hN hu hfin hfuel
    have hpos := fwCard_pos m st.dist j u hu
    cases fuel with
    | zero => omega
    | succ f =>
      rw [fwBranchLoop]
      by_cases huj : u = j
      · rw [if_pos huj]
        exact ⟨by rw [huj]; rfl, by simp⟩
      · obtain ⟨u', ⟨hnext, huV', _, _⟩, hstrong⟩ := hP.2 u j huj hfin
        have hufin : st.dist (u', j) < INF := by omega
        have hcard := fwCard_lt m st.dist j u u' hu (by omega)
        rw [if_neg huj, hnext]
        dsimp only
        by_cases hu0 : u' = 0
        · rw [if_pos hu0]
          refine ⟨rfl, ?_⟩
          simp only [List.length_cons, List.length_nil]
          omega
        · rw [if_neg hu0]
          obtain ⟨_, ihb⟩ := ih u' f (by omega) huV' hufin (by omega)
          refine ⟨rfl, ?_⟩
          rw [List.length_cons]
          omega

/-- The Floyd-Warshall output is well-formed. -/
theorem fw_output_wf (m : GridModel) (s e : Cell)
    (hms : m.start = some s) (hme : m.endp = some e)
    (hs : inGrid m s) (he : inGrid m e) :
    ((floydWarsShortestPath m).path ≠ [] →
      PathWF m s e (floydWarsShortestPath m).path) ∧
    (∀ b ∈ (floydWarsShortestPath m).branches, BranchWF m s b) := by
  have hsV := fwIdx_start_lt m s hs
  have heV := fwIdx_start_lt m e he
  have hrs := fwRC_start m s hs
  have hre := fwRC_start m e he
  have hP := fwRun_P m (fwIdx m s.r.toNat s.c.toNat) (fwInit m)
    (fwInit_P m (fwIdx m s.r.toNat s.c.toNat))
  unfold floydWarsShortestPath
  rw [hms, hme]
  dsimp only
  set sv := fwIdx m s.r.toNat s.c.toNat with hsv
  set ev := fwIdx m e.r.toNat e.c.toNat with hev
  set fin := fwRun m sv (fwInit m) with hfineq
  by_cases hINF : fin.dist (sv, ev) = INF
  · rw [if_pos hINF]
    exact ⟨fun hne => absurd rfl hne, fun b hb => absurd hb (by simp)⟩
  · rw [if_neg hINF]
    have hub : ∀ q, fin.dist q ≤ INF := hP.1.2.1
    have hB4 := hP.1.2.2.2.1
    have hB5 := hP.1.2.2.2.2
    have hfinSE : fin.dist (sv, ev) < INF := lt_of_le_of_ne (hub _) hINF
    have hfuel : ∀ v, fwCard m fin.dist ev v ≤ walkFuel m := by
      intro v
      have h1 := fwCard_le m fin.dist ev v
      unfold walkFuel
      unfold fwV at h1
      omega
    obtain ⟨ha, hb, hc, hd, hwall⟩ :=
      fwPathLoop_spec m sv fin ev hP (fwCard m fin.dist ev sv) sv
        (walkFuel m) (le_refl _) hsV hfinSE (hfuel sv)
    dsimp only
    constructor
    · intro _
      refine ⟨?_, ?_, hb, ?_, ?_⟩
      · rw [ha, hrs]
      · rw [List.getLast?_concat, hre]
      · intro y hy
        rw [List.mem_append] at hy
        rcases hy with hy | hy
        · obtain ⟨u, huV, rfl, _⟩ := hc y hy
          exact fwRC_inGrid m huV
        · rw [List.mem_singleton] at hy
          rw [hy, hre]
          exact he
      · intro y hy
        rw [List.mem_append] at hy
        rcases hy with hy | hy
        · rcases hwall y hy with hy' | ⟨u, rfl, hw⟩
          · rw [hy', hrs]
            exact Or.inl rfl
          · exact Or.inr hw
        · rw [List.mem_singleton] at hy
          subst hy
          by_cases hse : sv = ev
          · rw [hre, ← hrs, hse]
            refine Or.inl ?_
            rw [hre]
          · refine Or.inr ?_
            have := (hB4 sv ev hse hfinSE).2.2
            unfold fwNonwall at this
            rw [hre] at this
            rw [hre]
            exact this
    · intro b hbmem
      rw [List.mem_map] at hbmem
      obtain ⟨j, hjmem, hbdef⟩ := hbmem
      rw [List.mem_filter] at hjmem
      obtain ⟨hj1, hj2, hj3⟩ := hB5 j hjmem.1
      have hfuelj : fwCard m fin.dist j sv ≤ walkFuel m := by
        have h1 := fwCard_le m fin.dist j sv
        unfold walkFuel
        unfold fwV at h1
        omega
      obtain ⟨hh, hl⟩ := fwBranchLoop_spec m sv fin j hP
        (fwCard m fin.dist j sv) sv (walkFuel m) (le_refl _) hsV hj3 hfuelj
      subst hbdef
      refine ⟨by simp, ?_, ?_⟩
      · rw [hh, hrs]
      · rw [List.length_append, List.length_singleton]
        have h1 := fwCard_le m fin.dist j sv
        unfold fwV at h1
        omega

/-- C9: for every grid snapshot with start and end set (as in-bounds
cells), every non-empty path returned by any of the four grid algorithms
is well-formed: its first cell is `start`, its last cell is `end`,
consecutive cells differ by exactly one step in one of the four axis
directions, every cell is in bounds, and no cell other than (possibly) the
start cell is a wall. -/
theorem returned_paths_wellformed (m : GridModel) (s e : Cell)
    (hms : m.start = some s) (hme : m.endp = some e)
    (hs : inGrid m s) (he : inGrid m e) :
    ((dijShortestPath m).path ≠ [] →
      PathWF m s e (dijShortestPath m).path) ∧
    ((aStarShortestPath m).path ≠ [] →
      PathWF m s e (aStarShortestPath m).path) ∧
    ((bellmanFordShortestPath m).path ≠ [] →
      PathWF m s e (bellmanFordShortestPath m).path) ∧
    ((floydWarsShortestPath m).path ≠ [] →
      PathWF m s e (floydWarsShortestPath m).path) :=
  ⟨(dij_output_wf m s e hms hme hs he).1,
   (aStar_output_wf m s e hms hme hs he).1,
   (bf_output_wf m s e hms hme he).1,
   (fw_output_wf m s e hms hme hs he).1⟩

theorem returned_paths_wellformed_witness :
    mOpen12.start = some ⟨0, 0⟩ ∧ mOpen12.endp = some ⟨0, 1⟩ ∧
      inGrid mOpen12 ⟨0, 0⟩ ∧ inGrid mOpen12 ⟨0, 1⟩ ∧
      (((dijShortestPath mOpen12).path ≠ [] →
          PathWF mOpen12 ⟨0, 0⟩ ⟨0, 1⟩ (dijShortestPath mOpen12).path) ∧
        ((aStarShortestPath mOpen12).path ≠ [] →
          PathWF mOpen12 ⟨0, 0⟩ ⟨0, 1⟩ (aStarShortestPath mOpen12).path) ∧
        ((bellmanFordShortestPath mOpen12).path ≠ [] →
          PathWF mOpen12 ⟨0, 0⟩ ⟨0, 1⟩
            (bellmanFordShortestPath mOpen12).path) ∧
        ((floydWarsShortestPath mOpen12).path ≠ [] →
          PathWF mOpen12 ⟨0, 0⟩ ⟨0, 1⟩ (floydWarsShortestPath mOpen12).path)) :=
  ⟨rfl, rfl, by decide, by decide,
    returned_paths_wellformed mOpen12 ⟨0, 0⟩ ⟨0, 1⟩ rfl rfl (by decide)
      (by decide)⟩

/-- C6: for every grid snapshot with start and end set (as in-bounds
cells), every branch returned by any of the four grid algorithms is a
non-empty cell sequence beginning at the start cell and containing at most
`rows*cols + 1` cells, i.e. walking the recorded predecessor (next-hop)
links between the branch's frontier cell and the start cell takes at most
`rows*cols` steps — every reconstruction walk terminates. -/
theorem branch_walks_reach_start (m : GridModel) (s e : Cell)
    (hms : m.start = some s) (hme : m.endp = some e)
    (hs : inGrid m s) (he : inGrid m e) :
    (∀ b ∈ (dijShortestPath m).branches, BranchWF m s b) ∧
    (∀ b ∈ (aStarShortestPath m).branches, BranchWF m s b) ∧
    (∀ b ∈ (bellmanFordShortestPath m).branches, BranchWF m s b) ∧
    (∀ b ∈ (floydWarsShortestPath m).branches, BranchWF m s b) :=
  ⟨(dij_output_wf m s e hms hme hs he).2,
   (aStar_output_wf m s e hms hme hs he).2,
   (bf_output_wf m s e hms hme he).2,
   (fw_output_wf m s e hms hme hs he).2⟩

theorem branch_walks_reach_start_witness :
    mOpen22.start = some ⟨0, 0⟩ ∧ mOpen22.endp = some ⟨1, 1⟩ ∧
      inGrid mOpen22 ⟨0, 0⟩ ∧ inGrid mOpen22 ⟨1, 1⟩ ∧
      ((∀ b ∈ (dijShortestPath mOpen22).branches, BranchWF mOpen22 ⟨0, 0⟩ b) ∧
        (∀ b ∈ (aStarShortestPath mOpen22).branches,
          BranchWF mOpen22 ⟨0, 0⟩ b) ∧
        (∀ b ∈ (bellmanFordShortestPath mOpen22).branches,
          BranchWF mOpen22 ⟨0, 0⟩ b) ∧
        (∀ b ∈ (floydWarsShortestPath mOpen22).branches,
          BranchWF mOpen22 ⟨0, 0⟩ b)) :=
  ⟨rfl, rfl, by decide, by decide,
    branch_walks_reach_start mOpen22 ⟨0, 0⟩ ⟨1, 1⟩ rfl rfl (by decide)
      (by decide)⟩

/-! ### The grid walk semantics shared by all four algorithms -/

theorem reachN_self (m : GridModel) (src : Cell) : reachN m src 0 src := rfl

/-- Walks compose. -/
theorem reachN_compose (m : GridModel) (src y : Cell) (a : Nat) :
    ∀ (b : Nat) (x : Cell), reachN m src a y → reachN m y b x →
      reachN m src (a + b) x := by
  intro b
  induction b with
  | zero =>
    intro x h1 h2
    rw [reachN] at h2
    subst h2
    exact h1
  | succ b ih =>
    intro x h1 h2
    obtain ⟨z, hz, hstep⟩ := h2
    exact ⟨z, ih z h1 hz, hstep⟩

/-- A single edge is a length-1 walk. -/
theorem reachN_single (m : GridModel) (y x : Cell) (h : gStep m y x) :
    reachN m y 1 x := ⟨y, rfl, h⟩

/-- The endpoint of a positive-length walk is an in-bounds non-wall
cell. -/
theorem reachN_target (m : GridModel) (src : Cell) (n : Nat) (x : Cell)
    (h : reachN m src (n + 1) x) :
    inGrid m x ∧ m.isWall x.r x.c = false := by
  obtain ⟨y, _, _, hx, _, hw⟩ := h
  exact ⟨hx, hw⟩

/-- A list walk (head `src`, consecutive `gStep`) yields a `reachN`
witness for its last element. -/
theorem reachN_of_list (m : GridModel) :
    ∀ (l : List Cell) (src x : Cell), List.Chain' (gStep m) (src :: l) →
      (src :: l).getLast? = some x → reachN m src l.length x := by
  intro l
  induction l with
  | nil =>
    intro src x _ hlast
    cases hlast
    exact rfl
  | cons b l ih =>
    intro src x hchain hlast
    rw [List.chain'_cons] at hchain
    have h1 : reachN m src 1 b := reachN_single m src b hchain.1
    have h2 : reachN m b l.length x :=
      ih b x hchain.2 (by rw [← hlast]; rfl)
    have := reachN_compose m src b 1 l.length x h1 h2
    rw [List.length_cons, Nat.add_comm]
    exact this

/-- Every `reachN` witness has a list form whose cells are all in
bounds. -/
theorem reachN_list (m : GridModel) (src : Cell) (hsrc : inGrid m src) :
    ∀ (n : Nat) (x : Cell), reachN m src n x →
      ∃ l : List Cell, List.Chain' (gStep m) (src :: l) ∧
        (src :: l).getLast? = some x ∧ l.length = n ∧
        (∀ y ∈ src :: l, inGrid m y) := by
  intro n
  induction n with
  | zero =>
    intro x h
    rw [reachN] at h
    subst h
    refine ⟨[], List.chain'_singleton _, rfl, rfl, ?_⟩
    intro y hy
    rw [List.mem_singleton] at hy
    subst hy
    exact hsrc
  | succ n ih =>
    intro x h
    obtain ⟨y, hy, hstep⟩ := h
    obtain ⟨l, hchain, hlast, hlen, hmem⟩ := ih y hy
    refine ⟨l ++ [x], ?_, ?_, ?_, ?_⟩
    · rw [← List.cons_append]
      rw [List.chain'_append]
      refine ⟨hchain, List.chain'_singleton _, ?_⟩
      intro a ha b hb
      rw [hlast] at ha
      cases ha
      cases hb
      exact hstep
    · rw [← List.cons_append]
      exact List.getLast?_concat _
    · rw [List.length_append, List.length_singleton, hlen]
    · intro z hz
      rw [← List.cons_append, List.mem_append] at hz
      rcases hz with hz | hz
      · exact hmem z hz
      · rw [List.mem_singleton] at hz
        subst hz
        exact hstep.2.1

/-- A list that is not duplicate-free splits around a repeated element. -/
theorem exists_dup_split {α : Type _} [DecidableEq α] :
    ∀ (l : List α), ¬l.Nodup →
      ∃ (l₁ l₂ l₃ : List α) (a : α), l = l₁ ++ a :: (l₂ ++ a :: l₃) := by
  intro l
  induction l with
  | nil => intro h; exact absurd List.nodup_nil h
  | cons b t ih =>
    intro h
    rw [List.nodup_cons] at h
    by_cases hb : b ∈ t
    · obtain ⟨u, v, huv⟩ := List.append_of_mem hb
      exact ⟨[], u, v, b, by rw [huv]; rfl⟩
    · have ht : ¬t.Nodup := fun hn => h ⟨hb, hn⟩
      obtain ⟨l₁, l₂, l₃, a, ha⟩ := ih ht
      exact ⟨b :: l₁, l₂, l₃, a, by rw [ha]; rfl⟩

/-- Any walk can be shortened to fewer than `rows*cols` edges by cutting
cycles. -/
theorem reachN_shorten (m : GridModel) (src : Cell) (hsrc : inGrid m src) :
    ∀ (n : Nat) (x : Cell), reachN m src n x →
      ∃ k, k ≤ m.rows * m.cols - 1 ∧ reachN m src k x := by
  intro n
  induction n using Nat.strong_induction_on with
  | _ n ihn =>
    intro x h
    by_cases hn : n ≤ m.rows * m.cols - 1
    · exact ⟨n, hn, h⟩
    · have hV1 : 1 ≤ m.rows * m.cols := by
        obtain ⟨h1, h2, h3, h4⟩ := hsrc
        have hr : 1 ≤ m.rows := by omega
        have hc : 1 ≤ m.cols := by omega
        exact Nat.one_le_iff_ne_zero.mpr (by positivity)
      obtain ⟨l, hchain, hlast, hlen, hmem⟩ := reachN_list m src hsrc n x h
      have hnodup : ¬(src :: l).Nodup := by
        intro hnd
        have hsub : (src :: l).toFinset ⊆ gridFinset m := by
          intro y hy
          rw [List.mem_toFinset] at hy
          rw [mem_gridFinset]
          exact hmem y hy
        have hcard := Finset.card_le_card hsub
        rw [card_gridFinset, List.toFinset_card_of_nodup hnd] at hcard
        rw [List.length_cons, hlen] at hcard
        omega
      obtain ⟨l₁, l₂, l₃, a, hsplit⟩ := exists_dup_split (src :: l) hnodup
      have hchain' : List.Chain' (gStep m) (l₁ ++ a :: l₃) := by
        rw [hsplit] at hchain
        rw [List.chain'_append] at hchain ⊢
        obtain ⟨hc1, hc2, hc3⟩ := hchain
        rw [show a :: (l₂ ++ a :: l₃) = (a :: l₂) ++ (a :: l₃) from rfl,
          List.chain'_append] at hc2
        refine ⟨hc1, hc2.2.1, ?_⟩
        intro p hp b hb
        cases hb
        exact hc3 p hp a rfl
      have hhead : (l₁ ++ a :: l₃).head? = (src :: l).head? := by
        rw [hsplit]
        cases l₁ with
        | nil => rfl
        | cons c t => rfl
      have hlast' : (l₁ ++ a :: l₃).getLast? = some x := by
        rw [hsplit] at hlast
        rw [List.getLast?_append_cons] at hlast ⊢
        rw [show a :: (l₂ ++ a :: l₃) = (a :: l₂) ++ a :: l₃ from rfl,
          List.getLast?_append_cons] at hlast
        exact hlast
      obtain ⟨t, ht⟩ : ∃ t, l₁ ++ a :: l₃ = src :: t := by
        cases hl : l₁ ++ a :: l₃ with
        | nil => exact absurd hl (by simp)
        | cons c t =>
          rw [hl] at hhead
          cases hhead
          exact ⟨t, rfl⟩
      have hreach : reachN m src t.length x := by
        refine reachN_of_list m t src x ?_ ?_
        · rw [← ht]; exact hchain'
        · rw [← ht]; exact hlast'
      have hlt : t.length < n := by
        have e1 : (l₁ ++ a :: l₃).length = t.length + 1 := by
          rw [ht, List.length_cons]
        have e2 : (src :: l).length = n + 1 := by
          rw [List.length_cons, hlen]
        rw [hsplit] at e2
        simp only [List.length_append, List.length_cons] at e1 e2
        omega
      exact ihn t.length hlt x hreach

/-- Every in-bounds cell appears in the row-major sweep order. -/
theorem mem_rowMajor_of (m : GridModel) (x : Cell) (hx : inGrid m x) :
    x ∈ rowMajor m := by
  obtain ⟨h1, h2, h3, h4⟩ := hx
  unfold rowMajor
  rw [List.mem_flatMap]
  refine ⟨x.r.toNat, List.mem_range.mpr (by omega), ?_⟩
  rw [List.mem_map]
  refine ⟨x.c.toNat, List.mem_range.mpr (by omega), ?_⟩
  rw [Cell.mk.injEq]
  constructor <;> [skip; skip] <;> rw [Int.ofNat_eq_coe] <;> omega

/-- A single Bellman-Ford relaxation never increases any distance. -/
theorem bfRelaxDir_mono (m : GridModel) (x : Cell) (d : Int) (st : BFState)
    (dir : Int × Int) : ∀ q, (bfRelaxDir m x d st dir).dist q ≤ st.dist q := by
  intro q
  rcases bfRelaxDir_cases m x d st dir with heq |
    ⟨_, _, hlt, st', ⟨hdist, _, _⟩, heq⟩
  · rw [heq]
  · rw [heq]
    dsimp only
    rw [hdist]
    by_cases hq : q = nbr x dir
    · rw [hq, Function.update_same]
      omega
    · rw [Function.update_noteq hq]

/-- Neither does a cell step. -/
theorem bfCellStep_mono (m : GridModel) (st : BFState) (x : Cell) :
    ∀ q, (bfCellStep m st x).dist q ≤ st.dist q := by
  intro q
  unfold bfCellStep
  dsimp only
  by_cases hfin : st.dist x = INF
  · rw [if_pos hfin]
  · rw [if_neg hfin]
    have h := foldlPres
      (P := fun (st' : BFState) => ∀ q, st'.dist q ≤ st.dist q) DIRS st
      (fun st2 dir _ h2 q =>
        le_trans (bfRelaxDir_mono m x (st.dist x) st2 dir q) (h2 q))
      (fun _ => le_refl _)
    exact h q

/-- Nor does a whole sweep. -/
theorem bfSweep_mono (m : GridModel) (st : BFState) :
    ∀ q, (bfSweep m st).dist q ≤ st.dist q := by
  unfold bfSweep
  exact foldlPres
    (P := fun (st' : BFState) => ∀ q, st'.dist q ≤ st.dist q) (rowMajor m) _
    (fun st2 x _ h2 q => le_trans (bfCellStep_mono m st2 x q) (h2 q))
    (fun _ => le_refl _)

/-- After a sweep, every traversable edge out of a previously reachable
cell has been relaxed. -/
theorem bfSweep_relax (m : GridModel) (st : BFState) (y x : Cell)
    (hfy : st.dist y < INF) (hstep : gStep m y x) :
    (bfSweep m st).dist x ≤ st.dist y + 1 := by
  obtain ⟨hgy, hgx, ⟨dir, hdir, hxdef⟩, hwx⟩ := hstep
  obtain ⟨u, v, huv⟩ := List.append_of_mem (mem_rowMajor_of m y hgy)
  unfold bfSweep
  rw [huv, List.foldl_append, List.foldl_cons]
  set st1 := u.foldl (bfCellStep m) { st with anyChange := false } with hst1
  have hmono1 : ∀ q, st1.dist q ≤ st.dist q := by
    rw [hst1]
    exact foldlPres
      (P := fun (st' : BFState) => ∀ q, st'.dist q ≤ st.dist q) u _
      (fun st2 z _ h2 q => le_trans (bfCellStep_mono m st2 z q) (h2 q))
      (fun _ => le_refl _)
  have hd1 : st1.dist y < INF := lt_of_le_of_lt (by
    calc st1.dist y ≤ st.dist y := hmono1 y
      _ ≤ st.dist y := le_refl _) hfy
  have hkey : (bfCellStep m st1 y).dist x ≤ st1.dist y + 1 := by
    unfold bfCellStep
    dsimp only
    rw [if_neg (by omega)]
    obtain ⟨d1, d2, hd12⟩ := List.append_of_mem hdir
    rw [hd12, List.foldl_append, List.foldl_cons]
    set st2 := d1.foldl (bfRelaxDir m y (st1.dist y)) st1 with hst2
    have hrel : (bfRelaxDir m y (st1.dist y) st2 dir).dist x
        ≤ st1.dist y + 1 := by
      obtain ⟨hb1, hb2, hb3, hb4⟩ := hgx
      rw [hxdef] at hb1 hb2 hb3 hb4 hwx
      unfold bfRelaxDir
      dsimp only
      rw [if_neg (by unfold nbr at hb1 hb2 hb3 hb4; dsimp only at *; omega)]
      rw [if_neg (by
        unfold nbr at hwx
        dsimp only at hwx
        rw [hwx]
        exact Bool.false_ne_true)]
      by_cases hlt : st1.dist y + 1 < st2.dist ⟨y.r + dir.1, y.c + dir.2⟩
      · rw [if_pos hlt]
        dsimp only
        rw [hxdef]
        have he : nbr y dir = (⟨y.r + dir.1, y.c + dir.2⟩ : Cell) := rfl
        rw [he, Function.update_same]
      · rw [if_neg hlt]
        have hm2 : st2.dist ⟨y.r + dir.1, y.c + dir.2⟩ ≤ st1.dist y + 1 := by
          omega
        rw [hxdef]
        exact hm2
    calc (d2.foldl (bfRelaxDir m y (st1.dist y))
          (bfRelaxDir m y (st1.dist y) st2 dir)).dist x
        ≤ (bfRelaxDir m y (st1.dist y) st2 dir).dist x := by
          exact foldlPres
            (P := fun (st' : BFState) => st'.dist x ≤
              (bfRelaxDir m y (st1.dist y) st2 dir).dist x) d2 _
            (fun st3 dir' _ h3 =>
              le_trans (bfRelaxDir_mono m y (st1.dist y) st3 dir' x) h3)
            (le_refl _)
      _ ≤ st1.dist y + 1 := hrel
  calc (v.foldl (bfCellStep m) (bfCellStep m st1 y)).dist x
      ≤ (bfCellStep m st1 y).dist x := by
        exact foldlPres
          (P := fun (st' : BFState) => st'.dist x ≤
            (bfCellStep m st1 y).dist x) v _
          (fun st3 z _ h3 => le_trans (bfCellStep_mono m st3 z x) h3)
          (le_refl _)
    _ ≤ st1.dist y + 1 := hkey
    _ ≤ st.dist y + 1 := by have := hmono1 y; omega

/-- Layered convergence: after `k` further sweeps, all cells within
`j + k` walk steps are bounded by their walk lengths. -/
theorem bfRoundsFull_layer (m : GridModel) (s : Cell) :
    ∀ (k j : Nat) (st : BFState),
      (∀ (n : Nat) (x : Cell), n ≤ j → (n : Int) < INF → reachN m s n x →
        st.dist x ≤ n) →
      ∀ (n : Nat) (x : Cell), n ≤ j + k → (n : Int) < INF →
        reachN m s n x → (bfRoundsFull m k st).dist x ≤ n := by
  intro k
  induction k with
  | zero =>
    intro j st h n x hn hINF hr
    exact h n x (by omega) hINF hr
  | succ k ih =>
    intro j st h n x hn hINF hr
    rw [bfRoundsFull]
    refine ih (j + 1) (bfSweep m st) ?_ n x (by omega) hINF hr
    intro n' x' hn' hINF' hr'
    cases n' with
    | zero =>
      rw [reachN] at hr'
      rw [hr']
      have h0 : st.dist s ≤ ((0 : Nat) : Int) :=
        h 0 s (by omega) (by unfold INF; omega) rfl
      calc (bfSweep m st).dist s ≤ st.dist s := bfSweep_mono m st s
        _ ≤ ((0 : Nat) : Int) := h0
    | succ n'' =>
      obtain ⟨y, hy, hstep⟩ := hr'
      have hdy : st.dist y ≤ n'' := h n'' y (by omega) (by push_cast at hINF' ⊢; omega) hy
      have hfy : st.dist y < INF := by
        have : ((n'' : Nat) : Int) < INF := by push_cast at hINF' ⊢; omega
        omega
      have := bfSweep_relax m st y x' hfy hstep
      push_cast
      push_cast at hdy
      omega

/-- The Bellman-Ford result is bounded by every walk length below the
sentinel. -/
theorem bf_dist_le (m : GridModel) (s : Cell) (hs : inGrid m s) (x : Cell)
    (n : Nat) (hr : reachN m s n x) (hINF : (n : Int) < INF) :
    (bfFinal m s).dist x ≤ n := by
  have hne : (sInf {k | reachN m s k x}) ∈ {k | reachN m s k x} :=
    Nat.sInf_mem ⟨n, hr⟩
  have hle : sInf {k | reachN m s k x} ≤ n := Nat.sInf_le hr
  obtain ⟨k, hk, hkr⟩ := reachN_shorten m s hs n x hr
  have hlek : sInf {k | reachN m s k x} ≤ k := Nat.sInf_le hkr
  have layer0 : ∀ (n' : Nat) (x' : Cell), n' ≤ 0 → (n' : Int) < INF →
      reachN m s n' x' → (bfInit s).dist x' ≤ n' := by
    intro n' x' hn' _ hr'
    have hz : n' = 0 := by omega
    subst hz
    rw [reachN] at hr'
    rw [hr']
    show Function.update (fun _ => INF) s 0 s ≤ ((0 : Nat) : Int)
    rw [Function.update_same]
    omega
  have hmain := bfRoundsFull_layer m s (m.rows * m.cols - 1) 0 (bfInit s)
    layer0 (sInf {k | reachN m s k x}) x (by omega)
    (by push_cast; push_cast at hINF; omega) hne
  unfold bfFinal
  rw [bfRounds_eq_full]
  calc (bfRoundsFull m (m.rows * m.cols - 1) (bfInit s)).dist x
      ≤ ((sInf {k | reachN m s k x} : Nat) : Int) := hmain
    _ ≤ (n : Int) := by push_cast; omega

/-- Every finite Bellman-Ford distance is an achievable walk length. -/
theorem bfFinal_reach (m : GridModel) (s : Cell) : ∀ x,
    0 ≤ (bfFinal m s).dist x ∧ (bfFinal m s).dist x ≤ INF ∧
    ((bfFinal m s).dist x < INF →
      reachN m s ((bfFinal m s).dist x).toNat x) := by
  unfold bfFinal
  refine bfRounds_invariant m (fun (st : BFState) => ∀ q,
    0 ≤ st.dist q ∧ st.dist q ≤ INF ∧
      (st.dist q < INF → reachN m s (st.dist q).toNat q)) ?_ _ _ ?_
  · intro st h
    unfold bfSweep
    refine foldlPres (P := fun (st' : BFState) => ∀ q,
      0 ≤ st'.dist q ∧ st'.dist q ≤ INF ∧
        (st'.dist q < INF → reachN m s (st'.dist q).toNat q))
      (rowMajor m) _ ?_ ?_
    · intro st1 x hxmem h1
      have hxg := mem_rowMajor m x hxmem
      unfold bfCellStep
      dsimp only
      by_cases hfin : st1.dist x = INF
      · rw [if_pos hfin]; exact h1
      · rw [if_neg hfin]
        have hx1 := h1 x
        have hdfin : st1.dist x < INF := by omega
        have hbase : reachN m s (st1.dist x).toNat x := hx1.2.2 hdfin
        have hd0 : 0 ≤ st1.dist x := hx1.1
        refine foldlPres (P := fun (st' : BFState) => ∀ q,
          0 ≤ st'.dist q ∧ st'.dist q ≤ INF ∧
            (st'.dist q < INF → reachN m s (st'.dist q).toNat q))
          DIRS st1 ?_ h1
        intro st2 dir hdir h2 q
        rcases bfRelaxDir_cases m x (st1.dist x) st2 dir with heq |
          ⟨hgy, hwy, hlt, st', ⟨hdist, _, _⟩, heq⟩
        · rw [heq]; exact h2 q
        · rw [heq]
          dsimp only
          rw [hdist]
          by_cases hq : q = nbr x dir
          · rw [hq, Function.update_same]
            have hub := (h2 (nbr x dir)).2.1
            refine ⟨by omega, by omega, ?_⟩
            intro _
            have ht : (st1.dist x + 1).toNat = (st1.dist x).toNat + 1 := by
              omega
            rw [ht]
            exact ⟨x, hbase, hxg, hgy, ⟨dir, hdir, rfl⟩, hwy⟩
          · rw [Function.update_noteq hq]
            exact h2 q
    · exact h
  · intro q
    unfold bfInit
    dsimp only
    by_cases hq : q = s
    · rw [hq, Function.update_same]
      refine ⟨le_refl _, by unfold INF; omega, ?_⟩
      intro _
      show reachN m s (Int.toNat 0) s
      exact rfl
    · rw [Function.update_noteq hq]
      refine ⟨by unfold INF; omega, le_refl _, ?_⟩
      intro hc
      exact absurd hc (lt_irrefl _)

/-- Rows at or above `V` are untouched by the initialisation. -/
theorem fwInit_offV (m : GridModel) : ∀ i j, fwV m ≤ i →
    (fwInit m).dist (i, j) = INF := by
  intro i j hi
  unfold fwInit
  refine foldlPres (P := fun (st : FWState) => st.dist (i, j) = INF)
    (fwCells m) _ ?_ rfl
  intro st p hp h1
  have hpb := (mem_fwCells m p).mp hp
  rw [fwInitCell_offrow m st p (i, j) ?_]
  · exact h1
  · have := fwIdx_lt m hpb.1 hpb.2
    omega

/-- Every finite entry of the initial matrix is an achievable walk
length between the decoded cells. -/
theorem fwInit_reach (m : GridModel) : ∀ i j, (fwInit m).dist (i, j) < INF →
    i < fwV m ∧ j < fwV m ∧
      reachN m (fwRC m i) ((fwInit m).dist (i, j)).toNat (fwRC m j) := by
  intro i j hfin
  have hiV : i < fwV m := by
    by_contra hc
    rw [fwInit_offV m i j (by omega)] at hfin
    omega
  by_cases hij : i = j
  · subst hij
    rw [fwInit_diag m i hiV] at hfin ⊢
    exact ⟨hiV, hiV, rfl⟩
  · obtain ⟨h1, _, _, h4, h5, h6⟩ := fwInit_offdiag m i j hij hfin
    rw [h1]
    refine ⟨hiV, h4, ?_⟩
    show reachN m (fwRC m i) 1 (fwRC m j)
    refine reachN_single m _ _ ⟨fwRC_inGrid m hiV, fwRC_inGrid m h4, h5, h6⟩

/-- The triple loop preserves achievability of all finite entries. -/
theorem fwRun_reach (m : GridModel) (sv : Nat) (st : FWState)
    (h : (∀ q, 0 ≤ st.dist q ∧ st.dist q ≤ INF) ∧ ∀ i j,
      st.dist (i, j) < INF → i < fwV m ∧ j < fwV m ∧
        reachN m (fwRC m i) (st.dist (i, j)).toNat (fwRC m j)) :
    (∀ q, 0 ≤ (fwRun m sv st).dist q ∧ (fwRun m sv st).dist q ≤ INF) ∧
    ∀ i j, (fwRun m sv st).dist (i, j) < INF →
      i < fwV m ∧ j < fwV m ∧
        reachN m (fwRC m i) ((fwRun m sv st).dist (i, j)).toNat (fwRC m j) := by
  refine fwRun_invariant m sv (fun (st : FWState) =>
    (∀ q, 0 ≤ st.dist q ∧ st.dist q ≤ INF) ∧ ∀ i j,
      st.dist (i, j) < INF → i < fwV m ∧ j < fwV m ∧
        reachN m (fwRC m i) (st.dist (i, j)).toNat (fwRC m j)) ?_ st h
  intro st k i h
  unfold fwRow
  dsimp only
  by_cases hik : st.dist (i, k) = INF
  · rw [if_pos hik]; exact h
  · rw [if_neg hik]
    have hikfin : st.dist (i, k) < INF :=
      lt_of_le_of_ne (h.1 _).2 hik
    obtain ⟨hiV, hkV, hreachik⟩ := h.2 i k hikfin
    have hik0 : 0 ≤ st.dist (i, k) := (h.1 _).1
    refine foldlPres (P := fun (st2 : FWState) =>
      (∀ q, 0 ≤ st2.dist q ∧ st2.dist q ≤ INF) ∧ ∀ i2 j2,
        st2.dist (i2, j2) < INF → i2 < fwV m ∧ j2 < fwV m ∧
          reachN m (fwRC m i2) (st2.dist (i2, j2)).toNat (fwRC m j2)) _ _ ?_ h
    intro st2 j _ h2
    rcases fwUpd_cases sv k i (st.dist (i, k)) st2 j with heq | ⟨hlt, heq⟩
    · rw [heq]; exact h2
    · rw [heq]
      have hkj0 : 0 ≤ st2.dist (k, j) := (h2.1 _).1
      have hkjfin : st2.dist (k, j) < INF := by
        have := (h2.1 (i, j)).2
        omega
      obtain ⟨_, hjV, hreachkj⟩ := h2.2 k j hkjfin
      constructor
      · intro q
        dsimp only
        by_cases hq : q = (i, j)
        · rw [hq, Function.update_same]
          have := (h2.1 (i, j)).2
          omega
        · rw [Function.update_noteq hq]; exact h2.1 q
      · intro i2 j2 hfin2
        dsimp only at hfin2 ⊢
        by_cases hq : ((i2, j2) : Nat × Nat) = (i, j)
        · rw [Prod.mk.injEq] at hq
          rw [hq.1, hq.2]
          rw [hq.1, hq.2] at hfin2
          rw [Function.update_same] at hfin2 ⊢
          refine ⟨hiV, hjV, ?_⟩
          have ht : (st.dist (i, k) + st2.dist (k, j)).toNat =
              (st.dist (i, k)).toNat + (st2.dist (k, j)).toNat := by omega
          rw [ht]
          exact reachN_compose m (fwRC m i) (fwRC m k) _ _ _ hreachik hreachkj
        · rw [Function.update_noteq hq] at hfin2 ⊢
          exact h2.2 i2 j2 hfin2

/-- Any walk qualifies once all indices are allowed. -/
theorem reachVia_of_reachN (m : GridModel) (src : Cell) :
    ∀ (n : Nat) (x : Cell), reachN m src n x →
      reachVia m (fwV m) src n x := by
  intro n
  induction n with
  | zero => intro x h; exact h
  | succ n ih =>
    intro x h
    obtain ⟨y, hy, hstep⟩ := h
    refine ⟨y, ih y hy, hstep, ?_⟩
    cases n with
    | zero => exact Or.inl rfl
    | succ n' =>
      refine Or.inr ?_
      obtain ⟨hyg, hyw⟩ := reachN_target m src n' y hy
      exact fwIdx_start_lt m y hyg

/-- Conversely, a restricted walk is a walk. -/
theorem reachN_of_reachVia (m : GridModel) (K : Nat) (src : Cell) :
    ∀ (n : Nat) (x : Cell), reachVia m K src n x → reachN m src n x := by
  intro n
  induction n with
  | zero => intro x h; exact h
  | succ n ih =>
    intro x h
    obtain ⟨y, hy, hstep, _⟩ := h
    exact ⟨y, ih y hy, hstep⟩

/-- Splitting a walk at the first intermediate use of index `K`: either
the walk never uses `K` as an intermediate, or it decomposes at `K` with a
strictly shorter second leg. -/
theorem reachVia_split (m : GridModel) (K : Nat) (src : Cell) :
    ∀ (n : Nat) (x : Cell), reachVia m (K + 1) src n x →
      reachVia m K src n x ∨
      ∃ a b, a + b = n ∧ b < n ∧ reachVia m K src a (fwRC m K) ∧
        reachVia m (K + 1) (fwRC m K) b x := by
  intro n
  induction n with
  | zero => intro x h; exact Or.inl h
  | succ n ih =>
    intro x h
    obtain ⟨y, hy, hstep, hside⟩ := h
    by_cases hn0 : n = 0
    · subst hn0
      rw [reachVia] at hy
      rw [hy] at hstep
      exact Or.inl ⟨src, rfl, hstep, Or.inl rfl⟩
    · have hyK : fwIdx m y.r.toNat y.c.toNat < K + 1 := by
        rcases hside with h1 | h1
        · exact absurd h1 hn0
        · exact h1
      have hyg : inGrid m y := hstep.1
      rcases ih y hy with hleft | ⟨a, b, hab, hbn, hpre, hsuf⟩
      · by_cases hyKlt : fwIdx m y.r.toNat y.c.toNat < K
        · exact Or.inl ⟨y, hleft, hstep, Or.inr hyKlt⟩
        · have hyidx : fwIdx m y.r.toNat y.c.toNat = K := by omega
          have hyrc : fwRC m K = y := by
            rw [← hyidx]
            exact fwRC_start m y hyg
          refine Or.inr ⟨n, 1, by omega, by omega, ?_, ?_⟩
          · rw [hyrc]
            exact hleft
          · refine ⟨fwRC m K, rfl, ?_, Or.inl rfl⟩
            rw [hyrc]
            exact hstep
      · refine Or.inr ⟨a, b + 1, by omega, by omega, hpre, ?_⟩
        refine ⟨y, hsuf, hstep, ?_⟩
        rcases Nat.eq_zero_or_pos b with hb | hb
        · exact Or.inl hb
        · exact Or.inr (by omega)

/-- Decoding then re-encoding an index is the identity. -/
theorem fwIdx_fwRC_toNat (m : GridModel) (v : Nat) :
    fwIdx m (fwRC m v).r.toNat (fwRC m v).c.toNat = v := by
  unfold fwRC
  dsimp only
  rw [Int.toNat_natCast, Int.toNat_natCast]
  exact fwIdx_fwRC m v

theorem DIRS_nodup : DIRS.Nodup := by decide

/-- In-bounds decoded cells come from indices below `V`. -/
theorem fwRC_lt_of_inGrid (m : GridModel) (j : Nat)
    (h : inGrid m (fwRC m j)) : j < fwV m := by
  unfold inGrid fwRC at h
  dsimp only at h
  have hcols : 0 < m.cols := by
    rcases Nat.eq_zero_or_pos m.cols with hc | hc
    · exfalso
      rw [hc] at h
      have h2 := h.2.2.2
      simp [Nat.mod_zero] at h2
      omega
    · exact hc
  have hdiv : j / m.cols < m.rows := by
    have := h.2.1
    exact_mod_cast this
  unfold fwV
  exact (Nat.div_lt_iff_lt_mul hcols).mp hdiv

/-- The innermost relaxation never increases any entry. -/
theorem fwUpd_mono (sv k i : Nat) (dik : Int) (st : FWState) (j : Nat) :
    ∀ q, (fwUpd sv k i dik st j).dist q ≤ st.dist q := by
  intro q
  rcases fwUpd_cases sv k i dik st j with heq | ⟨hlt, heq⟩
  · rw [heq]
  · rw [heq]
    dsimp only
    by_cases hq : q = (i, j)
    · rw [hq, Function.update_same]
      omega
    · rw [Function.update_noteq hq]

/-- Neither does a row of the triple loop. -/
theorem fwRow_mono (m : GridModel) (sv k : Nat) (st : FWState) (i : Nat) :
    ∀ q, (fwRow m sv k st i).dist q ≤ st.dist q := by
  intro q
  unfold fwRow
  dsimp only
  by_cases hik : st.dist (i, k) = INF
  · rw [if_pos hik]
  · rw [if_neg hik]
    have h := foldlPres (P := fun (st2 : FWState) =>
      ∀ q, st2.dist q ≤ st.dist q) (List.range (fwV m)) st
      (fun st2 j _ h2 q =>
        le_trans (fwUpd_mono sv k i (st.dist (i, k)) st2 j q) (h2 q))
      (fun _ => le_refl _)
    exact h q

/-- Nor does a whole phase. -/
theorem fwPhaseStep_mono (m : GridModel) (sv k : Nat) (st : FWState) :
    ∀ q, ((List.range (fwV m)).foldl (fwRow m sv k) st).dist q
      ≤ st.dist q := by
  exact foldlPres (P := fun (st2 : FWState) =>
    ∀ q, st2.dist q ≤ st.dist q) (List.range (fwV m)) st
    (fun st2 i _ h2 q => le_trans (fwRow_mono m sv k st2 i q) (h2 q))
    (fun _ => le_refl _)

/-- After a phase, entries are relaxed through its intermediate. -/
theorem fwPhase_AProc (m : GridModel) (sv k : Nat) (hk : k < fwV m)
    (st : FWState) (h : FWP m sv st) :
    ∀ i, i < fwV m → ∀ j,
      ((List.range (fwV m)).foldl (fwRow m sv k) st).dist (i, k) < INF →
      ((List.range (fwV m)).foldl (fwRow m sv k) st).dist (k, j) < INF →
      ((List.range (fwV m)).foldl (fwRow m sv k) st).dist (i, j) ≤
        ((List.range (fwV m)).foldl (fwRow m sv k) st).dist (i, k) +
        ((List.range (fwV m)).foldl (fwRow m sv k) st).dist (k, j) := by
  have hmid : FWMid m sv k (List.range (fwV m)) st := by
    refine ⟨h.1, ?_, ?_⟩
    · intro i hiV hmem
      exact absurd (List.mem_range.mpr hiV) hmem
    · intro i j hij hfin
      obtain ⟨u, hu, hs⟩ := h.2 i j hij hfin
      exact ⟨u, hu, Or.inl hs⟩
  obtain ⟨_, hA, _⟩ := fwPhase_go m sv k hk (List.range (fwV m)) st
    (fun i hi => List.mem_range.mp hi) (List.nodup_range _) hmid
  intro i hiV j h1 h2
  exact hA i hiV (List.not_mem_nil i) j h1 h2

/-- Every traversable edge is present with weight 1 after
initialisation. -/
theorem fwInit_edge (m : GridModel) (i j : Nat) (hiV : i < fwV m)
    (hstep : gStep m (fwRC m i) (fwRC m j)) :
    (fwInit m).dist (i, j) = 1 := by
  obtain ⟨hgi, hgj, ⟨dir, hdir, hnbr⟩, hwj⟩ := hstep
  have hjV : j < fwV m := fwRC_lt_of_inGrid m j hgj
  set p : Nat × Nat := ((fwRC m i).r.toNat, (fwRC m i).c.toNat) with hp
  have hpidx : fwIdx m p.1 p.2 = i := fwIdx_fwRC_toNat m i
  have hpb : p.1 < m.rows ∧ p.2 < m.cols := by
    obtain ⟨h1, h2, h3, h4⟩ := hgi
    constructor <;> [skip; skip] <;> dsimp only [hp] <;> omega
  have hpr : ((p.1 : Nat) : Int) = (fwRC m i).r :=
    Int.toNat_of_nonneg hgi.1
  have hpc : ((p.2 : Nat) : Int) = (fwRC m i).c :=
    Int.toNat_of_nonneg hgi.2.2.1
  have htr : (p.1 : Int) + dir.1 = (fwRC m j).r := by
    rw [hnbr]
    unfold nbr
    dsimp only
    rw [hpr]
  have htc : (p.2 : Int) + dir.2 = (fwRC m j).c := by
    rw [hnbr]
    unfold nbr
    dsimp only
    rw [hpc]
  have hu : fwIdx m ((p.1 : Int) + dir.1).toNat ((p.2 : Int) + dir.2).toNat
      = j := by
    rw [htr, htc]
    exact fwIdx_fwRC_toNat m j
  -- the write fired by direction `dir` of cell `p` sets the entry to 1,
  -- whatever the incoming state
  have cell_write : ∀ st : FWState, (fwInitCell m st p).dist (i, j) = 1 := by
    intro st
    unfold fwInitCell
    dsimp only
    rw [hpidx]
    obtain ⟨d1, d2, hd12⟩ := List.append_of_mem hdir
    have hdnd := DIRS_nodup
    rw [hd12] at hdnd
    have hdir_not_d2 : dir ∉ d2 := by
      rw [List.nodup_append] at hdnd
      have := hdnd.2.1
      rw [List.nodup_cons] at this
      exact this.1
    rw [hd12, List.foldl_append, List.foldl_cons]
    set st1 := d1.foldl (fwInitDir m p i)
      { st with
        dist := Function.update st.dist (i, i) 0
        next := Function.update st.next (i, i) (some i) } with hst1
    have hwrite : (fwInitDir m p i st1 dir).dist (i, j) = 1 := by
      unfold fwInitDir
      dsimp only
      rw [if_neg (by
        obtain ⟨g1, g2, g3, g4⟩ := hgj
        rw [htr, htc]
        omega)]
      rw [if_neg (by
        rw [htr, htc, hwj]
        exact Bool.false_ne_true)]
      dsimp only
      rw [hu, Function.update_same]
    refine foldlPres (P := fun (st2 : FWState) => st2.dist (i, j) = 1)
      d2 _ ?_ hwrite
    intro st2 dir' hdir' h2
    rcases fwInitDir_cases m p i st2 dir' with heq | ⟨hb1, hb2, hb3, hb4, _, heq⟩
    · rw [heq]; exact h2
    · rw [heq]
      dsimp only
      rw [Function.update_noteq ?_]
      · exact h2
      · intro hc
        rw [Prod.mk.injEq] at hc
        have hu' := hc.2
        have htg : inGrid m (fwRC m (fwIdx m ((p.1 : Int) + dir'.1).toNat
            ((p.2 : Int) + dir'.2).toNat)) := by
          rw [fwRC_fwIdx m (by omega)]
          unfold inGrid
          dsimp only
          omega
        have hrc' : fwRC m (fwIdx m ((p.1 : Int) + dir'.1).toNat
            ((p.2 : Int) + dir'.2).toNat) =
            ⟨((p.1 : Int) + dir'.1), ((p.2 : Int) + dir'.2)⟩ := by
          rw [fwRC_fwIdx m (by omega)]
          rw [Cell.mk.injEq]
          omega
        rw [← hu'] at hrc'
        rw [hnbr] at hrc'
        unfold nbr at hrc'
        rw [Cell.mk.injEq] at hrc'
        rw [← hpr, ← hpc] at hrc'
        have hdd : dir' = dir := by
          have e1 : dir.1 = dir'.1 := by omega
          have e2 : dir.2 = dir'.2 := by omega
          exact Prod.ext e1.symm e2.symm
        rw [hdd] at hdir'
        exact hdir_not_d2 hdir'
  obtain ⟨l₁, l₂, hl⟩ := List.append_of_mem
    (show p ∈ fwCells m from (mem_fwCells m p).mpr hpb)
  unfold fwInit
  rw [hl, List.foldl_append, List.foldl_cons]
  refine foldlPres (P := fun (st2 : FWState) => st2.dist (i, j) = 1) l₂ _ ?_
    (cell_write _)
  intro st2 p' hp' h2
  have hp'mem : p' ∈ fwCells m := by rw [hl]; simp [hp']
  have hp'b := (mem_fwCells m p').mp hp'mem
  by_cases hrow : fwIdx m p'.1 p'.2 = i
  · have hp'p : p' = p := by
      rw [← hpidx] at hrow
      obtain ⟨e1, e2⟩ := fwIdx_inj m hp'b.2 hpb.2 hrow
      exact Prod.ext e1 e2
    rw [hp'p]
    exact cell_write st2
  · rw [fwInitCell_offrow m st2 p' (i, j) (fun hc => hrow hc.symm)]
    exact h2

theorem fwPhasePrefix_succ (m : GridModel) (sv t : Nat) :
    fwPhasePrefix m sv (t + 1) =
      (List.range (fwV m)).foldl (fwRow m sv t) (fwPhasePrefix m sv t) := by
  unfold fwPhasePrefix
  rw [List.range_succ, List.foldl_append, List.foldl_cons, List.foldl_nil]

/-- Every phase prefix satisfies the phase-boundary invariant. -/
theorem fwPhasePrefix_P (m : GridModel) (sv : Nat) :
    ∀ t, t ≤ fwV m → FWP m sv (fwPhasePrefix m sv t) := by
  intro t
  induction t with
  | zero => intro _; exact fwInit_P m sv
  | succ t ih =>
    intro ht
    rw [fwPhasePrefix_succ]
    exact fwPhase_P m sv t (by omega) _ (ih (by omega))

/-- After `t` phases, every entry is bounded by the length of any walk
between its decoded endpoints whose intermediates have index below `t`. -/
theorem fwPhasePrefix_UB (m : GridModel) (sv : Nat) :
    ∀ t, t ≤ fwV m → ∀ (n i j : Nat), i < fwV m → j < fwV m →
      (n : Int) < INF → reachVia m t (fwRC m i) n (fwRC m j) →
      (fwPhasePrefix m sv t).dist (i, j) ≤ n := by
  intro t
  induction t with
  | zero =>
    intro _ n i j hiV hjV hINF hr
    cases n with
    | zero =>
      rw [reachVia] at hr
      have hij : i = j := by
        rw [← fwIdx_fwRC_toNat m j, ← fwIdx_fwRC_toNat m i, hr]
      subst hij
      show (fwInit m).dist (i, i) ≤ ((0 : Nat) : Int)
      rw [fwInit_diag m i hiV]
      omega
    | succ n' =>
      obtain ⟨y, hy, hstep, hside⟩ := hr
      rcases hside with hn0 | hlt0
      · subst hn0
        rw [reachVia] at hy
        rw [hy] at hstep
        show (fwInit m).dist (i, j) ≤ ((1 : Nat) : Int)
        rw [fwInit_edge m i j hiV hstep]
        omega
      · omega
  | succ t ih =>
    intro ht
    intro n
    induction n using Nat.strong_induction_on with
    | _ n ihn =>
      intro i j hiV hjV hINF hr
      rw [fwPhasePrefix_succ]
      have htV : t < fwV m := by omega
      rcases reachVia_split m t (fwRC m i) n (fwRC m j) hr with hleft |
        ⟨a, b, hab, hbn, hpre, hsuf⟩
      · have hold := ih (by omega) n i j hiV hjV hINF hleft
        have hmono := fwPhaseStep_mono m sv t (fwPhasePrefix m sv t) (i, j)
        omega
      · have hpreb := ih (by omega) a i t hiV htV (by push_cast at hINF ⊢; omega) hpre
        have hsufb := ihn b (by omega) t j htV hjV (by push_cast at hINF ⊢; omega) hsuf
        rw [fwPhasePrefix_succ] at hsufb
        have hm1 := fwPhaseStep_mono m sv t (fwPhasePrefix m sv t) (i, t)
        have hAP := fwPhase_AProc m sv t htV (fwPhasePrefix m sv t)
          (fwPhasePrefix_P m sv t (by omega)) i hiV j
          (by push_cast at hINF; omega) (by push_cast at hINF; omega)
        push_cast at hpreb hsufb hINF ⊢
        omega

/-- The Floyd-Warshall start-to-end entry is bounded by every walk length
below the sentinel. -/
theorem fw_dist_le (m : GridModel) (s e : Cell) (hs : inGrid m s)
    (he : inGrid m e) (n : Nat) (hr : reachN m s n e)
    (hINF : (n : Int) < INF) :
    (fwRun m (fwIdx m s.r.toNat s.c.toNat) (fwInit m)).dist
      (fwIdx m s.r.toNat s.c.toNat, fwIdx m e.r.toNat e.c.toNat) ≤ n := by
  have hsV := fwIdx_start_lt m s hs
  have heV := fwIdx_start_lt m e he
  have hvia : reachVia m (fwV m) (fwRC m (fwIdx m s.r.toNat s.c.toNat)) n
      (fwRC m (fwIdx m e.r.toNat e.c.toNat)) := by
    rw [fwRC_start m s hs, fwRC_start m e he]
    exact reachVia_of_reachN m s n e hr
  have hmain := fwPhasePrefix_UB m (fwIdx m s.r.toNat s.c.toNat) (fwV m)
    (le_refl _) n _ _ hsV heV hINF hvia
  have heq : fwRun m (fwIdx m s.r.toNat s.c.toNat) (fwInit m) =
      fwPhasePrefix m (fwIdx m s.r.toNat s.c.toNat) (fwV m) := rfl
  rw [heq]
  exact hmain

/-! ### The stable sort is a sort: pairwise order and head minimality -/

theorem insertSorted_length (le : α → α → Bool) (a : α) :
    ∀ l : List α, (insertSorted le a l).length = l.length + 1 := by
  intro l
  induction l with
  | nil => rfl
  | cons b l ih =>
    rw [insertSorted]
    by_cases h : le a b
    · rw [if_pos h]; rfl
    · rw [if_neg h]
      rw [List.length_cons, ih, List.length_cons]

theorem sortStable_length (le : α → α → Bool) :
    ∀ l : List α, (sortStable le l).length = l.length := by
  intro l
  induction l with
  | nil => rfl
  | cons a l ih =>
    rw [sortStable, insertSorted_length, ih, List.length_cons]

theorem sortStable_eq_nil (le : α → α → Bool) (l : List α)
    (h : sortStable le l = []) : l = [] := by
  cases l with
  | nil => rfl
  | cons a l =>
    exfalso
    have := sortStable_length le (a :: l)
    rw [h] at this
    simp at this

theorem insertSorted_pairwise (le : α → α → Bool)
    (htot : ∀ a b, le a b = true ∨ le b a = true)
    (htrans : ∀ a b c, le a b = true → le b c = true → le a c = true)
    (a : α) : ∀ l : List α, l.Pairwise (fun x y => le x y = true) →
      (insertSorted le a l).Pairwise (fun x y => le x y = true) := by
  intro l
  induction l with
  | nil => intro _; exact List.pairwise_singleton _ _
  | cons b l ih =>
    intro h
    rw [List.pairwise_cons] at h
    rw [insertSorted]
    by_cases hab : le a b
    · rw [if_pos hab]
      rw [List.pairwise_cons]
      refine ⟨?_, List.pairwise_cons.mpr h⟩
      intro c hc
      rw [List.mem_cons] at hc
      rcases hc with hc | hc
      · rw [hc]; exact hab
      · exact htrans a b c hab (h.1 c hc)
    · rw [if_neg hab]
      rw [List.pairwise_cons]
      refine ⟨?_, ih h.2⟩
      intro c hc
      rw [mem_insertSorted] at hc
      rcases hc with hc | hc
      · rw [hc]
        rcases htot a b with h1 | h1
        · exact absurd h1 hab
        · exact h1
      · exact h.1 c hc

theorem sortStable_pairwise (le : α → α → Bool)
    (htot : ∀ a b, le a b = true ∨ le b a = true)
    (htrans : ∀ a b c, le a b = true → le b c = true → le a c = true) :
    ∀ l : List α, (sortStable le l).Pairwise (fun x y => le x y = true) := by
  intro l
  induction l with
  | nil => exact List.Pairwise.nil
  | cons a l ih =>
    rw [sortStable]
    exact insertSorted_pairwise le htot htrans a _ ih

/-- The head of the sorted queue is minimal among all queue entries. -/
theorem sortStable_head_min (le : α → α → Bool)
    (htot : ∀ a b, le a b = true ∨ le b a = true)
    (htrans : ∀ a b c, le a b = true → le b c = true → le a c = true)
    (l : List α) (top : α) (rest : List α)
    (h : sortStable le l = top :: rest) :
    ∀ b ∈ l, le top b = true := by
  intro b hb
  rw [← mem_sortStable le b l, h, List.mem_cons] at hb
  rcases hb with hb | hb
  · rw [hb]
    rcases htot top top with h1 | h1 <;> exact h1
  · have hp := sortStable_pairwise le htot htrans l
    rw [h, List.pairwise_cons] at hp
    exact hp.1 b hb

/-! ### Dijkstra: full correctness of the computed distances -/

/-- A relaxation never increases the distance table. -/
theorem dijRelaxDir_dist_mono (m : GridModel) (x : Cell) (d : Int)
    (st : DijState) (dir : Int × Int) :
    ∀ q, (dijRelaxDir m x d st dir).dist q ≤ st.dist q := by
  intro q
  rcases dijRelaxDir_cases m x d st dir with heq | ⟨_, _, hlt, heq⟩
  · rw [heq]
  · rw [heq]
    dsimp only
    by_cases hq : q = nbr x dir
    · rw [hq, Function.update_same]
      omega
    · rw [Function.update_noteq hq]

/-- A relaxation only appends to the queue. -/
theorem dijRelaxDir_pq_mono (m : GridModel) (x : Cell) (d : Int)
    (st : DijState) (dir : Int × Int) :
    ∀ ent ∈ st.pq, ent ∈ (dijRelaxDir m x d st dir).pq := by
  intro ent hmem
  rcases dijRelaxDir_cases m x d st dir with heq | ⟨_, _, hlt, heq⟩
  · rw [heq]; exact hmem
  · rw [heq]
    dsimp only
    rw [List.mem_append]
    exact Or.inl hmem

/-- A relaxation preserves the correctness invariant, provided the source
label is an achievable walk length. -/
theorem dijRelaxDir_C (m : GridModel) (s x : Cell) (d : Int) (st : DijState)
    (dir : Int × Int) (hdir : dir ∈ DIRS) (hd0 : 0 ≤ d)
    (hreach : reachN m s d.toNat x) (hxg : inGrid m x)
    (h : DijC m s st) : DijC m s (dijRelaxDir m x d st dir) := by
  obtain ⟨hLB, hENT, hQ, hS0⟩ := h
  rcases dijRelaxDir_cases m x d st dir with heq | ⟨hgy, hwy, hlt, heq⟩
  · rw [heq]; exact ⟨hLB, hENT, hQ, hS0⟩
  · rw [heq]
    have hd1INF : d + 1 < INF := lt_of_lt_of_le hlt (hLB (nbr x dir)).2.1
    have hys : nbr x dir ≠ s := by
      intro hc
      rw [hc, hS0] at hlt
      omega
    have hstep : gStep m x (nbr x dir) := ⟨hxg, hgy, ⟨dir, hdir, rfl⟩, hwy⟩
    have hreachy : reachN m s (d + 1).toNat (nbr x dir) := by
      have ht : (d + 1).toNat = d.toNat + 1 := by omega
      rw [ht]
      exact ⟨x, hreach, hstep⟩
    have hmono : ∀ q, Function.update st.dist (nbr x dir) (d + 1) q
        ≤ st.dist q := by
      intro q
      by_cases hq : q = nbr x dir
      · rw [hq, Function.update_same]; omega
      · rw [Function.update_noteq hq]
    refine ⟨?_, ?_, ?_, ?_⟩
    · intro q
      dsimp only
      by_cases hq : q = nbr x dir
      · rw [hq, Function.update_same]
        exact ⟨by omega, by omega, fun _ => hreachy⟩
      · rw [Function.update_noteq hq]
        exact hLB q
    · intro ent hmem
      dsimp only at hmem ⊢
      rw [List.mem_append] at hmem
      rcases hmem with hmem | hmem
      · obtain ⟨e1, e2, e3, e4, e5⟩ := hENT ent hmem
        exact ⟨le_trans (hmono _) e1, e2, e3, e4, e5⟩
      · rw [List.mem_singleton] at hmem
        subst hmem
        dsimp only
        refine ⟨?_, by omega, hd1INF, hgy, hreachy⟩
        rw [Function.update_same]
    · intro w hw
      dsimp only at hw ⊢
      by_cases hwq : w = nbr x dir
      · refine Or.inl ⟨⟨(nbr x dir).r, (nbr x dir).c, d + 1⟩, ?_, ?_, ?_⟩
        · rw [List.mem_append]
          exact Or.inr (List.mem_singleton.mpr rfl)
        · rw [hwq]
        · rw [hwq, Function.update_same]
      · rw [Function.update_noteq hwq] at hw
        rcases hQ w hw with ⟨ent, hmem, hcell, hd⟩ | hclose
        · refine Or.inl ⟨ent, ?_, hcell, ?_⟩
          · rw [List.mem_append]; exact Or.inl hmem
          · rw [Function.update_noteq hwq]
            exact hd
        · refine Or.inr ?_
          intro z hz
          rw [Function.update_noteq hwq]
          calc Function.update st.dist (nbr x dir) (d + 1) z
              ≤ st.dist z := hmono z
            _ ≤ st.dist w + 1 := hclose z hz
    · dsimp only
      rw [Function.update_noteq (Ne.symm hys)]
      exact hS0

/-- A full neighbour round preserves the invariant. -/
theorem dijStep_C (m : GridModel) (s x : Cell) (d : Int) (st : DijState)
    (hd0 : 0 ≤ d) (hreach : reachN m s d.toNat x) (hxg : inGrid m x)
    (h : DijC m s st) : DijC m s (dijStep m x d st) := by
  unfold dijStep
  refine foldlPres (P := DijC m s) DIRS st ?_ h
  intro st2 dir hdir h2
  exact dijRelaxDir_C m s x d st2 dir hdir hd0 hreach hxg h2

theorem dijStep_dist_mono (m : GridModel) (x : Cell) (d : Int)
    (st : DijState) : ∀ q, (dijStep m x d st).dist q ≤ st.dist q := by
  unfold dijStep
  exact foldlPres (P := fun (st2 : DijState) => ∀ q, st2.dist q ≤ st.dist q)
    DIRS st
    (fun st2 dir _ h2 q =>
      le_trans (dijRelaxDir_dist_mono m x d st2 dir q) (h2 q))
    (fun _ => le_refl _)

theorem dijStep_pq_mono (m : GridModel) (x : Cell) (d : Int)
    (st : DijState) : ∀ ent ∈ st.pq, ent ∈ (dijStep m x d st).pq := by
  unfold dijStep
  exact foldlPres (P := fun (st2 : DijState) =>
    ∀ ent ∈ st.pq, ent ∈ st2.pq) DIRS st
    (fun st2 dir _ h2 ent hent =>
      dijRelaxDir_pq_mono m x d st2 dir ent (h2 ent hent))
    (fun ent hent => hent)

/-- After a neighbour round from `x` with label `d`, every traversable
edge out of `x` has been relaxed. -/
theorem dijStep_relax (m : GridModel) (x : Cell) (d : Int) (st : DijState)
    (z : Cell) (hz : gStep m x z) : (dijStep m x d st).dist z ≤ d + 1 := by
  obtain ⟨hgx, hgz, ⟨dir, hdir, hzdef⟩, hwz⟩ := hz
  unfold dijStep
  obtain ⟨d1, d2, hd12⟩ := List.append_of_mem hdir
  rw [hd12, List.foldl_append, List.foldl_cons]
  set st1 := d1.foldl (dijRelaxDir m x d) st with hst1
  have hone : (dijRelaxDir m x d st1 dir).dist z ≤ d + 1 := by
    obtain ⟨g1, g2, g3, g4⟩ := hgz
    rw [hzdef] at g1 g2 g3 g4 hwz
    unfold dijRelaxDir
    dsimp only
    rw [if_neg (by unfold nbr at g1 g2 g3 g4; dsimp only at *; omega)]
    rw [if_neg (by
      unfold nbr at hwz
      dsimp only at hwz
      rw [hwz]
      exact Bool.false_ne_true)]
    by_cases hlt : d + 1 < st1.dist ⟨x.r + dir.1, x.c + dir.2⟩
    · rw [if_pos hlt]
      dsimp only
      rw [hzdef]
      have he : nbr x dir = (⟨x.r + dir.1, x.c + dir.2⟩ : Cell) := rfl
      rw [he, Function.update_same]
    · rw [if_neg hlt]
      rw [hzdef]
      show st1.dist (nbr x dir) ≤ d + 1
      have he : nbr x dir = (⟨x.r + dir.1, x.c + dir.2⟩ : Cell) := rfl
      rw [he]
      omega
  calc (d2.foldl (dijRelaxDir m x d) (dijRelaxDir m x d st1 dir)).dist z
      ≤ (dijRelaxDir m x d st1 dir).dist z :=
        foldlPres (P := fun (st2 : DijState) => st2.dist z ≤
          (dijRelaxDir m x d st1 dir).dist z) d2 _
          (fun st2 dir' _ h2 =>
            le_trans (dijRelaxDir_dist_mono m x d st2 dir' z) h2)
          (le_refl _)
    _ ≤ d + 1 := hone

/-- Updating an in-bounds cell to a strictly smaller nonnegative value
strictly decreases the summed distance table. -/
theorem sum_toNat_update (m : GridModel) (f : Cell → Int) (y : Cell)
    (hy : inGrid m y) (v : Int) (hv : 0 ≤ v) (hlt : v < f y) :
    Finset.sum (gridFinset m)
        (fun x => ((Function.update f y v) x).toNat) + 1
      ≤ Finset.sum (gridFinset m) (fun x => (f x).toNat) := by
  have hymem : y ∈ gridFinset m := (mem_gridFinset m y).mpr hy
  rw [← Finset.sum_erase_add _ _ hymem, ← Finset.sum_erase_add _ _ hymem]
  have he : Finset.sum ((gridFinset m).erase y)
      (fun x => ((Function.update f y v) x).toNat)
      = Finset.sum ((gridFinset m).erase y) (fun x => (f x).toNat) := by
    refine Finset.sum_congr rfl ?_
    intro x hx
    rw [Function.update_noteq (Finset.ne_of_mem_erase hx)]
  rw [he, Function.update_same]
  have hn : v.toNat + 1 ≤ (f y).toNat := by omega
  omega

/-- A relaxation cannot increase the measure: a push is paid for by a
strict distance decrease. -/
theorem dijRelaxDir_measure (m : GridModel) (x : Cell) (d : Int)
    (st : DijState) (dir : Int × Int) (hd0 : 0 ≤ d) :
    dijMeasure m (dijRelaxDir m x d st dir) ≤ dijMeasure m st := by
  rcases dijRelaxDir_cases m x d st dir with heq | ⟨hgy, _, hlt, heq⟩
  · rw [heq]
  · rw [heq]
    unfold dijMeasure
    dsimp only
    rw [List.length_append, List.length_singleton]
    have hsum := sum_toNat_update m st.dist (nbr x dir) hgy (d + 1)
      (by omega) hlt
    omega

theorem dijStep_measure (m : GridModel) (x : Cell) (d : Int)
    (st : DijState) (hd0 : 0 ≤ d) :
    dijMeasure m (dijStep m x d st) ≤ dijMeasure m st := by
  unfold dijStep
  exact foldlPres (P := fun (st2 : DijState) =>
    dijMeasure m st2 ≤ dijMeasure m st) DIRS st
    (fun st2 dir _ h2 =>
      le_trans (dijRelaxDir_measure m x d st2 dir hd0) h2)
    (le_refl _)

/-- The queue-or-bounded claim: along any walk, either the distance table
already beats the walk or some queue entry is at most the walk length. -/
theorem dij_claim (m : GridModel) (s : Cell) (st : DijState)
    (h : DijC m s st) :
    ∀ (n : Nat) (x : Cell), (n : Int) < INF → reachN m s n x →
      st.dist x ≤ (n : Int) ∨ ∃ ent ∈ st.pq, ent.d ≤ (n : Int) := by
  obtain ⟨hLB, hENT, hQ, hS0⟩ := h
  intro n
  induction n with
  | zero =>
    intro x _ hr
    rw [reachN] at hr
    rw [hr]
    left
    rw [hS0]
    omega
  | succ n ih =>
    intro x hINF hr
    obtain ⟨y, hy, hstep⟩ := hr
    rcases ih y (by push_cast at hINF ⊢; omega) hy with hly | ⟨ent, hmem, hd⟩
    · have hyfin : st.dist y < INF := by
        push_cast at hINF hly
        omega
      rcases hQ y hyfin with ⟨ent, hmem, hcell, hd⟩ | hclose
      · refine Or.inr ⟨ent, hmem, ?_⟩
        rw [hd]
        push_cast at hly ⊢
        omega
      · refine Or.inl ?_
        have := hclose x hstep
        push_cast at hly ⊢
        omega
    · refine Or.inr ⟨ent, hmem, ?_⟩
      push_cast at hd ⊢
      omega

/-- Relaxations also preserve the suspended invariant. -/
theorem dijRelaxDir_Cexc (m : GridModel) (s exc x : Cell) (d : Int)
    (st : DijState) (dir : Int × Int) (hdir : dir ∈ DIRS) (hd0 : 0 ≤ d)
    (hreach : reachN m s d.toNat x) (hxg : inGrid m x)
    (h : DijCexc m s exc st) : DijCexc m s exc (dijRelaxDir m x d st dir) := by
  obtain ⟨hLB, hENT, hQ, hS0⟩ := h
  rcases dijRelaxDir_cases m x d st dir with heq | ⟨hgy, hwy, hlt, heq⟩
  · rw [heq]; exact ⟨hLB, hENT, hQ, hS0⟩
  · rw [heq]
    have hd1INF : d + 1 < INF := lt_of_lt_of_le hlt (hLB (nbr x dir)).2.1
    have hys : nbr x dir ≠ s := by
      intro hc
      rw [hc, hS0] at hlt
      omega
    have hstep : gStep m x (nbr x dir) := ⟨hxg, hgy, ⟨dir, hdir, rfl⟩, hwy⟩
    have hreachy : reachN m s (d + 1).toNat (nbr x dir) := by
      have ht : (d + 1).toNat = d.toNat + 1 := by omega
      rw [ht]
      exact ⟨x, hreach, hstep⟩
    have hmono : ∀ q, Function.update st.dist (nbr x dir) (d + 1) q
        ≤ st.dist q := by
      intro q
      by_cases hq : q = nbr x dir
      · rw [hq, Function.update_same]; omega
      · rw [Function.update_noteq hq]
    refine ⟨?_, ?_, ?_, ?_⟩
    · intro q
      dsimp only
      by_cases hq : q = nbr x dir
      · rw [hq, Function.update_same]
        exact ⟨by omega, by omega, fun _ => hreachy⟩
      · rw [Function.update_noteq hq]
        exact hLB q
    · intro ent hmem
      dsimp only at hmem ⊢
      rw [List.mem_append] at hmem
      rcases hmem with hmem | hmem
      · obtain ⟨e1, e2, e3, e4, e5⟩ := hENT ent hmem
        exact ⟨le_trans (hmono _) e1, e2, e3, e4, e5⟩
      · rw [List.mem_singleton] at hmem
        subst hmem
        dsimp only
        refine ⟨?_, by omega, hd1INF, hgy, hreachy⟩
        rw [Function.update_same]
    · intro w hwexc hw
      dsimp only at hw ⊢
      by_cases hwq : w = nbr x dir
      · refine Or.inl ⟨⟨(nbr x dir).r, (nbr x dir).c, d + 1⟩, ?_, ?_, ?_⟩
        · rw [List.mem_append]
          exact Or.inr (List.mem_singleton.mpr rfl)
        · rw [hwq]
        · rw [hwq, Function.update_same]
      · rw [Function.update_noteq hwq] at hw
        rcases hQ w hwexc hw with ⟨ent, hmem, hcell, hd⟩ | hclose
        · refine Or.inl ⟨ent, ?_, hcell, ?_⟩
          · rw [List.mem_append]; exact Or.inl hmem
          · rw [Function.update_noteq hwq]
            exact hd
        · refine Or.inr ?_
          intro z hz
          rw [Function.update_noteq hwq]
          calc Function.update st.dist (nbr x dir) (d + 1) z
              ≤ st.dist z := hmono z
            _ ≤ st.dist w + 1 := hclose z hz
    · dsimp only
      rw [Function.update_noteq (Ne.symm hys)]
      exact hS0

theorem dijStep_Cexc (m : GridModel) (s exc x : Cell) (d : Int)
    (st : DijState) (hd0 : 0 ≤ d) (hreach : reachN m s d.toNat x)
    (hxg : inGrid m x) (h : DijCexc m s exc st) :
    DijCexc m s exc (dijStep m x d st) := by
  unfold dijStep
  refine foldlPres (P := DijCexc m s exc) DIRS st ?_ h
  intro st2 dir hdir h2
  exact dijRelaxDir_Cexc m s exc x d st2 dir hdir hd0 hreach hxg h2

/-- A neighbour round never touches its own source cell. -/
theorem dijStep_dist_self (m : GridModel) (x : Cell) (d : Int)
    (st : DijState) : (dijStep m x d st).dist x = st.dist x := by
  unfold dijStep
  refine foldlPres (P := fun (st2 : DijState) => st2.dist x = st.dist x)
    DIRS st ?_ rfl
  intro st2 dir hdir h2
  rcases dijRelaxDir_cases m x d st2 dir with heq | ⟨_, _, _, heq⟩
  · rw [heq]; exact h2
  · rw [heq]
    dsimp only
    rw [Function.update_noteq (Ne.symm (nbr_ne x dir hdir))]
    exact h2

/-- Popping the sorted head and relaxing its neighbours restores the full
invariant. -/
theorem dijPopStep_C (m : GridModel) (s : Cell) (st : DijState)
    (top : PQE) (rest : List PQE)
    (hsort : sortStable (fun a b : PQE => decide (a.d ≤ b.d)) st.pq
      = top :: rest) (hC : DijC m s st) :
    DijC m s (dijStep m ⟨top.r, top.c⟩ top.d
      { st with pq := rest, popped := st.popped ++ [⟨top.r, top.c⟩] }) := by
  obtain ⟨hLB, hENT, hQ, hS0⟩ := hC
  have htot : ∀ a b : PQE,
      (decide (a.d ≤ b.d)) = true ∨ (decide (b.d ≤ a.d)) = true := by
    intro a b
    simp only [decide_eq_true_eq]
    omega
  have htrans : ∀ a b c : PQE, (decide (a.d ≤ b.d)) = true →
      (decide (b.d ≤ c.d)) = true → (decide (a.d ≤ c.d)) = true := by
    intro a b c
    simp only [decide_eq_true_eq]
    omega
  have hmin := sortStable_head_min _ htot htrans st.pq top rest hsort
  have htopmem : top ∈ st.pq := by
    rw [← mem_sortStable _ top st.pq, hsort]
    exact List.mem_cons_self _ _
  obtain ⟨htd1, htd0, htdINF, htg, htreach⟩ := hENT top htopmem
  have hrestmem : ∀ ent ∈ rest, ent ∈ st.pq := by
    intro ent hent
    rw [← mem_sortStable (fun a b : PQE => decide (a.d ≤ b.d)) ent st.pq,
      hsort]
    exact List.mem_cons_of_mem _ hent
  have hCx : DijCexc m s ⟨top.r, top.c⟩
      { st with pq := rest, popped := st.popped ++ [⟨top.r, top.c⟩] } := by
    refine ⟨hLB, ?_, ?_, hS0⟩
    · intro ent hent
      exact hENT ent (hrestmem ent hent)
    · intro y hyexc hy
      rcases hQ y hy with ⟨ent, hmem, hcell, hd⟩ | hclose
      · rw [← mem_sortStable (fun a b : PQE => decide (a.d ≤ b.d)) ent
          st.pq, hsort, List.mem_cons] at hmem
        rcases hmem with hmem | hmem
        · exfalso
          rw [hmem] at hcell
          exact hyexc hcell.symm
        · exact Or.inl ⟨ent, hmem, hcell, hd⟩
      · exact Or.inr hclose
  have hC2 := dijStep_Cexc m s ⟨top.r, top.c⟩ ⟨top.r, top.c⟩ top.d _
    htd0 htreach htg hCx
  obtain ⟨hLB2, hENT2, hQ2, hS02⟩ := hC2
  refine ⟨hLB2, hENT2, ?_, hS02⟩
  intro y hy
  by_cases hyt : y = (⟨top.r, top.c⟩ : Cell)
  · subst hyt
    refine Or.inr ?_
    intro z hz
    have hz2 := dijStep_relax m (⟨top.r, top.c⟩ : Cell) top.d
      { st with pq := rest, popped := st.popped ++ [⟨top.r, top.c⟩] } z hz
    have hself := dijStep_dist_self m (⟨top.r, top.c⟩ : Cell) top.d
      { st with pq := rest, popped := st.popped ++ [⟨top.r, top.c⟩] }
    rw [hself]
    show _ ≤ st.dist (⟨top.r, top.c⟩ : Cell) + 1
    rcases hQ (⟨top.r, top.c⟩ : Cell) (by rw [hself] at hy; exact hy) with
      ⟨ent, hmem, hcell, hd⟩ | hclose
    · have hment := hmin ent hmem
      simp only [decide_eq_true_eq] at hment
      have : st.dist (⟨top.r, top.c⟩ : Cell) = top.d := by
        rw [← hcell] at htd1 hd ⊢
        omega
      rw [this]
      exact hz2
    · calc (dijStep m (⟨top.r, top.c⟩ : Cell) top.d
            { st with
              pq := rest
              popped := st.popped ++ [⟨top.r, top.c⟩] }).dist z
          ≤ st.dist z := dijStep_dist_mono m _ _ _ z
        _ ≤ st.dist (⟨top.r, top.c⟩ : Cell) + 1 := hclose z hz
  · exact hQ2 y hyt hy

/-- The Dijkstra loop, given enough fuel, ends in a state whose distances
are achievable and whose end-cell distance undercuts every walk. -/
theorem dijLoop_correct (m : GridModel) (s e : Cell) :
    ∀ (fuel : Nat) (st : DijState), DijC m s st →
      dijMeasure m st < fuel →
      (∀ x, 0 ≤ (dijLoop m e fuel st).dist x ∧
        (dijLoop m e fuel st).dist x ≤ INF ∧
        ((dijLoop m e fuel st).dist x < INF →
          reachN m s ((dijLoop m e fuel st).dist x).toNat x)) ∧
      (∀ (n : Nat), (n : Int) < INF → reachN m s n e →
        (dijLoop m e fuel st).dist e ≤ (n : Int)) := by
  intro fuel
  induction fuel with
  | zero => intro st _ hM; omega
  | succ fuel ih =>
    intro st hC hM
    cases hsort : sortStable (fun a b : PQE => decide (a.d ≤ b.d)) st.pq with
    | nil =>
      rw [dijLoop, hsort]
      have hpqnil : st.pq = [] := sortStable_eq_nil _ _ hsort
      refine ⟨hC.1, ?_⟩
      intro n hINF hr
      rcases dij_claim m s st hC n e hINF hr with h | ⟨ent, hmem, _⟩
      · exact h
      · rw [hpqnil] at hmem
        cases hmem
    | cons top rest =>
      rw [dijLoop, hsort]
      dsimp only
      have htot : ∀ a b : PQE,
          (decide (a.d ≤ b.d)) = true ∨ (decide (b.d ≤ a.d)) = true := by
        intro a b
        simp only [decide_eq_true_eq]
        omega
      have htrans : ∀ a b c : PQE, (decide (a.d ≤ b.d)) = true →
          (decide (b.d ≤ c.d)) = true → (decide (a.d ≤ c.d)) = true := by
        intro a b c
        simp only [decide_eq_true_eq]
        omega
      have hmin := sortStable_head_min _ htot htrans st.pq top rest hsort
      have htopmem : top ∈ st.pq := by
        rw [← mem_sortStable _ top st.pq, hsort]
        exact List.mem_cons_self _ _
      obtain ⟨htd1, htd0, htdINF, htg, htreach⟩ := hC.2.1 top htopmem
      have hlen : st.pq.length = rest.length + 1 := by
        have := sortStable_length (fun a b : PQE => decide (a.d ≤ b.d)) st.pq
        rw [hsort] at this
        rw [← this, List.length_cons]
      by_cases hend : top.r = e.r ∧ top.c = e.c
      · rw [if_pos hend]
        have hcelle : (⟨top.r, top.c⟩ : Cell) = e := by
          rw [hend.1, hend.2]
        refine ⟨hC.1, ?_⟩
        intro n hINF hr
        rcases dij_claim m s st hC n e hINF hr with h | ⟨ent, hmem, hentd⟩
        · exact h
        · have hment := hmin ent hmem
          simp only [decide_eq_true_eq] at hment
          show st.dist e ≤ (n : Int)
          rw [← hcelle]
          omega
      · rw [if_neg hend]
        have hC2 := dijPopStep_C m s st top rest hsort hC
        have hM1 : dijMeasure m { st with
            pq := rest
            popped := st.popped ++ [⟨top.r, top.c⟩] } + 1
            = dijMeasure m st := by
          unfold dijMeasure
          dsimp only
          omega
        have hM2 := dijStep_measure m (⟨top.r, top.c⟩ : Cell) top.d
          { st with
            pq := rest
            popped := st.popped ++ [⟨top.r, top.c⟩] } htd0
        exact ih _ hC2 (by omega)

/-- The initial Dijkstra state satisfies the invariant. -/
theorem dijInit_C (m : GridModel) (s : Cell) (hs : inGrid m s) :
    DijC m s (dijInit s) := by
  unfold dijInit
  refine ⟨?_, ?_, ?_, ?_⟩
  · intro x
    dsimp only
    by_cases hx : x = s
    · rw [hx, Function.update_same]
      exact ⟨le_refl _, by unfold INF; omega, fun _ => rfl⟩
    · rw [Function.update_noteq hx]
      exact ⟨by unfold INF; omega, le_refl _,
        fun hc => absurd hc (lt_irrefl _)⟩
  · intro ent hent
    dsimp only at hent
    rw [List.mem_singleton] at hent
    subst hent
    dsimp only
    have hcell : (⟨s.r, s.c⟩ : Cell) = s := rfl
    rw [hcell, Function.update_same]
    exact ⟨le_refl _, le_refl _, by unfold INF; omega, hs, rfl⟩
  · intro y hy
    dsimp only at hy ⊢
    by_cases hys : y = s
    · refine Or.inl ⟨⟨s.r, s.c, 0⟩, List.mem_singleton.mpr rfl, ?_, ?_⟩
      · show (⟨s.r, s.c⟩ : Cell) = y
        rw [hys]
      · rw [hys]
        show (0 : Int) = Function.update (fun _ => INF) s 0 s
        rw [Function.update_same]
    · rw [Function.update_noteq hys] at hy
      exact absurd hy (lt_irrefl _)
  · dsimp only
    rw [Function.update_same]

/-- The initial measure fits inside the fuel. -/
theorem dijInit_measure (m : GridModel) (s : Cell) :
    dijMeasure m (dijInit s) < gridFuel m := by
  unfold dijMeasure dijInit gridFuel
  dsimp only
  have h1 : ∀ x ∈ gridFinset m,
      ((Function.update (fun _ => INF) s 0 : Cell → Int) x).toNat
        ≤ 1000000000 := by
    intro x _
    by_cases hx : x = s
    · rw [hx, Function.update_same]
      omega
    · rw [Function.update_noteq hx]
      unfold INF
      omega
  have h2 := Finset.sum_le_sum h1
  rw [Finset.sum_const, smul_eq_mul, card_gridFinset] at h2
  have h3 : ([⟨s.r, s.c, 0⟩] : List PQE).length = 1 := rfl
  rw [h3]
  omega

/-- Dijkstra's final distance table: achievable distances, and the end
entry undercuts every walk below the sentinel. -/
theorem dijFinal_correct (m : GridModel) (s e : Cell) (hs : inGrid m s) :
    (∀ x, 0 ≤ (dijFinal m s e).dist x ∧ (dijFinal m s e).dist x ≤ INF ∧
      ((dijFinal m s e).dist x < INF →
        reachN m s ((dijFinal m s e).dist x).toNat x)) ∧
    (∀ (n : Nat), (n : Int) < INF → reachN m s n e →
      (dijFinal m s e).dist e ≤ (n : Int)) := by
  unfold dijFinal
  exact dijLoop_correct m s e (gridFuel m) (dijInit s) (dijInit_C m s hs)
    (dijInit_measure m s)

/-! ### A*: full correctness of the computed `g`-distances -/

theorem manhattan_nonneg (e : Cell) (r c : Int) : 0 ≤ manhattan e r c := by
  unfold manhattan
  omega

theorem manhattan_self (e : Cell) : manhattan e e.r e.c = 0 := by
  unfold manhattan
  omega

/-- One step changes the Manhattan distance by at most one. -/
theorem manhattan_step (e z x : Cell) (h : stepAdj z x) :
    manhattan e x.r x.c ≤ manhattan e z.r z.c + 1 := by
  obtain ⟨dir, hdir, hx⟩ := h
  have habs : dir.1.natAbs + dir.2.natAbs = 1 := by
    simp only [DIRS, List.mem_cons, List.not_mem_nil, or_false] at hdir
    rcases hdir with h1 | h1 | h1 | h1 <;> · rw [h1]; rfl
  rw [hx]
  unfold nbr manhattan
  dsimp only
  omega

/-- Manhattan distance is a lower bound on walk length (the heuristic is
admissible along any walk). -/
theorem manhattan_le_reach (m : GridModel) (y : Cell) :
    ∀ (b : Nat) (x : Cell), reachN m y b x →
      manhattan x y.r y.c ≤ (b : Int) := by
  intro b
  induction b with
  | zero =>
    intro x h
    rw [reachN] at h
    rw [h]
    rw [manhattan_self]
    omega
  | succ b ih =>
    intro x h
    obtain ⟨z, hz, hstep⟩ := h
    have h1 := ih z hz
    have h2 : manhattan x z.r z.c ≤ 1 := by
      obtain ⟨_, _, hadj, _⟩ := hstep
      obtain ⟨dir, hdir, hx⟩ := hadj
      have habs : dir.1.natAbs + dir.2.natAbs = 1 := by
        simp only [DIRS, List.mem_cons, List.not_mem_nil, or_false] at hdir
        rcases hdir with h1 | h1 | h1 | h1 <;> · rw [h1]; rfl
      rw [hx]
      unfold nbr manhattan
      dsimp only
      omega
    have h3 : manhattan x y.r y.c ≤ manhattan z y.r y.c +
        manhattan x z.r z.c := by
      unfold manhattan
      omega
    push_cast
    omega

theorem aStarRelaxDir_g_mono (m : GridModel) (e x : Cell) (gCur : Int)
    (st : AStarState) (dir : Int × Int) :
    ∀ q, (aStarRelaxDir m e x gCur st dir).g q ≤ st.g q := by
  intro q
  rcases aStarRelaxDir_cases m e x gCur st dir with heq | ⟨_, _, hlt, heq⟩
  · rw [heq]
  · rw [heq]
    dsimp only
    by_cases hq : q = nbr x dir
    · rw [hq, Function.update_same]
      omega
    · rw [Function.update_noteq hq]

/-- An A* relaxation preserves the suspended invariant. -/
theorem aStarRelaxDir_Cexc (m : GridModel) (s e exc x : Cell) (gCur : Int)
    (st : AStarState) (dir : Int × Int) (hdir : dir ∈ DIRS) (hd0 : 0 ≤ gCur)
    (hreach : reachN m s gCur.toNat x) (hxg : inGrid m x)
    (h : AStarCexc m s e exc st) :
    AStarCexc m s e exc (aStarRelaxDir m e x gCur st dir) := by
  obtain ⟨hLB, hENT, hQ, hS0⟩ := h
  rcases aStarRelaxDir_cases m e x gCur st dir with heq | ⟨hgy, hwy, hlt, heq⟩
  · rw [heq]; exact ⟨hLB, hENT, hQ, hS0⟩
  · rw [heq]
    have hd1INF : gCur + 1 < INF := lt_of_lt_of_le hlt (hLB (nbr x dir)).2.1
    have hys : nbr x dir ≠ s := by
      intro hc
      rw [hc, hS0] at hlt
      omega
    have hstep : gStep m x (nbr x dir) := ⟨hxg, hgy, ⟨dir, hdir, rfl⟩, hwy⟩
    have hreachy : reachN m s (gCur + 1).toNat (nbr x dir) := by
      have ht : (gCur + 1).toNat = gCur.toNat + 1 := by omega
      rw [ht]
      exact ⟨x, hreach, hstep⟩
    have hmono : ∀ q, Function.update st.g (nbr x dir) (gCur + 1) q
        ≤ st.g q := by
      intro q
      by_cases hq : q = nbr x dir
      · rw [hq, Function.update_same]; omega
      · rw [Function.update_noteq hq]
    refine ⟨?_, ?_, ?_, ?_⟩
    · intro q
      dsimp only
      by_cases hq : q = nbr x dir
      · rw [hq, Function.update_same]
        exact ⟨by omega, by omega, fun _ => hreachy⟩
      · rw [Function.update_noteq hq]
        exact hLB q
    · intro ent hmem
      dsimp only at hmem ⊢
      rw [List.mem_append] at hmem
      rcases hmem with hmem | hmem
      · obtain ⟨e1, e2, e3, e4, e5, e6⟩ := hENT ent hmem
        exact ⟨le_trans (hmono _) e1, e2, e3, e4, e5, e6⟩
      · rw [List.mem_singleton] at hmem
        subst hmem
        dsimp only
        refine ⟨?_, by omega, hd1INF, hgy, hreachy, rfl⟩
        rw [Function.update_same]
    · intro w hwexc hw
      dsimp only at hw ⊢
      by_cases hwq : w = nbr x dir
      · refine Or.inl ⟨⟨(nbr x dir).r, (nbr x dir).c,
          gCur + 1 + manhattan e (nbr x dir).r (nbr x dir).c, gCur + 1⟩,
          ?_, ?_, ?_⟩
        · rw [List.mem_append]
          exact Or.inr (List.mem_singleton.mpr rfl)
        · rw [hwq]
        · rw [hwq, Function.update_same]
      · rw [Function.update_noteq hwq] at hw
        rcases hQ w hwexc hw with ⟨ent, hmem, hcell, hd⟩ | hclose
        · refine Or.inl ⟨ent, ?_, hcell, ?_⟩
          · rw [List.mem_append]; exact Or.inl hmem
          · rw [Function.update_noteq hwq]
            exact hd
        · refine Or.inr ?_
          intro z hz
          rw [Function.update_noteq hwq]
          calc Function.update st.g (nbr x dir) (gCur + 1) z
              ≤ st.g z := hmono z
            _ ≤ st.g w + 1 := hclose z hz
    · dsimp only
      rw [Function.update_noteq (Ne.symm hys)]
      exact hS0

theorem aStarStep_Cexc (m : GridModel) (s e exc x : Cell) (gCur : Int)
    (st : AStarState) (hd0 : 0 ≤ gCur) (hreach : reachN m s gCur.toNat x)
    (hxg : inGrid m x) (h : AStarCexc m s e exc st) :
    AStarCexc m s e exc (aStarStep m e x gCur st) := by
  unfold aStarStep
  refine foldlPres (P := AStarCexc m s e exc) DIRS st ?_ h
  intro st2 dir hdir h2
  exact aStarRelaxDir_Cexc m s e exc x gCur st2 dir hdir hd0 hreach hxg h2

theorem aStarStep_g_mono (m : GridModel) (e x : Cell) (gCur : Int)
    (st : AStarState) : ∀ q, (aStarStep m e x gCur st).g q ≤ st.g q := by
  unfold aStarStep
  exact foldlPres (P := fun (st2 : AStarState) => ∀ q, st2.g q ≤ st.g q)
    DIRS st
    (fun st2 dir _ h2 q =>
      le_trans (aStarRelaxDir_g_mono m e x gCur st2 dir q) (h2 q))
    (fun _ => le_refl _)

theorem aStarStep_g_self (m : GridModel) (e x : Cell) (gCur : Int)
    (st : AStarState) : (aStarStep m e x gCur st).g x = st.g x := by
  unfold aStarStep
  refine foldlPres (P := fun (st2 : AStarState) => st2.g x = st.g x)
    DIRS st ?_ rfl
  intro st2 dir hdir h2
  rcases aStarRelaxDir_cases m e x gCur st2 dir with heq | ⟨_, _, _, heq⟩
  · rw [heq]; exact h2
  · rw [heq]
    dsimp only
    rw [Function.update_noteq (Ne.symm (nbr_ne x dir hdir))]
    exact h2

/-- After a neighbour round from `x`, every traversable edge out of `x`
has been relaxed. -/
theorem aStarStep_relax (m : GridModel) (e x : Cell) (gCur : Int)
    (st : AStarState) (z : Cell) (hz : gStep m x z) :
    (aStarStep m e x gCur st).g z ≤ gCur + 1 := by
  obtain ⟨hgx, hgz, ⟨dir, hdir, hzdef⟩, hwz⟩ := hz
  unfold aStarStep
  obtain ⟨d1, d2, hd12⟩ := List.append_of_mem hdir
  rw [hd12, List.foldl_append, List.foldl_cons]
  set st1 := d1.foldl (aStarRelaxDir m e x gCur) st with hst1
  have hone : (aStarRelaxDir m e x gCur st1 dir).g z ≤ gCur + 1 := by
    obtain ⟨g1, g2, g3, g4⟩ := hgz
    rw [hzdef] at g1 g2 g3 g4 hwz
    unfold aStarRelaxDir
    dsimp only
    rw [if_neg (by unfold nbr at g1 g2 g3 g4; dsimp only at *; omega)]
    rw [if_neg (by
      unfold nbr at hwz
      dsimp only at hwz
      rw [hwz]
      exact Bool.false_ne_true)]
    by_cases hlt : gCur + 1 < st1.g ⟨x.r + dir.1, x.c + dir.2⟩
    · rw [if_pos hlt]
      dsimp only
      rw [hzdef]
      have he : nbr x dir = (⟨x.r + dir.1, x.c + dir.2⟩ : Cell) := rfl
      rw [he, Function.update_same]
    · rw [if_neg hlt]
      rw [hzdef]
      show st1.g (nbr x dir) ≤ gCur + 1
      have he : nbr x dir = (⟨x.r + dir.1, x.c + dir.2⟩ : Cell) := rfl
      rw [he]
      omega
  calc (d2.foldl (aStarRelaxDir m e x gCur)
        (aStarRelaxDir m e x gCur st1 dir)).g z
      ≤ (aStarRelaxDir m e x gCur st1 dir).g z :=
        foldlPres (P := fun (st2 : AStarState) => st2.g z ≤
          (aStarRelaxDir m e x gCur st1 dir).g z) d2 _
          (fun st2 dir' _ h2 =>
            le_trans (aStarRelaxDir_g_mono m e x gCur st2 dir' z) h2)
          (le_refl _)
    _ ≤ gCur + 1 := hone

theorem aStarRelaxDir_measure (m : GridModel) (e x : Cell) (gCur : Int)
    (st : AStarState) (dir : Int × Int) (hd0 : 0 ≤ gCur) :
    aStarMeasure m (aStarRelaxDir m e x gCur st dir) ≤ aStarMeasure m st := by
  rcases aStarRelaxDir_cases m e x gCur st dir with heq | ⟨hgy, _, hlt, heq⟩
  · rw [heq]
  · rw [heq]
    unfold aStarMeasure
    dsimp only
    rw [List.length_append, List.length_singleton]
    have hsum := sum_toNat_update m st.g (nbr x dir) hgy (gCur + 1)
      (by omega) hlt
    omega

theorem aStarStep_measure (m : GridModel) (e x : Cell) (gCur : Int)
    (st : AStarState) (hd0 : 0 ≤ gCur) :
    aStarMeasure m (aStarStep m e x gCur st) ≤ aStarMeasure m st := by
  unfold aStarStep
  exact foldlPres (P := fun (st2 : AStarState) =>
    aStarMeasure m st2 ≤ aStarMeasure m st) DIRS st
    (fun st2 dir _ h2 =>
      le_trans (aStarRelaxDir_measure m e x gCur st2 dir hd0) h2)
    (le_refl _)

/-- The A* queue-or-bounded claim, tracking the remaining walk from the
frontier entry. -/
theorem aStar_claim (m : GridModel) (s e : Cell) (st : AStarState)
    (h : AStarC m s e st) :
    ∀ (n : Nat) (x : Cell), (n : Int) < INF → reachN m s n x →
      st.g x ≤ (n : Int) ∨
      ∃ ent ∈ st.pq, ∃ (a b : Nat), a + b = n ∧ ent.g ≤ (a : Int) ∧
        reachN m ⟨ent.r, ent.c⟩ b x := by
  obtain ⟨hLB, hENT, hQ, hS0⟩ := h
  intro n
  induction n with
  | zero =>
    intro x _ hr
    rw [reachN] at hr
    rw [hr]
    left
    rw [hS0]
    omega
  | succ n ih =>
    intro x hINF hr
    obtain ⟨y, hy, hstep⟩ := hr
    rcases ih y (by push_cast at hINF ⊢; omega) hy with hly |
      ⟨ent, hmem, a, b, hab, hga, hrw⟩
    · have hyfin : st.g y < INF := by
        push_cast at hINF hly
        omega
      rcases hQ y hyfin with ⟨ent, hmem, hcell, hgy⟩ | hclose
      · refine Or.inr ⟨ent, hmem, n, 1, by omega, ?_, ?_⟩
        · rw [hgy]
          push_cast at hly ⊢
          omega
        · refine reachN_single m _ _ ?_
          rw [hcell]
          exact hstep
      · refine Or.inl ?_
        have := hclose x hstep
        push_cast at hly ⊢
        omega
    · exact Or.inr ⟨ent, hmem, a, b + 1, by omega, hga, ⟨y, hrw, hstep⟩⟩

theorem aStarLe_total : ∀ a b : PQA,
    aStarLe a b = true ∨ aStarLe b a = true := by
  intro a b
  unfold aStarLe
  simp only [decide_eq_true_eq]
  omega

theorem aStarLe_trans : ∀ a b c : PQA, aStarLe a b = true →
    aStarLe b c = true → aStarLe a c = true := by
  intro a b c
  unfold aStarLe
  simp only [decide_eq_true_eq]
  omega

theorem aStarLe_f_le (a b : PQA) (h : aStarLe a b = true) : a.f ≤ b.f := by
  unfold aStarLe at h
  simp only [decide_eq_true_eq] at h
  omega

/-- Popping the sorted A* head and relaxing restores the full
invariant. -/
theorem aStarPopStep_C (m : GridModel) (s e : Cell) (st : AStarState)
    (top : PQA) (rest : List PQA)
    (hsort : sortStable aStarLe st.pq = top :: rest)
    (hC : AStarC m s e st) :
    AStarC m s e (aStarStep m e ⟨top.r, top.c⟩ top.g
      { st with pq := rest, popped := st.popped ++ [⟨top.r, top.c⟩] }) := by
  obtain ⟨hLB, hENT, hQ, hS0⟩ := hC
  have hmin := sortStable_head_min aStarLe aStarLe_total aStarLe_trans
    st.pq top rest hsort
  have htopmem : top ∈ st.pq := by
    rw [← mem_sortStable aStarLe top st.pq, hsort]
    exact List.mem_cons_self _ _
  obtain ⟨htd1, htd0, htdINF, htg, htreach, htf⟩ := hENT top htopmem
  have hrestmem : ∀ ent ∈ rest, ent ∈ st.pq := by
    intro ent hent
    rw [← mem_sortStable aStarLe ent st.pq, hsort]
    exact List.mem_cons_of_mem _ hent
  have hCx : AStarCexc m s e ⟨top.r, top.c⟩
      { st with pq := rest, popped := st.popped ++ [⟨top.r, top.c⟩] } := by
    refine ⟨hLB, ?_, ?_, hS0⟩
    · intro ent hent
      exact hENT ent (hrestmem ent hent)
    · intro y hyexc hy
      rcases hQ y hy with ⟨ent, hmem, hcell, hd⟩ | hclose
      · rw [← mem_sortStable aStarLe ent st.pq, hsort,
          List.mem_cons] at hmem
        rcases hmem with hmem | hmem
        · exfalso
          rw [hmem] at hcell
          exact hyexc hcell.symm
        · exact Or.inl ⟨ent, hmem, hcell, hd⟩
      · exact Or.inr hclose
  have hC2 := aStarStep_Cexc m s e ⟨top.r, top.c⟩ ⟨top.r, top.c⟩ top.g _
    htd0 htreach htg hCx
  obtain ⟨hLB2, hENT2, hQ2, hS02⟩ := hC2
  refine ⟨hLB2, hENT2, ?_, hS02⟩
  intro y hy
  by_cases hyt : y = (⟨top.r, top.c⟩ : Cell)
  · subst hyt
    refine Or.inr ?_
    intro z hz
    have hz2 := aStarStep_relax m e (⟨top.r, top.c⟩ : Cell) top.g
      { st with pq := rest, popped := st.popped ++ [⟨top.r, top.c⟩] } z hz
    have hself := aStarStep_g_self m e (⟨top.r, top.c⟩ : Cell) top.g
      { st with pq := rest, popped := st.popped ++ [⟨top.r, top.c⟩] }
    rw [hself]
    show _ ≤ st.g (⟨top.r, top.c⟩ : Cell) + 1
    rcases hQ (⟨top.r, top.c⟩ : Cell) (by rw [hself] at hy; exact hy) with
      ⟨ent, hmem, hcell, hd⟩ | hclose
    · have hmle := hmin ent hmem
      obtain ⟨e1, e2, e3, e4, e5, e6⟩ := hENT ent hmem
      have hcoords : ent.r = top.r ∧ ent.c = top.c := by
        rw [Cell.mk.injEq] at hcell
        exact hcell
      have htopg : st.g (⟨top.r, top.c⟩ : Cell) = top.g := by
        unfold aStarLe at hmle
        simp only [decide_eq_true_eq] at hmle
        rw [htf, e6, hcoords.1, hcoords.2] at hmle
        omega
      rw [htopg]
      exact hz2
    · calc (aStarStep m e (⟨top.r, top.c⟩ : Cell) top.g
            { st with
              pq := rest
              popped := st.popped ++ [⟨top.r, top.c⟩] }).g z
          ≤ st.g z := aStarStep_g_mono m e _ _ _ z
        _ ≤ st.g (⟨top.r, top.c⟩ : Cell) + 1 := hclose z hz
  · exact hQ2 y hyt hy

theorem aStarLoop_correct (m : GridModel) (s e : Cell) :
    ∀ (fuel : Nat) (st : AStarState), AStarC m s e st →
      aStarMeasure m st < fuel →
      (∀ x, 0 ≤ (aStarLoop m e fuel st).g x ∧
        (aStarLoop m e fuel st).g x ≤ INF ∧
        ((aStarLoop m e fuel st).g x < INF →
          reachN m s ((aStarLoop m e fuel st).g x).toNat x)) ∧
      (∀ (n : Nat), (n : Int) < INF → reachN m s n e →
        (aStarLoop m e fuel st).g e ≤ (n : Int)) := by
  intro fuel
  induction fuel with
  | zero => intro st _ hM; omega
  | succ fuel ih =>
    intro st hC hM
    cases hsort : sortStable aStarLe st.pq with
    | nil =>
      rw [aStarLoop, hsort]
      have hpqnil : st.pq = [] := sortStable_eq_nil _ _ hsort
      refine ⟨hC.1, ?_⟩
      intro n hINF hr
      rcases aStar_claim m s e st hC n e hINF hr with h | ⟨ent, hmem, _⟩
      · exact h
      · rw [hpqnil] at hmem
        cases hmem
    | cons top rest =>
      rw [aStarLoop, hsort]
      dsimp only
      have hmin := sortStable_head_min aStarLe aStarLe_total aStarLe_trans
        st.pq top rest hsort
      have htopmem : top ∈ st.pq := by
        rw [← mem_sortStable aStarLe top st.pq, hsort]
        exact List.mem_cons_self _ _
      obtain ⟨htd1, htd0, htdINF, htg, htreach, htf⟩ := hC.2.1 top htopmem
      have hlen : st.pq.length = rest.length + 1 := by
        have := sortStable_length aStarLe st.pq
        rw [hsort] at this
        rw [← this, List.length_cons]
      by_cases hend : top.r = e.r ∧ top.c = e.c
      · rw [if_pos hend]
        have hcelle : (⟨top.r, top.c⟩ : Cell) = e := by
          rw [hend.1, hend.2]
        refine ⟨hC.1, ?_⟩
        intro n hINF hr
        rcases aStar_claim m s e st hC n e hINF hr with h |
          ⟨ent, hmem, a, b, hab, hga, hrw⟩
        · exact h
        · have hment := aStarLe_f_le top ent (hmin ent hmem)
          obtain ⟨_, _, _, _, _, e6⟩ := hC.2.1 ent hmem
          have hman : manhattan e ent.r ent.c ≤ (b : Int) :=
            manhattan_le_reach m ⟨ent.r, ent.c⟩ b e hrw
          have hman0 : manhattan e top.r top.c = 0 := by
            rw [hend.1, hend.2]
            exact manhattan_self e
          have habi : ((a : Int) + (b : Int)) = (n : Int) := by
            push_cast
            omega
          show st.g e ≤ (n : Int)
          rw [← hcelle]
          omega
      · rw [if_neg hend]
        have hC2 := aStarPopStep_C m s e st top rest hsort hC
        have hM1 : aStarMeasure m { st with
            pq := rest
            popped := st.popped ++ [⟨top.r, top.c⟩] } + 1
            = aStarMeasure m st := by
          unfold aStarMeasure
          dsimp only
          omega
        have hM2 := aStarStep_measure m e (⟨top.r, top.c⟩ : Cell) top.g
          { st with
            pq := rest
            popped := st.popped ++ [⟨top.r, top.c⟩] } htd0
        exact ih _ hC2 (by omega)

/-- The initial A* state satisfies the invariant. -/
theorem aStarInit_C (m : GridModel) (s e : Cell) (hs : inGrid m s) :
    AStarC m s e (aStarInit e s) := by
  unfold aStarInit
  refine ⟨?_, ?_, ?_, ?_⟩
  · intro x
    dsimp only
    by_cases hx : x = s
    · rw [hx, Function.update_same]
      exact ⟨le_refl _, by unfold INF; omega, fun _ => rfl⟩
    · rw [Function.update_noteq hx]
      exact ⟨by unfold INF; omega, le_refl _,
        fun hc => absurd hc (lt_irrefl _)⟩
  · intro ent hent
    dsimp only at hent
    rw [List.mem_singleton] at hent
    subst hent
    dsimp only
    have hcell : (⟨s.r, s.c⟩ : Cell) = s := rfl
    rw [hcell, Function.update_same]
    refine ⟨le_refl _, le_refl _, by unfold INF; omega, hs, rfl, ?_⟩
    omega
  · intro y hy
    dsimp only at hy ⊢
    by_cases hys : y = s
    · refine Or.inl ⟨⟨s.r, s.c, manhattan e s.r s.c, 0⟩,
        List.mem_singleton.mpr rfl, ?_, ?_⟩
      · show (⟨s.r, s.c⟩ : Cell) = y
        rw [hys]
      · rw [hys]
        show (0 : Int) = Function.update (fun _ => INF) s 0 s
        rw [Function.update_same]
    · rw [Function.update_noteq hys] at hy
      exact absurd hy (lt_irrefl _)
  · dsimp only
    rw [Function.update_same]

/-- The initial A* measure fits inside the fuel. -/
theorem aStarInit_measure (m : GridModel) (s e : Cell) :
    aStarMeasure m (aStarInit e s) < gridFuel m := by
  unfold aStarMeasure aStarInit gridFuel
  dsimp only
  have h1 : ∀ x ∈ gridFinset m,
      ((Function.update (fun _ => INF) s 0 : Cell → Int) x).toNat
        ≤ 1000000000 := by
    intro x _
    by_cases hx : x = s
    · rw [hx, Function.update_same]
      omega
    · rw [Function.update_noteq hx]
      unfold INF
      omega
  have h2 := Finset.sum_le_sum h1
  rw [Finset.sum_const, smul_eq_mul, card_gridFinset] at h2
  have h3 : ([⟨s.r, s.c, manhattan e s.r s.c, 0⟩] : List PQA).length = 1 :=
    rfl
  rw [h3]
  omega

/-- A*'s final `g` table: achievable distances, and the end entry
undercuts every walk below the sentinel. -/
theorem aStarFinal_correct (m : GridModel) (s e : Cell) (hs : inGrid m s) :
    (∀ x, 0 ≤ (aStarFinal m s e).g x ∧ (aStarFinal m s e).g x ≤ INF ∧
      ((aStarFinal m s e).g x < INF →
        reachN m s ((aStarFinal m s e).g x).toNat x)) ∧
    (∀ (n : Nat), (n : Int) < INF → reachN m s n e →
      (aStarFinal m s e).g e ≤ (n : Int)) := by
  unfold aStarFinal
  exact aStarLoop_correct m s e (gridFuel m) (aStarInit e s)
    (aStarInit_C m s e hs) (aStarInit_measure m s e)

/-! ### Exact path lengths: the reconstruction walks realise the distance -/

/-- Along a predecessor chain the distance drops by at least one per
link. -/
theorem prevChain_dist (dist : Cell → Int) (prev : Cell → Option Cell)
    (hd : ∀ x p, prev x = some p → dist p < dist x) :
    ∀ (l : List Cell) (x z : Cell),
      List.Chain' (fun a b => prev a = some b) l →
      l.head? = some x → l.getLast? = some z →
      dist z + l.length ≤ dist x + 1 := by
  intro l
  induction l with
  | nil => intro x z _ hh _; cases hh
  | cons a t ih =>
    intro x z hchain hh hl
    rw [List.head?_cons] at hh
    injection hh with hh
    rw [← hh]
    cases t with
    | nil =>
      have hz : a = z := by
        rw [List.getLast?_singleton] at hl
        injection hl
      rw [hz]
      rw [List.length_singleton]
      push_cast
      omega
    | cons b t =>
      rw [List.chain'_cons] at hchain
      rw [List.getLast?_cons_cons] at hl
      have hih := ih b z hchain.2 rfl hl
      have hlt := hd a b hchain.1
      simp only [List.length_cons] at hih ⊢
      push_cast at hih ⊢
      omega

/-- A predecessor chain ending at the start is a reversed genuine walk:
its head is reachable in one step fewer than its cell count. -/
theorem prevChain_reach (m : GridModel) (s : Cell) (dist : Cell → Int)
    (prev : Cell → Option Cell) (hok : PrevOK m s dist prev) :
    ∀ (l : List Cell) (x : Cell),
      List.Chain' (fun a b => prev a = some b) l →
      l.head? = some x → l.getLast? = some s → inGrid m x →
      reachN m s (l.length - 1) x := by
  intro l
  induction l with
  | nil => intro x _ hh _ _; cases hh
  | cons a t ih =>
    intro x hchain hh hl hxg
    rw [List.head?_cons] at hh
    injection hh with hh
    rw [← hh] at hxg ⊢
    cases t with
    | nil =>
      have hz : a = s := by
        rw [List.getLast?_singleton] at hl
        injection hl
      rw [List.length_singleton]
      rw [hz]
      exact reachN_self m s
    | cons b t =>
      rw [List.chain'_cons] at hchain
      rw [List.getLast?_cons_cons] at hl
      obtain ⟨hlt, hbg, hadj, hwall⟩ := hok.1 a b hchain.1
      have hih := ih b hchain.2 rfl hl hbg
      have hstep : gStep m b a := ⟨hbg, hxg, hadj, hwall⟩
      have hcomp := reachN_compose m s b ((b :: t).length - 1) 1 a hih
        (reachN_single m b a hstep)
      simp only [List.length_cons] at hcomp ⊢
      have hln : t.length + 1 - 1 + 1 = t.length + 1 + 1 - 1 := by omega
      rw [hln] at hcomp
      exact hcomp

/-- Two values that each lie in `[0, INF]`, are achievable walk lengths
when finite, and undercut every finite walk length, must coincide. -/
theorem distAgree (m : GridModel) (s e : Cell) (d1 d2 : Int)
    (h1b : 0 ≤ d1 ∧ d1 ≤ INF) (h1r : d1 < INF → reachN m s d1.toNat e)
    (h1u : ∀ n : Nat, (n : Int) < INF → reachN m s n e → d1 ≤ (n : Int))
    (h2b : 0 ≤ d2 ∧ d2 ≤ INF) (h2r : d2 < INF → reachN m s d2.toNat e)
    (h2u : ∀ n : Nat, (n : Int) < INF → reachN m s n e → d2 ≤ (n : Int)) :
    d1 = d2 := by
  by_cases hd1 : d1 < INF
  · have hr1 := h1r hd1
    have hu2 := h2u d1.toNat (by rw [Int.toNat_of_nonneg h1b.1]; exact hd1)
      hr1
    rw [Int.toNat_of_nonneg h1b.1] at hu2
    have hd2 : d2 < INF := by omega
    have hr2 := h2r hd2
    have hu1 := h1u d2.toNat (by rw [Int.toNat_of_nonneg h2b.1]; exact hd2)
      hr2
    rw [Int.toNat_of_nonneg h2b.1] at hu1
    omega
  · by_cases hd2 : d2 < INF
    · have hr2 := h2r hd2
      have hu1 := h1u d2.toNat
        (by rw [Int.toNat_of_nonneg h2b.1]; exact hd2) hr2
      rw [Int.toNat_of_nonneg h2b.1] at hu1
      omega
    · omega

/-- The main Floyd-Warshall walk is a genuine walk whose pushed cell count
is bounded by the recorded distance. -/
theorem fwPathLoop_len (m : GridModel) (sv : Nat) (st : FWState)
    (endV : Nat) (hP : FWP m sv st) :
    ∀ (N v fuel : Nat), fwCard m st.dist endV v ≤ N →
      v < fwV m → st.dist (v, endV) < INF →
      fwCard m st.dist endV v ≤ fuel →
      ((fwPathLoop m st.next endV fuel (some v)).length : Int)
          ≤ st.dist (v, endV) ∧
      reachN m (fwRC m v) (fwPathLoop m st.next endV fuel (some v)).length
        (fwRC m endV) := by
  intro N
  induction N with
  | zero =>
    intro v fuel hN hv _ _
    have := fwCard_pos m st.dist endV v hv
    omega
  | succ N ih =>
    intro v fuel hN hv hfin hfuel
    have hpos := fwCard_pos m st.dist endV v hv
    cases fuel with
    | zero => omega
    | succ f =>
      rw [fwPathLoop]
      by_cases hve : v = endV
      · rw [if_pos hve]
        constructor
        · rw [List.length_nil]
          push_cast
          exact hP.1.1 (v, endV)
        · rw [hve]
          exact reachN_self m (fwRC m endV)
      · obtain ⟨u, ⟨hnext, huV, hadj, hw⟩, hstrong⟩ := hP.2 v endV hve hfin
        have hufin : st.dist (u, endV) < INF := by omega
        have hcard := fwCard_lt m st.dist endV v u hv (by omega)
        obtain ⟨ih1, ih2⟩ := ih u f (by omega) huV hufin (by omega)
        rw [if_neg hve, hnext]
        constructor
        · rw [List.length_cons]
          push_cast at ih1 ⊢
          omega
        · unfold fwNonwall at hw
          have hstep : gStep m (fwRC m v) (fwRC m u) :=
            ⟨fwRC_inGrid m hv, fwRC_inGrid m huV, hadj, hw⟩
          have hcomp := reachN_compose m (fwRC m v) (fwRC m u) 1 _
            (fwRC m endV) (reachN_single m _ _ hstep) ih2
          rw [List.length_cons]
          rw [Nat.add_comm] at hcomp
          exact hcomp

/-- Dijkstra's returned path length realises the end distance. -/
theorem dij_len_char (m : GridModel) (s e : Cell)
    (hms : m.start = some s) (hme : m.endp = some e)
    (hs : inGrid m s) (he : inGrid m e) :
    ∃ d : Int, (0 ≤ d ∧ d ≤ INF) ∧ (d < INF → reachN m s d.toNat e) ∧
      (∀ n : Nat, (n : Int) < INF → reachN m s n e → d ≤ (n : Int)) ∧
      ((d = INF ∧ (dijShortestPath m).path = []) ∨
        (d < INF ∧ ((dijShortestPath m).path.length : Int) = d + 1)) := by
  obtain ⟨hok, hpq, hbounds, hpop, hs0, hsp⟩ := dijFinal_inv m s e hs
  obtain ⟨hcb, hcu⟩ := dijFinal_correct m s e hs
  refine ⟨(dijFinal m s e).dist e, ⟨(hcb e).1, (hcb e).2.1⟩,
    (hcb e).2.2, hcu, ?_⟩
  unfold dijShortestPath
  rw [hms, hme]
  dsimp only
  by_cases hINF : (dijFinal m s e).dist e = INF
  · rw [if_pos hINF]
    exact Or.inl ⟨hINF, rfl⟩
  · rw [if_neg hINF]
    have hef : (dijFinal m s e).dist e < INF :=
      lt_of_le_of_ne (hcb e).2.1 hINF
    refine Or.inr ⟨hef, ?_⟩
    dsimp only
    have hfuel : distCard m (dijFinal m s e).dist e ≤ walkFuel m := by
      have := distCard_le m (dijFinal m s e).dist e
      unfold walkFuel
      omega
    obtain ⟨hlast, hhead, hlen, hchain, hmem⟩ :=
      walkChain_spec m s (dijFinal m s e).dist (dijFinal m s e).prev hok
        (distCard m (dijFinal m s e).dist e) e (walkFuel m) (le_refl _)
        he hef hfuel
    have hub := prevChain_dist (dijFinal m s e).dist (dijFinal m s e).prev
      (fun x p hp => (hok.1 x p hp).1) _ e s hchain hhead hlast
    have hr := prevChain_reach m s (dijFinal m s e).dist
      (dijFinal m s e).prev hok _ e hchain hhead hlast he
    have hpos :
        1 ≤ (walkChain (dijFinal m s e).prev (walkFuel m) e).length := by
      cases hl : walkChain (dijFinal m s e).prev (walkFuel m) e with
      | nil => rw [hl] at hhead; cases hhead
      | cons a t => rw [List.length_cons]; omega
    have hns : 0 ≤ (dijFinal m s e).dist s := (hcb s).1
    have hcast :
        (((walkChain (dijFinal m s e).prev (walkFuel m) e).length - 1 : Nat)
          : Int)
        = ((walkChain (dijFinal m s e).prev (walkFuel m) e).length : Int)
          - 1 := by
      omega
    have hdle := hcu
      ((walkChain (dijFinal m s e).prev (walkFuel m) e).length - 1)
      (by omega) hr
    rw [List.length_reverse]
    omega

/-- A*'s returned path length realises the end `g`-distance. -/
theorem aStar_len_char (m : GridModel) (s e : Cell)
    (hms : m.start = some s) (hme : m.endp = some e)
    (hs : inGrid m s) (he : inGrid m e) :
    ∃ d : Int, (0 ≤ d ∧ d ≤ INF) ∧ (d < INF → reachN m s d.toNat e) ∧
      (∀ n : Nat, (n : Int) < INF → reachN m s n e → d ≤ (n : Int)) ∧
      ((d = INF ∧ (aStarShortestPath m).path = []) ∨
        (d < INF ∧ ((aStarShortestPath m).path.length : Int) = d + 1)) := by
  obtain ⟨hok, hpq, hbounds, hpop, hs0, hsp⟩ := aStarFinal_inv m s e hs
  obtain ⟨hcb, hcu⟩ := aStarFinal_correct m s e hs
  refine ⟨(aStarFinal m s e).g e, ⟨(hcb e).1, (hcb e).2.1⟩,
    (hcb e).2.2, hcu, ?_⟩
  unfold aStarShortestPath
  rw [hms, hme]
  dsimp only
  by_cases hINF : (aStarFinal m s e).g e = INF
  · rw [if_pos hINF]
    exact Or.inl ⟨hINF, rfl⟩
  · rw [if_neg hINF]
    have hef : (aStarFinal m s e).g e < INF :=
      lt_of_le_of_ne (hcb e).2.1 hINF
    refine Or.inr ⟨hef, ?_⟩
    dsimp only
    have hfuel : distCard m (aStarFinal m s e).g e ≤ walkFuel m := by
      have := distCard_le m (aStarFinal m s e).g e
      unfold walkFuel
      omega
    obtain ⟨hlast, hhead, hlen, hchain, hmem⟩ :=
      walkChain_spec m s (aStarFinal m s e).g (aStarFinal m s e).prev hok
        (distCard m (aStarFinal m s e).g e) e (walkFuel m) (le_refl _)
        he hef hfuel
    have hub := prevChain_dist (aStarFinal m s e).g (aStarFinal m s e).prev
      (fun x p hp => (hok.1 x p hp).1) _ e s hchain hhead hlast
    have hr := prevChain_reach m s (aStarFinal m s e).g
      (aStarFinal m s e).prev hok _ e hchain hhead hlast he
    have hpos :
        1 ≤ (walkChain (aStarFinal m s e).prev (walkFuel m) e).length := by
      cases hl : walkChain (aStarFinal m s e).prev (walkFuel m) e with
      | nil => rw [hl] at hhead; cases hhead
      | cons a t => rw [List.length_cons]; omega
    have hns : 0 ≤ (aStarFinal m s e).g s := (hcb s).1
    have hcast :
        (((walkChain (aStarFinal m s e).prev (walkFuel m) e).length - 1
          : Nat) : Int)
        = ((walkChain (aStarFinal m s e).prev (walkFuel m) e).length : Int)
          - 1 := by
      omega
    have hdle := hcu
      ((walkChain (aStarFinal m s e).prev (walkFuel m) e).length - 1)
      (by omega) hr
    rw [List.length_reverse]
    omega

/-- Bellman-Ford's returned path length realises the end distance. -/
theorem bf_len_char (m : GridModel) (s e : Cell)
    (hms : m.start = some s) (hme : m.endp = some e)
    (hs : inGrid m s) (he : inGrid m e) :
    ∃ d : Int, (0 ≤ d ∧ d ≤ INF) ∧ (d < INF → reachN m s d.toNat e) ∧
      (∀ n : Nat, (n : Int) < INF → reachN m s n e → d ≤ (n : Int)) ∧
      ((d = INF ∧ (bellmanFordShortestPath m).path = []) ∨
        (d < INF ∧
          ((bellmanFordShortestPath m).path.length : Int) = d + 1)) := by
  obtain ⟨hok, hbounds, hvis, hs0, hsp⟩ := bfFinal_inv m s
  have hcb := bfFinal_reach m s
  have hcu : ∀ n : Nat, (n : Int) < INF → reachN m s n e →
      (bfFinal m s).dist e ≤ (n : Int) := by
    intro n hINF hr
    exact bf_dist_le m s hs e n hr hINF
  refine ⟨(bfFinal m s).dist e, ⟨(hcb e).1, (hcb e).2.1⟩,
    (hcb e).2.2, hcu, ?_⟩
  unfold bellmanFordShortestPath
  rw [hms, hme]
  dsimp only
  by_cases hINF : (bfFinal m s).dist e = INF
  · rw [if_pos hINF]
    exact Or.inl ⟨hINF, rfl⟩
  · rw [if_neg hINF]
    have hef : (bfFinal m s).dist e < INF :=
      lt_of_le_of_ne (hcb e).2.1 hINF
    refine Or.inr ⟨hef, ?_⟩
    dsimp only
    have hfuel : distCard m (bfFinal m s).dist e ≤ walkFuel m := by
      have := distCard_le m (bfFinal m s).dist e
      unfold walkFuel
      omega
    obtain ⟨hlast, hhead, hlen, hchain, hmem⟩ :=
      walkChain_spec m s (bfFinal m s).dist (bfFinal m s).prev hok
        (distCard m (bfFinal m s).dist e) e (walkFuel m) (le_refl _)
        he hef hfuel
    have hub := prevChain_dist (bfFinal m s).dist (bfFinal m s).prev
      (fun x p hp => (hok.1 x p hp).1) _ e s hchain hhead hlast
    have hr := prevChain_reach m s (bfFinal m s).dist
      (bfFinal m s).prev hok _ e hchain hhead hlast he
    have hpos : 1 ≤ (walkChain (bfFinal m s).prev (walkFuel m) e).length := by
      cases hl : walkChain (bfFinal m s).prev (walkFuel m) e with
      | nil => rw [hl] at hhead; cases hhead
      | cons a t => rw [List.length_cons]; omega
    have hns : 0 ≤ (bfFinal m s).dist s := (hcb s).1
    have hcast :
        (((walkChain (bfFinal m s).prev (walkFuel m) e).length - 1 : Nat)
          : Int)
        = ((walkChain (bfFinal m s).prev (walkFuel m) e).length : Int)
          - 1 := by
      omega
    have hdle := hcu
      ((walkChain (bfFinal m s).prev (walkFuel m) e).length - 1)
      (by omega) hr
    rw [List.length_reverse]
    omega

/-- Floyd-Warshall's returned path length realises the recorded
start-to-end distance. -/
theorem fw_len_char (m : GridModel) (s e : Cell)
    (hms : m.start = some s) (hme : m.endp = some e)
    (hs : inGrid m s) (he : inGrid m e) :
    ∃ d : Int, (0 ≤ d ∧ d ≤ INF) ∧ (d < INF → reachN m s d.toNat e) ∧
      (∀ n : Nat, (n : Int) < INF → reachN m s n e → d ≤ (n : Int)) ∧
      ((d = INF ∧ (floydWarsShortestPath m).path = []) ∨
        (d < INF ∧
          ((floydWarsShortestPath m).path.length : Int) = d + 1)) := by
  have hsV := fwIdx_start_lt m s hs
  have heV := fwIdx_start_lt m e he
  have hrs := fwRC_start m s hs
  have hre := fwRC_start m e he
  have hP := fwRun_P m (fwIdx m s.r.toNat s.c.toNat) (fwInit m)
    (fwInit_P m (fwIdx m s.r.toNat s.c.toNat))
  have hreach := fwRun_reach m (fwIdx m s.r.toNat s.c.toNat) (fwInit m)
    ⟨fun q => ⟨(fwInit_P m (fwIdx m s.r.toNat s.c.toNat)).1.1 q,
      fwInit_ub m q⟩, fwInit_reach m⟩
  refine ⟨(fwRun m (fwIdx m s.r.toNat s.c.toNat) (fwInit m)).dist
    (fwIdx m s.r.toNat s.c.toNat, fwIdx m e.r.toNat e.c.toNat),
    hreach.1 _, ?_, ?_, ?_⟩
  · intro hfin
    obtain ⟨_, _, hr⟩ := hreach.2 _ _ hfin
    rw [hrs, hre] at hr
    exact hr
  · intro n hINF hr
    exact fw_dist_le m s e hs he n hr hINF
  · unfold floydWarsShortestPath
    rw [hms, hme]
    dsimp only
    by_cases hINF : (fwRun m (fwIdx m s.r.toNat s.c.toNat)
        (fwInit m)).dist
        (fwIdx m s.r.toNat s.c.toNat, fwIdx m e.r.toNat e.c.toNat) = INF
    · rw [if_pos hINF]
      exact Or.inl ⟨hINF, rfl⟩
    · rw [if_neg hINF]
      have hef : (fwRun m (fwIdx m s.r.toNat s.c.toNat) (fwInit m)).dist
          (fwIdx m s.r.toNat s.c.toNat, fwIdx m e.r.toNat e.c.toNat)
          < INF := lt_of_le_of_ne (hP.1.2.1 _) hINF
      refine Or.inr ⟨hef, ?_⟩
      dsimp only
      have hfuel : fwCard m
          (fwRun m (fwIdx m s.r.toNat s.c.toNat) (fwInit m)).dist
          (fwIdx m e.r.toNat e.c.toNat) (fwIdx m s.r.toNat s.c.toNat)
          ≤ walkFuel m := by
        have h1 := fwCard_le m
          (fwRun m (fwIdx m s.r.toNat s.c.toNat) (fwInit m)).dist
          (fwIdx m e.r.toNat e.c.toNat) (fwIdx m s.r.toNat s.c.toNat)
        unfold walkFuel
        unfold fwV at h1
        omega
      obtain ⟨hlb, hr⟩ := fwPathLoop_len m (fwIdx m s.r.toNat s.c.toNat)
        (fwRun m (fwIdx m s.r.toNat s.c.toNat) (fwInit m))
        (fwIdx m e.r.toNat e.c.toNat) hP
        (fwCard m (fwRun m (fwIdx m s.r.toNat s.c.toNat) (fwInit m)).dist
          (fwIdx m e.r.toNat e.c.toNat) (fwIdx m s.r.toNat s.c.toNat))
        (fwIdx m s.r.toNat s.c.toNat) (walkFuel m) (le_refl _) hsV hef
        hfuel
      rw [hrs, hre] at hr
      have hINF2 : (((fwPathLoop m
          (fwRun m (fwIdx m s.r.toNat s.c.toNat) (fwInit m)).next
          (fwIdx m e.r.toNat e.c.toNat) (walkFuel m)
          (some (fwIdx m s.r.toNat s.c.toNat))).length : Nat) : Int)
          < INF := by
        omega
      have hdle := fw_dist_le m s e hs he _ hr hINF2
      rw [List.length_append, List.length_singleton]
      push_cast
      omega

/-- Two paths whose lengths realise equal distance values have equal
lengths. -/
theorem lenAgree (li lj : List Cell) (di dj : Int) (hd : di = dj)
    (hi : (di = INF ∧ li = []) ∨ (di < INF ∧ (li.length : Int) = di + 1))
    (hj : (dj = INF ∧ lj = []) ∨ (dj < INF ∧ (lj.length : Int) = dj + 1)) :
    li.length = lj.length := by
  rcases hi with ⟨hi1, hi2⟩ | ⟨hi1, hi2⟩ <;>
    rcases hj with ⟨hj1, hj2⟩ | ⟨hj1, hj2⟩
  · rw [hi2, hj2]
  · omega
  · omega
  · omega

/-- C1: For every grid snapshot with start and end set (to in-bounds
cells), the four grid algorithms return paths of identical length: either
all four paths are empty, or all four are non-empty with the same number
of cells. -/
theorem four_path_lengths_equal (m : GridModel) (s e : Cell)
    (hms : m.start = some s) (hme : m.endp = some e)
    (hs : inGrid m s) (he : inGrid m e) :
    (dijShortestPath m).path.length = (aStarShortestPath m).path.length ∧
    (dijShortestPath m).path.length =
      (bellmanFordShortestPath m).path.length ∧
    (dijShortestPath m).path.length =
      (floydWarsShortestPath m).path.length := by
  obtain ⟨d1, h1b, h1r, h1u, h1p⟩ := dij_len_char m s e hms hme hs he
  obtain ⟨d2, h2b, h2r, h2u, h2p⟩ := aStar_len_char m s e hms hme hs he
  obtain ⟨d3, h3b, h3r, h3u, h3p⟩ := bf_len_char m s e hms hme hs he
  obtain ⟨d4, h4b, h4r, h4u, h4p⟩ := fw_len_char m s e hms hme hs he
  have e12 := distAgree m s e d1 d2 h1b h1r h1u h2b h2r h2u
  have e13 := distAgree m s e d1 d3 h1b h1r h1u h3b h3r h3u
  have e14 := distAgree m s e d1 d4 h1b h1r h1u h4b h4r h4u
  exact ⟨lenAgree _ _ d1 d2 e12 h1p h2p, lenAgree _ _ d1 d3 e13 h1p h3p,
    lenAgree _ _ d1 d4 e14 h1p h4p⟩

theorem four_path_lengths_equal_witness :
    mOpenC1.start = some ⟨0, 0⟩ ∧ mOpenC1.endp = some ⟨0, 1⟩ ∧
    inGrid mOpenC1 ⟨0, 0⟩ ∧ inGrid mOpenC1 ⟨0, 1⟩ ∧
    ((dijShortestPath mOpenC1).path.length =
        (aStarShortestPath mOpenC1).path.length ∧
      (dijShortestPath mOpenC1).path.length =
        (bellmanFordShortestPath mOpenC1).path.length ∧
      (dijShortestPath mOpenC1).path.length =
        (floydWarsShortestPath mOpenC1).path.length) :=
  ⟨rfl, rfl, by decide, by decide,
    four_path_lengths_equal mOpenC1 ⟨0, 0⟩ ⟨0, 1⟩ rfl rfl (by decide)
      (by decide)⟩

/-- In a wall-free grid the axis staircase realises the Manhattan
distance as a walk. -/
theorem manhattan_reach (m : GridModel) (e : Cell) (he : inGrid m e)
    (hw : ∀ r c, m.isWall r c = false) :
    ∀ (n : Nat) (s : Cell), inGrid m s → manhattan e s.r s.c = (n : Int) →
      reachN m s n e := by
  intro n
  induction n with
  | zero =>
    intro s hs hman
    unfold manhattan at hman
    have hse : e = s := by
      obtain ⟨sr, sc⟩ := s
      obtain ⟨er, ec⟩ := e
      rw [Cell.mk.injEq]
      dsimp only at hman
      omega
    exact hse
  | succ n ih =>
    intro s hs hman
    have hs1 := hs.1
    have hs2 := hs.2.1
    have hs3 := hs.2.2.1
    have hs4 := hs.2.2.2
    have he1 := he.1
    have he2 := he.2.1
    have he3 := he.2.2.1
    have he4 := he.2.2.2
    unfold manhattan at hman
    have key : ∀ dir ∈ DIRS, inGrid m (nbr s dir) →
        manhattan e (nbr s dir).r (nbr s dir).c = (n : Int) →
        reachN m s (n + 1) e := by
      intro dir hdir hg hm
      have hstep : gStep m s (nbr s dir) := ⟨hs, hg, ⟨dir, hdir, rfl⟩,
        hw _ _⟩
      have hcomp := reachN_compose m s (nbr s dir) 1 n e
        (reachN_single m s _ hstep) (ih _ hg hm)
      rw [Nat.add_comm] at hcomp
      exact hcomp
    rcases Int.lt_trichotomy s.r e.r with hlt | heq | hgt
    · refine key (1, 0) (by decide) ?_ ?_
      · unfold inGrid nbr
        dsimp only
        omega
      · unfold manhattan nbr
        dsimp only
        omega
    · rcases Int.lt_trichotomy s.c e.c with hclt | hceq | hcgt
      · refine key (0, 1) (by decide) ?_ ?_
        · unfold inGrid nbr
          dsimp only
          omega
        · unfold manhattan nbr
          dsimp only
          omega
      · exfalso
        omega
      · refine key (0, -1) (by decide) ?_ ?_
        · unfold inGrid nbr
          dsimp only
          omega
        · unfold manhattan nbr
          dsimp only
          omega
    · refine key (-1, 0) (by decide) ?_ ?_
      · unfold inGrid nbr
        dsimp only
        omega
      · unfold manhattan nbr
        dsimp only
        omega

/-- C2 (amended): On a wall-free grid with in-bounds start and end whose
Manhattan separation is below the `1e9` sentinel, all four grid
algorithms return a path with exactly the Manhattan distance plus one
cells. -/
theorem no_walls_manhattan_length (m : GridModel) (s e : Cell)
    (hms : m.start = some s) (hme : m.endp = some e)
    (hs : inGrid m s) (he : inGrid m e)
    (hw : ∀ r c, m.isWall r c = false)
    (hman : manhattan e s.r s.c < INF) :
    ((dijShortestPath m).path.length : Int) = manhattan e s.r s.c + 1 ∧
    ((aStarShortestPath m).path.length : Int) = manhattan e s.r s.c + 1 ∧
    ((bellmanFordShortestPath m).path.length : Int)
      = manhattan e s.r s.c + 1 ∧
    ((floydWarsShortestPath m).path.length : Int)
      = manhattan e s.r s.c + 1 := by
  have hman0 : 0 ≤ manhattan e s.r s.c := manhattan_nonneg e s.r s.c
  have hstair : reachN m s (manhattan e s.r s.c).toNat e :=
    manhattan_reach m e he hw _ s hs
      (by rw [Int.toNat_of_nonneg hman0])
  have key : ∀ (d : Int) (l : List Cell), (0 ≤ d ∧ d ≤ INF) →
      (d < INF → reachN m s d.toNat e) →
      (∀ k : Nat, (k : Int) < INF → reachN m s k e → d ≤ (k : Int)) →
      ((d = INF ∧ l = []) ∨ (d < INF ∧ (l.length : Int) = d + 1)) →
      (l.length : Int) = manhattan e s.r s.c + 1 := by
    intro d l hb hr hu hp
    have hdle : d ≤ manhattan e s.r s.c := by
      have := hu (manhattan e s.r s.c).toNat (by omega) hstair
      omega
    have hdlt : d < INF := by omega
    have hge : manhattan e s.r s.c ≤ d := by
      have hrr := hr hdlt
      have := manhattan_le_reach m s d.toNat e hrr
      omega
    rcases hp with ⟨h1, _⟩ | ⟨_, h2⟩
    · omega
    · omega
  obtain ⟨d1, h1b, h1r, h1u, h1p⟩ := dij_len_char m s e hms hme hs he
  obtain ⟨d2, h2b, h2r, h2u, h2p⟩ := aStar_len_char m s e hms hme hs he
  obtain ⟨d3, h3b, h3r, h3u, h3p⟩ := bf_len_char m s e hms hme hs he
  obtain ⟨d4, h4b, h4r, h4u, h4p⟩ := fw_len_char m s e hms hme hs he
  exact ⟨key d1 _ h1b h1r h1u h1p, key d2 _ h2b h2r h2u h2p,
    key d3 _ h3b h3r h3u h3p, key d4 _ h4b h4r h4u h4p⟩

theorem no_walls_manhattan_length_witness :
    mOpenC2.start = some ⟨0, 0⟩ ∧ mOpenC2.endp = some ⟨0, 1⟩ ∧
    inGrid mOpenC2 ⟨0, 0⟩ ∧ inGrid mOpenC2 ⟨0, 1⟩ ∧
    (∀ r c, mOpenC2.isWall r c = false) ∧
    manhattan ⟨0, 1⟩ (0 : Int) (0 : Int) < INF ∧
    (((dijShortestPath mOpenC2).path.length : Int)
        = manhattan ⟨0, 1⟩ (0 : Int) (0 : Int) + 1 ∧
      ((aStarShortestPath mOpenC2).path.length : Int)
        = manhattan ⟨0, 1⟩ (0 : Int) (0 : Int) + 1 ∧
      ((bellmanFordShortestPath mOpenC2).path.length : Int)
        = manhattan ⟨0, 1⟩ (0 : Int) (0 : Int) + 1 ∧
      ((floydWarsShortestPath mOpenC2).path.length : Int)
        = manhattan ⟨0, 1⟩ (0 : Int) (0 : Int) + 1) :=
  ⟨rfl, rfl, by decide, by decide, fun r c => rfl, by decide,
    no_walls_manhattan_length mOpenC2 ⟨0, 0⟩ ⟨0, 1⟩ rfl rfl (by decide)
      (by decide) (fun r c => rfl) (by decide)⟩

/-- C2 counterexample: on a wall-free grid whose start–end Manhattan
distance reaches the `1e9` sentinel, Dijkstra reports the end as
unreachable and returns the empty path, not a path of Manhattan-plus-one
cells. -/
theorem no_walls_manhattan_length_counterexample :
    (∀ r c, mHugeC2.isWall r c = false) ∧
    mHugeC2.start = some ⟨0, 0⟩ ∧
    mHugeC2.endp = some ⟨0, 1000000001⟩ ∧
    manhattan ⟨0, 1000000001⟩ (0 : Int) (0 : Int) = 1000000001 ∧
    (dijShortestPath mHugeC2).path = [] := by
  refine ⟨fun r c => rfl, rfl, rfl, by decide, ?_⟩
  obtain ⟨d, hb, hr, hu, hp⟩ := dij_len_char mHugeC2 ⟨0, 0⟩
    ⟨0, 1000000001⟩ rfl rfl (by decide) (by decide)
  have hd : d = INF := by
    by_contra hc
    have hdlt : d < INF := lt_of_le_of_ne hb.2 hc
    have hrr := hr hdlt
    have hm := manhattan_le_reach mHugeC2 ⟨0, 0⟩ d.toNat
      ⟨0, 1000000001⟩ hrr
    have hmv : manhattan ⟨0, 1000000001⟩ (Cell.mk 0 0).r (Cell.mk 0 0).c
        = 1000000001 := by decide
    rw [hmv] at hm
    have hINF : INF = 1000000000 := rfl
    omega
  rcases hp with ⟨_, hempty⟩ | ⟨hlt, _⟩
  · exact hempty
  · omega
